import Mathlib

/-!
# mango: the compute-shader JPEG decoder (`source/mango/opengl/jpeg_decoder.cpp`)

A shallow embedding of the GLSL compute shader (bit reader, canonical Huffman decode,
block decode, dequantisation and inverse DCT, colour resolve) and of the host side of
`ComputeDecoderContext::send` (decoding-table construction), followed by theorems
about them.

Conventions of the embedding.

* A GLSL `uint` is a `Nat` below `2^32`; every operation that can leave that range is
  reduced modulo `2^32` (`wrapU`, `subU`, `shl32`).
* A GLSL `int` is an `Int` in `[-2^31, 2^31)`; results are reduced by `wrapI`.
  Reduction modulo `2^32` commutes with `+`, `-` and `*`, so it is applied once per
  assigned variable.
* Arrays are lists read with `getD`/`get?`.  A read of the shader storage buffers
  outside the uploaded data yields `0`.  An index outside a fixed-size table
  (`maxcode[18]`, `value[256]`, `zigzagTable[64]`) has no defined result in GLSL and is
  the `none` outcome of the functions returning `Option`.
* Loops are structural recursions on a fuel argument; the fuel given by the callers is
  never the reason a loop stops (see the lemmas on `ensure`, `decodeSize`, `acLoop`).
-/

namespace JpegCompute

/-! ## Machine integers -/

/-- Reduction of a natural number to a GLSL `uint`. -/
def wrapU (x : Nat) : Nat := x % 4294967296

/-- The `uint` subtraction `a - b`. -/
def subU (a b : Nat) : Nat := (a + (4294967296 - b % 4294967296)) % 4294967296

/-- The `uint` shift `a << n`; a shift by 32 or more pushes every bit out. -/
def shl32 (a n : Nat) : Nat := if n < 32 then (a <<< n) % 4294967296 else 0

/-- The conversion `int(u)` of a `uint` bit pattern to a signed 32-bit integer. -/
def toInt32 (u : Nat) : Int :=
  if u % 4294967296 < 2147483648 then ((u % 4294967296 : Nat) : Int)
  else ((u % 4294967296 : Nat) : Int) - 4294967296

/-- Reduction of an integer to the signed 32-bit range (GLSL `int` arithmetic wraps). -/
def wrapI (z : Int) : Int := (z + 2147483648) % 4294967296 - 2147483648

/-! ## Bit reader (shader lines 177-229) -/

/-- The shader global `BitBuffer bitbuffer`. -/
structure BitBuffer where
  offset : Nat
  used : Nat
  data : Nat
  remain : Nat
deriving DecidableEq

/-- The shader function `getByte`: returns the byte and the updated bit buffer. -/
def getByte (input_data : List Nat) (bitbuffer : BitBuffer) : Nat × BitBuffer :=
  let bb : BitBuffer :=
    if bitbuffer.used = 32 then
      { bitbuffer with used := 0, offset := wrapU (bitbuffer.offset + 1) }
    else bitbuffer
  let x := (input_data.getD bb.offset 0 >>> bb.used) &&& 0xff
  (x, { bb with used := wrapU (bb.used + 8) })

/-- The shader function `peekBits`. -/
def peekBits (bitbuffer : BitBuffer) (nbits : Nat) : Nat :=
  (bitbuffer.data >>> (subU bitbuffer.remain nbits)) &&& (subU (shl32 1 nbits) 1)

/-- One execution of the body of the `while` loop of `ensure`: the byte `x` that is
shifted into `data`, and the updated bit buffer. -/
def ensureBody (input_data : List Nat) (bitbuffer : BitBuffer) : Nat × BitBuffer :=
  let bb1 : BitBuffer := { bitbuffer with remain := wrapU (bitbuffer.remain + 8) }
  let r := getByte input_data bb1
  let x := r.1
  let bb2 := if x = 0xff then (getByte input_data r.2).2 else r.2
  (x, { bb2 with data := shl32 bb2.data 8 ||| x })

/-- The `while (bitbuffer.remain < 16)` loop of `ensure`: the bytes shifted into
`data`, in order, and the bit buffer when the loop is left. -/
def ensureLoop (input_data : List Nat) : Nat → BitBuffer → List Nat × BitBuffer
  | 0, bitbuffer => ([], bitbuffer)
  | fuel + 1, bitbuffer =>
    if bitbuffer.remain < 16 then
      let r := ensureBody input_data bitbuffer
      let t := ensureLoop input_data fuel r.2
      (r.1 :: t.1, t.2)
    else ([], bitbuffer)

/-- The shader function `ensure`.  Two iterations always reach `remain >= 16`. -/
def ensure (input_data : List Nat) (bitbuffer : BitBuffer) : BitBuffer :=
  (ensureLoop input_data 2 bitbuffer).2

/-- The bytes that one call of `ensure` shifts into the bit buffer. -/
def ensureBytes (input_data : List Nat) (bitbuffer : BitBuffer) : List Nat :=
  (ensureLoop input_data 2 bitbuffer).1

/-- The bytes shifted into the bit buffer by a sequence of calls of `ensure`, where
the call number `k` is followed by the consumption `remain -= consumed[k]`. -/
def shiftedBytes (input_data : List Nat) : List Nat → BitBuffer → List Nat
  | [], _ => []
  | c :: cs, bitbuffer =>
    let bb := ensure input_data bitbuffer
    ensureBytes input_data bitbuffer ++
      shiftedBytes input_data cs { bb with remain := subU bb.remain c }

/-- The four bytes of a packed word in the order `getByte` reads them. -/
def wordBytes (w : Nat) : List Nat :=
  [w &&& 0xff, (w >>> 8) &&& 0xff, (w >>> 16) &&& 0xff, (w >>> 24) &&& 0xff]

/-- The byte stream of the lane that starts at word `offset` of `input_data`. -/
def laneBytes (input_data : List Nat) (offset : Nat) : List Nat :=
  (input_data.drop offset).flatMap wordBytes

/-- Byte-stuffing removal as the specification words it: every pair `0xFF, 0x00` is
replaced by a single `0xFF`, every other byte is kept. -/
def destuff : List Nat → List Nat
  | [] => []
  | [x] => [x]
  | x :: y :: rest =>
    if x = 0xff ∧ y = 0 then 0xff :: destuff rest else x :: destuff (y :: rest)

/-- The value returned by `receive` for the raw bits `value`:
`value - ((((value + value) >> nbits) - 1) & mask)`. -/
def receiveValue (nbits value : Nat) : Nat :=
  let mask := subU (shl32 1 nbits) 1
  subU value ((subU (wrapU (value + value) >>> nbits) 1) &&& mask)

/-- The shader function `receive`. -/
def receive (input_data : List Nat) (bitbuffer : BitBuffer) (nbits : Nat) :
    Nat × BitBuffer :=
  let bb1 := ensure input_data bitbuffer
  let bb2 : BitBuffer := { bb1 with remain := subU bb1.remain nbits }
  let mask := subU (shl32 1 nbits) 1
  let value := (bb2.data >>> bb2.remain) &&& mask
  (receiveValue nbits value, bb2)

/-- The reader of a lane that starts at word `o` stands at byte `j` of the lane
stream: `used` is a whole number of bytes and `4 * offset + used / 8` is the byte
position in `input_data`. -/
def ReaderAt (o j : Nat) (bb : BitBuffer) : Prop :=
  bb.used % 8 = 0 ∧ bb.used ≤ 32 ∧ 4 * bb.offset + bb.used / 8 = 4 * o + j

/-- The byte at byte position `q` of the packed words (least significant byte of a
word first); 0 outside the buffer. -/
def packedByte (input_data : List Nat) (q : Nat) : Nat :=
  (input_data.getD (q / 4) 0 >>> (8 * (q % 4))) &&& 0xff

/-! ## Huffman tables: host construction (lines 445-511) and shader decode (240-258) -/

/-- The fields of `jpeg::HuffmanTable` read by `send`: `size[17]` and `value[256]`,
both arrays of bytes. -/
structure HuffmanTable where
  size : List Nat
  value : List Nat
deriving DecidableEq

/-- The struct `ComputeHuffmanTable` uploaded to the shader. -/
structure ComputeHuffmanTable where
  size : List Nat
  value : List Nat
  maxcode : List Nat
  valueOffset : List Nat
deriving DecidableEq

/-- Figure C.1: the code length of every symbol, terminated by 0. -/
def makeHuffsize (size : List Nat) : List Nat :=
  (List.range' 1 16).flatMap (fun j => List.replicate (size.getD j 0) j) ++ [0]

/-- Figure C.2, inner loop `while (huffsize[p] == si)`: the codes written, the rest of
`huffsize` from the new `p` on, and the new `code`. -/
def codeRun (si : Nat) : List Nat → Nat → List Nat × List Nat × Nat
  | [], code => ([], [], code)
  | h :: rest, code =>
    if h = si then
      let r := codeRun si rest (code + 1)
      (code :: r.1, r.2.1, r.2.2)
    else ([], h :: rest, code)

/-- Figure C.2, outer loop `while (huffsize[p] != 0)`: the codes written to `huffcode`
from index `p` on, where `hs` is `huffsize` from index `p` on. -/
def genCodes : Nat → List Nat → Nat → Nat → List Nat
  | 0, _, _, _ => []
  | fuel + 1, hs, code, si =>
    if hs.headD 0 ≠ 0 then
      let r := codeRun si hs code
      r.1 ++ genCodes fuel r.2.1 (r.2.2 <<< 1) (si + 1)
    else []

/-- Figure C.2: the array `huffcode`.  The outer loop runs once per code length from
`huffsize[0]` to the largest length, at most 16 times. -/
def makeHuffcode (huffsize : List Nat) : List Nat :=
  genCodes 17 huffsize 0 (huffsize.headD 0)

/-- Figure F.15, one iteration of `for (int j = 1; j <= 16; j++)` on the state
`(p, maxcode, valueOffset)`. -/
def f15Step (size huffcode : List Nat) (st : Nat × List Nat × List Nat) (j : Nat) :
    Nat × List Nat × List Nat :=
  if size.getD j 0 ≠ 0 then
    let valueOffset := st.2.2.set j (subU st.1 (huffcode.getD st.1 0))
    let p := st.1 + size.getD j 0
    let m := shl32 (wrapU (huffcode.getD (p - 1) 0)) (32 - j) ||| wrapU ((1 <<< (32 - j)) - 1)
    (p, st.2.1.set j m, valueOffset)
  else
    (st.1, st.2.1.set j 0, st.2.2)

/-- The body of the loop over the four tables in `ComputeDecoderContext::send`: the
table uploaded for one source table.  The vector `huffmanBuffer(4)` is
value-initialised, so entries never assigned are 0. -/
def computeHuffmanTable (source : HuffmanTable) : ComputeHuffmanTable :=
  let size := (List.range 17).map (fun j => source.size.getD j 0)
  let value := (List.range 256).map (fun j => source.value.getD j 0)
  let huffcode := makeHuffcode (makeHuffsize size)
  let st := (List.range' 1 16).foldl (f15Step size huffcode)
    (0, List.replicate 18 0, List.replicate 19 0)
  { size := size
    value := value
    maxcode := st.2.1.set 17 0xffffffff
    valueOffset := st.2.2.set 18 0 }

/-- The number of symbols with a code length in `s .. s + d - 1`. -/
def symCount (size : List Nat) (s : Nat) : Nat → Nat
  | 0 => 0
  | d + 1 => size.getD s 0 + symCount size (s + 1) d

/-- The sum of `size[i] * 2^(s + d - i)` over the lengths `i` in `s .. s + d - 1`: the
first code of length `s + d` when the first code of length `s` is 0. -/
def codeBase (size : List Nat) (s : Nat) : Nat → Nat
  | 0 => 0
  | d + 1 => size.getD s 0 * 2 ^ (d + 1) + codeBase size (s + 1) d

/-- The index in `value[]` (and in `huffsize`, `huffcode`) of the first symbol of
code length `L`. -/
def firstIndex (size : List Nat) (L : Nat) : Nat := symCount size 1 (L - 1)

/-- The first canonical code of length `L`. -/
def firstCode (size : List Nat) (L : Nat) : Nat := codeBase size 1 (L - 1)

/-- The code lengths of the symbols with lengths `s .. s + n - 1`, as Figure C.1
lists them. -/
def lengthsFrom (size : List Nat) (s n : Nat) : List Nat :=
  (List.range' s n).flatMap (fun j => List.replicate (size.getD j 0) j)

/-- The canonical codes of the symbols with lengths `s .. s + n - 1` when the next
code of length `s` is `code`: the codes of one length are consecutive, and the running
code is doubled from one length to the next. -/
def canonFrom (size : List Nat) : Nat → Nat → Nat → List Nat
  | _, _, 0 => []
  | code, s, n + 1 =>
    (List.range (size.getD s 0)).map (fun t => code + t) ++
      canonFrom size ((code + size.getD s 0) * 2) (s + 1) n

/-- The array `huffsize` that `send` builds for a source table. -/
def hostHuffsize (source : HuffmanTable) : List Nat :=
  makeHuffsize (computeHuffmanTable source).size

/-- The array `huffcode` that `send` builds for a source table. -/
def hostHuffcode (source : HuffmanTable) : List Nat :=
  makeHuffcode (hostHuffsize source)

/-- The loop `while (x > maxcode[size]) ++size` of `decode`; `none` when the scan
leaves the 18 entries of `maxcode`. -/
def decodeSize (maxcode : List Nat) (x : Nat) : Nat → Nat → Option Nat
  | 0, _ => none
  | fuel + 1, size =>
    match maxcode.get? size with
    | none => none
    | some m => if x > m then decodeSize maxcode x fuel (size + 1) else some size

/-- The first half of `decode`: the code length found, the index `offset` into
`value[]`, and the bit buffer after `remain -= size`. -/
def decodeIndex (table : ComputeHuffmanTable) (input_data : List Nat)
    (bitbuffer : BitBuffer) : Option (Nat × Nat × BitBuffer) :=
  let bb := ensure input_data bitbuffer
  let x := shl32 bb.data (subU 32 bb.remain)
  match decodeSize table.maxcode x 17 2 with
  | none => none
  | some size =>
    let offset := wrapU ((x >>> (subU 32 size)) + table.valueOffset.getD size 0)
    some (size, offset, { bb with remain := subU bb.remain size })

/-- The shader function `decode` on one table: the symbol and the updated bit buffer;
`none` when `offset` is outside `value[256]`. -/
def decode (table : ComputeHuffmanTable) (input_data : List Nat)
    (bitbuffer : BitBuffer) : Option (Nat × BitBuffer) :=
  match decodeIndex table input_data bitbuffer with
  | none => none
  | some r =>
    match table.value.get? r.2.1 with
    | none => none
    | some symbol => some (symbol, r.2.2)

/-- The bit buffer of a lane after the four assignments at the start of `main`. -/
def laneInit (offset : Nat) : BitBuffer :=
  { offset := offset, used := 0, data := 0, remain := 0 }

/-! ## Block decode (shader lines 233-238, 279-349) -/

/-- The shader constant `zigzagTable`. -/
def zigzagTable : List Nat :=
  [ 0,  1,  8, 16,  9,  2,  3, 10,
   17, 24, 32, 25, 18, 11,  4,  5,
   12, 19, 26, 33, 40, 48, 41, 34,
   27, 20, 13,  6,  7, 14, 21, 28,
   35, 42, 49, 56, 57, 50, 43, 36,
   29, 22, 15, 23, 30, 37, 44, 51,
   58, 59, 52, 45, 38, 31, 39, 46,
   53, 60, 61, 54, 47, 55, 62, 63]

/-- The shader struct `DecodeBlock`: table indices and predictor index of a block. -/
structure DecodeBlock where
  dc : Nat
  ac : Nat
  pred : Nat
deriving DecidableEq

/-- The array `decodeBlocks[3]` as initialised at the start of `main`. -/
def decodeBlocks : List DecodeBlock :=
  [{ dc := 0, ac := 1, pred := 0 }, { dc := 2, ac := 3, pred := 1 },
   { dc := 2, ac := 3, pred := 2 }]

/-- The DC part of a block up to the addition of the predictor: `s = decode(dc)`
followed by `if (s != 0) s = receive(s)`.  The result is the DC difference. -/
def decodeDC (table : ComputeHuffmanTable) (input_data : List Nat)
    (bitbuffer : BitBuffer) : Option (Nat × BitBuffer) :=
  match decode table input_data bitbuffer with
  | none => none
  | some r => if r.1 ≠ 0 then some (receive input_data r.2 r.1) else some (r.1, r.2)

/-- The AC loop `for (int i = 1; i < 64; )` started at position `i` with coefficient
block `temp`; `none` when `decode` has no defined result or `i` leaves `zigzagTable`.
Every iteration advances `i`, so a fuel of 64 is never used up. -/
def acLoop (table : ComputeHuffmanTable) (input_data : List Nat) :
    Nat → Nat → List Int → BitBuffer → Option (List Int × BitBuffer)
  | 0, _, _, _ => none
  | fuel + 1, i, temp, bitbuffer =>
    if i < 64 then
      match decode table input_data bitbuffer with
      | none => none
      | some r =>
        let s := r.1
        let x := s &&& 15
        if x ≠ 0 then
          let i1 := i + (s >>> 4)
          let v := receive input_data r.2 x
          match zigzagTable.get? i1 with
          | none => none
          | some z => acLoop table input_data fuel (i1 + 1) (temp.set z (toInt32 v.1)) v.2
        else if s < 16 then some (temp, r.2)
        else acLoop table input_data fuel (i + 16) temp r.2
    else some (temp, bitbuffer)

/-- What the AC loop decodes in one iteration that does not end the block: a
coefficient (run, size and received value) or a size-0 symbol that skips 16
positions. -/
inductive ACEvent where
  | coef (run size : Nat) (value : Int)
  | zrl
deriving DecidableEq

/-- The sequence of events decoded by the AC loop started at position `i`: the same
recursion as `acLoop`, recording what `decode` and `receive` return and not touching
the coefficient block.  `none` only when `decode` has no defined result. -/
def acEvents (table : ComputeHuffmanTable) (input_data : List Nat) :
    Nat → Nat → BitBuffer → Option (List ACEvent)
  | 0, _, _ => none
  | fuel + 1, i, bitbuffer =>
    if i < 64 then
      match decode table input_data bitbuffer with
      | none => none
      | some r =>
        let s := r.1
        let x := s &&& 15
        if x ≠ 0 then
          let v := receive input_data r.2 x
          (acEvents table input_data fuel (i + (s >>> 4) + 1) v.2).map
            (fun es => ACEvent.coef (s >>> 4) x (toInt32 v.1) :: es)
        else if s < 16 then some []
        else (acEvents table input_data fuel (i + 16) r.2).map (fun es => ACEvent.zrl :: es)
    else some []

/-- Run-length reference: the zigzag position and value of every coefficient of an
event sequence, where `i` is one more than the previous position. -/
def placements : Nat → List ACEvent → List (Nat × Int)
  | _, [] => []
  | i, ACEvent.coef run _ value :: es => (i + run, value) :: placements (i + run + 1) es
  | i, ACEvent.zrl :: es => placements (i + 16) es

/-- Run-length reference: the coefficient at natural index `idx` of the block with DC
value `dc` and the given placements. -/
def refCoefficient (dc : Int) (ps : List (Nat × Int)) (idx : Nat) : Int :=
  if idx = 0 then dc
  else
    match ps.find? (fun pv => decide (zigzagTable.getD pv.1 64 = idx)) with
    | some pv => pv.2
    | none => 0

/-! ## Dequantisation and inverse DCT (shader lines 81-173) -/

/-- The shader struct `IDCT`. -/
structure IDCT where
  x0 : Int
  x1 : Int
  x2 : Int
  x3 : Int
  y0 : Int
  y1 : Int
  y2 : Int
  y3 : Int
deriving DecidableEq

/-- The shader function `idct_compute`. -/
def idct_compute (s0 s1 s2 s3 s4 s5 s6 s7 : Int) : IDCT :=
  let n0 := wrapI ((s2 + s6) * 2217)
  let t2 := wrapI (n0 + s6 * -7567)
  let t3 := wrapI (n0 + s2 * 3135)
  let t0 := wrapI ((s0 + s4) * 4096)
  let t1 := wrapI ((s0 - s4) * 4096)
  let p1 := wrapI (s7 + s1)
  let p2 := wrapI (s5 + s3)
  let p3 := wrapI (s7 + s3)
  let p4 := wrapI (s5 + s1)
  let p5 := wrapI ((p3 + p4) * 4816)
  let p1 := wrapI (p1 * -3685 + p5)
  let p2 := wrapI (p2 * -10497 + p5)
  let p3 := wrapI (p3 * -8034)
  let p4 := wrapI (p4 * -1597)
  { x0 := wrapI (t0 + t3)
    x3 := wrapI (t0 - t3)
    x1 := wrapI (t1 + t2)
    x2 := wrapI (t1 - t2)
    y0 := wrapI (p1 + p3 + s7 * 1223)
    y1 := wrapI (p2 + p4 + s5 * 8410)
    y2 := wrapI (p2 + p3 + s3 * 12586)
    y3 := wrapI (p1 + p4 + s1 * 6149) }

/-- The tail shared by both loops of `idct`: add `bias` to `x0..x3` and produce the
eight outputs `(x + y) >> k` and `(x - y) >> k`; the arithmetic right shift by `k` is
the floor division by `divisor = 2^k`. -/
def idctOutputs (c : IDCT) (bias divisor : Int) : List Int :=
  let x0 := wrapI (c.x0 + bias)
  let x1 := wrapI (c.x1 + bias)
  let x2 := wrapI (c.x2 + bias)
  let x3 := wrapI (c.x3 + bias)
  [wrapI (x0 + c.y3) / divisor, wrapI (x1 + c.y2) / divisor,
   wrapI (x2 + c.y1) / divisor, wrapI (x3 + c.y0) / divisor,
   wrapI (x3 - c.y0) / divisor, wrapI (x2 - c.y1) / divisor,
   wrapI (x1 - c.y2) / divisor, wrapI (x0 - c.y3) / divisor]

/-- First loop of `idct`, iteration `i`: dequantise column `i` of `data` and produce
`temp[i * 8 + 0 .. i * 8 + 7]` (bias `0x200`, shift 10). -/
def idctFirst (data qt : List Int) (i : Nat) : List Int :=
  let s := fun k => wrapI (data.getD (i + 8 * k) 0 * qt.getD (i + 8 * k) 0)
  idctOutputs (idct_compute (s 0) (s 1) (s 2) (s 3) (s 4) (s 5) (s 6) (s 7)) 0x200 1024

/-- Second loop of `idct`, iteration `i`: transform column `i` of `temp` and produce
`dest[i * 8 + 0 .. i * 8 + 7]` (bias `0x10000 + (128 << 17)`, shift 17). -/
def idctSecond (temp : List Int) (i : Nat) : List Int :=
  let t := fun k => temp.getD (i + 8 * k) 0
  idctOutputs (idct_compute (t 0) (t 1) (t 2) (t 3) (t 4) (t 5) (t 6) (t 7))
    (0x10000 + 128 * 131072) 131072

/-- The shader function `idct`: the 64 samples written to `dest`. -/
def idct (data qt : List Int) : List Int :=
  let temp := (List.range 8).flatMap (idctFirst data qt)
  (List.range 8).flatMap (idctSecond temp)

/-! ## Colour resolve and the lane program `main` (shader lines 262-372) -/

/-- A GLSL `vec4` colour.  Floating-point arithmetic is idealised to exact rational
arithmetic. -/
structure Vec4 where
  r : ℚ
  g : ℚ
  b : ℚ
  a : ℚ
deriving DecidableEq

/-- The shader function `chroma_to_rgb`. -/
def chroma_to_rgb (y cb cr : ℚ) : Vec4 :=
  { r := y + cr * (1400 / 1000)
    g := y - cb * (343 / 1000) - cr * (711 / 1000)
    b := y + cb * (1765 / 1000)
    a := 1 }

/-- One call `imageStore(u_texture, coord, color)`. -/
structure Store where
  x : Int
  y : Int
  color : Vec4
deriving DecidableEq

/-- The uniforms and storage buffers read by the shader. -/
structure ShaderInput where
  u_xmcu : Int
  u_quantize : List (List Int)
  input_data : List Nat
  input_offsets : List Nat
  huffman_tables : List ComputeHuffmanTable

/-- The state a lane carries from block to block: the bit buffer and
`last_dc_value[3]`. -/
structure LaneState where
  bitbuffer : BitBuffer
  last_dc_value : List Nat
deriving DecidableEq

/-- What one iteration of the loop over `blk` computes: the DC difference, the
coefficient block `temp` and the samples `result[blk]`. -/
structure BlockTrace where
  diff : Nat
  temp : List Int
  result : List Int
deriving DecidableEq

/-- One iteration of `for (int blk = 0; blk < 3; ++blk)`. -/
def decodeBlock (inp : ShaderInput) (blk : Nat) (st : LaneState) :
    Option (BlockTrace × LaneState) :=
  match decodeBlocks.get? blk with
  | none => none
  | some db =>
    match inp.huffman_tables.get? db.dc, inp.huffman_tables.get? db.ac with
    | some dcTable, some acTable =>
      match decodeDC dcTable inp.input_data st.bitbuffer with
      | none => none
      | some d =>
        let s := wrapU (d.1 + st.last_dc_value.getD db.pred 0)
        let last := st.last_dc_value.set db.pred s
        let temp0 := (List.replicate 64 (0 : Int)).set 0 (toInt32 s)
        match acLoop acTable inp.input_data 64 1 temp0 d.2 with
        | none => none
        | some a =>
          some ({ diff := d.1, temp := a.1, result := idct a.1 (inp.u_quantize.getD blk []) },
                { bitbuffer := a.2, last_dc_value := last })
    | _, _ => none

/-- The colour stored for pixel `k = y * 8 + x` of an MCU with samples `result`. -/
def resolveColor (result : List (List Int)) (k : Nat) : Vec4 :=
  let Y : ℚ := ((result.getD 0 []).getD k 0 : ℚ) / 255
  let cb : ℚ := (wrapI ((result.getD 1 []).getD k 0 - 128) : ℚ) / 255
  let cr : ℚ := (wrapI ((result.getD 2 []).getD k 0 - 128) : ℚ) / 255
  chroma_to_rgb Y cb cr

/-- The "resolve color" loops of one MCU: the 64 stores in program order. -/
def resolveStores (laneY : Nat) (mcu_x : Nat) (result : List (List Int)) : List Store :=
  let bx := wrapI ((mcu_x : Int) * 8)
  let bY := toInt32 (wrapU (laneY * 8))
  (List.range 8).flatMap (fun (y : Nat) => (List.range 8).map (fun (x : Nat) =>
    { x := wrapI (bx + (x : Int)), y := wrapI (bY + (y : Int)),
      color := resolveColor result (y * 8 + x) }))

/-- What one iteration of the loop over `mcu_x` computes. -/
structure McuTrace where
  blocks : List BlockTrace
  stores : List Store
deriving DecidableEq

/-- One iteration of `for (int mcu_x = 0; mcu_x < u_xmcu; ++mcu_x)`. -/
def decodeMcu (inp : ShaderInput) (laneY mcu_x : Nat) (st : LaneState) :
    Option (McuTrace × LaneState) :=
  match decodeBlock inp 0 st with
  | none => none
  | some b0 =>
    match decodeBlock inp 1 b0.2 with
    | none => none
    | some b1 =>
      match decodeBlock inp 2 b1.2 with
      | none => none
      | some b2 =>
        some ({ blocks := [b0.1, b1.1, b2.1]
                stores := resolveStores laneY mcu_x [b0.1.result, b1.1.result, b2.1.result] },
              b2.2)

/-- The loop over `mcu_x`, with `n` iterations left. -/
def mcuLoop (inp : ShaderInput) (laneY : Nat) : Nat → Nat → LaneState → Option (List McuTrace)
  | 0, _, _ => some []
  | n + 1, mcu_x, st =>
    match decodeMcu inp laneY mcu_x st with
    | none => none
    | some m => (mcuLoop inp laneY n (mcu_x + 1) m.2).map (fun ms => m.1 :: ms)

/-- The shader entry point `main` for the invocation with `gl_GlobalInvocationID.y =
laneY`: what every MCU of the lane computes, or `none` when a table index leaves its
array. -/
def main (inp : ShaderInput) (laneY : Nat) : Option (List McuTrace) :=
  mcuLoop inp laneY inp.u_xmcu.toNat 0
    { bitbuffer := laneInit (inp.input_offsets.getD laneY 0)
      last_dc_value := [0, 0, 0] }

/-- The DC coefficient (index 0 of the coefficient block) of block `c` of MCU
number `k` of a lane. -/
def dcCoefficient (ms : List McuTrace) (k c : Nat) : Option Int :=
  (ms.get? k).bind (fun m => (m.blocks.get? c).map (fun b => b.temp.getD 0 0))

/-- The DC difference decoded for block `c` of an MCU, read as a signed 32-bit
integer. -/
def dcDiff (m : McuTrace) (c : Nat) : Int :=
  ((m.blocks.get? c).map (fun b => toInt32 b.diff)).getD 0

/-- The sum of the DC differences of blocks `0..k` of component `c` of a lane. -/
def dcDiffSum (ms : List McuTrace) (k c : Nat) : Int :=
  ((ms.take (k + 1)).map (fun m => dcDiff m c)).sum

/-- The loop over `mcu_x` again, this time returning the lane state when the loop
is left (the bit buffer and the DC predictors after the last MCU). -/
def mcuLoopState (inp : ShaderInput) (laneY : Nat) : Nat → Nat → LaneState → Option LaneState
  | 0, _, st => some st
  | n + 1, mcu_x, st =>
    match decodeMcu inp laneY mcu_x st with
    | none => none
    | some m => mcuLoopState inp laneY n (mcu_x + 1) m.2

/-- The lane state at the end of `main`. -/
def laneFinal (inp : ShaderInput) (laneY : Nat) : Option LaneState :=
  mcuLoopState inp laneY inp.u_xmcu.toNat 0
    { bitbuffer := laneInit (inp.input_offsets.getD laneY 0)
      last_dc_value := [0, 0, 0] }

/-- The calls of `imageStore` made by a lane, in program order. -/
def laneStores (inp : ShaderInput) (laneY : Nat) : Option (List Store) :=
  (main inp laneY).map (fun ms => ms.flatMap (fun m => m.stores))

/-- The 64 pixel coordinates of the 8x8 block in MCU column `mcu_x` of the lane
`laneY`, row by row. -/
def blockPixels (laneY mcu_x : Nat) : List (Int × Int) :=
  (List.range 8).flatMap (fun (y : Nat) => (List.range 8).map (fun (x : Nat) =>
    ((8 * (mcu_x : Int) + (x : Int), 8 * (laneY : Int) + (y : Int)) : Int × Int)))

/-- The image `u_texture` as a map from pixel coordinates to colours. -/
def Image : Type := Int → Int → Vec4

/-- The effect of `imageStore` on the image. -/
def imageStore (img : Image) (s : Store) : Image :=
  fun x y => if x = s.x ∧ y = s.y then s.color else img x y

/-- Running one lane to completion on an image. -/
def runLane (inp : ShaderInput) (img : Image) (laneY : Nat) : Option Image :=
  (laneStores inp laneY).map (fun ss => ss.foldl imageStore img)

/-- Running the lanes of `order` one after another. -/
def runLanes (inp : ShaderInput) (order : List Nat) (img : Image) : Option Image :=
  order.foldlM (runLane inp) img

/-! ## Host side: offset table and upload of the intervals (lines 401-436) -/

/-- Modelled from the spec: `align_offset` of the mango core library, which is not
among the sources; `align_offset(s, a)` is the least multiple of `a` that is `>= s`. -/
def align_offset (offset alignment : Nat) : Nat :=
  (offset + alignment - 1) / alignment * alignment

/-- One iteration of the first loop over `input.intervals` on the state
`(offsets, offset)`, for an interval of `size` bytes:
`offsets.push_back(u32(offset / 4)); offset += align_offset(memory.size, 4)`. -/
def offsetStep (st : List Nat × Nat) (size : Nat) : List Nat × Nat :=
  (st.1 ++ [wrapU (st.2 / 4)], st.2 + align_offset size 4)

/-- The offset table and `buffer_size` computed by `send` for intervals of the given
byte sizes. -/
def computeOffsets (sizes : List Nat) : List Nat × Nat :=
  sizes.foldl offsetStep ([], 0)

/-- The call `std::memcpy(ptr + offset, memory.address, memory.size)` on a buffer of
bytes. -/
def memcpy (buffer : List Nat) (offset : Nat) (memory : List Nat) : List Nat :=
  buffer.take offset ++ memory ++ buffer.drop (offset + memory.length)

/-- One iteration of the upload loop on the state `(buffer, offset)`. -/
def uploadStep (st : List Nat × Nat) (memory : List Nat) : List Nat × Nat :=
  (memcpy st.1 st.2 memory, st.2 + align_offset memory.length 4)

/-- The mapped buffer after the upload loop; `buffer` is its content before the
loop (the storage is allocated without data), `intervals` the bytes of every
interval. -/
def uploadIntervals (buffer : List Nat) (intervals : List (List Nat)) : List Nat :=
  (intervals.foldl uploadStep (buffer, 0)).1

/-- The byte offset at which interval `k` is placed: the sum of the aligned sizes of
the intervals before it. -/
def intervalStart (sizes : List Nat) (k : Nat) : Nat :=
  ((sizes.take k).map (fun s => align_offset s 4)).sum

/-- The bytes of the mapped buffer read as the array `uint input_data[]` (least
significant byte first). -/
def packWords : List Nat → List Nat
  | b0 :: b1 :: b2 :: b3 :: rest =>
    (b0 ||| (b1 <<< 8) ||| (b2 <<< 16) ||| (b3 <<< 24)) :: packWords rest
  | _ => []

/-! ## Concrete inputs -/

/-- The Kraft sum of a code-length distribution, scaled by `2^16`. -/
def kraftSum (size : List Nat) : Nat :=
  ((List.range' 1 16).map (fun j => size.getD j 0 * 2 ^ (16 - j))).sum

/-- The GLSL function `clamp` on integers. -/
def clamp (v lo hi : Int) : Int := min (max v lo) hi

/-- The coefficient block with DC value `D` and all 63 AC coefficients zero. -/
def dcBlock (D : Int) : List Int := (List.replicate 64 (0 : Int)).set 0 D

/-- A source table with one 1-bit code and one 2-bit code: symbol 5 has code `0`,
symbol 7 has code `10`. -/
def oneBitTable : HuffmanTable :=
  { size := [0, 1, 1] ++ List.replicate 14 0
    value := [5, 7] ++ List.replicate 254 0 }



/-- A source AC table with three 2-bit codes: `00` end of block, `01` run 1 and
size 2, `10` a skip of 16 positions. -/
def acDemoTable : HuffmanTable :=
  { size := [0, 0, 3] ++ List.replicate 14 0
    value := [0x00, 0x12, 0xF0] ++ List.replicate 253 0 }

/-- A source DC table with two 2-bit codes: `00` category 0, `01` category 10. -/
def dcDemoTable : HuffmanTable :=
  { size := [0, 0, 2] ++ List.replicate 14 0
    value := [0, 10] ++ List.replicate 254 0 }

/-- A source AC table whose only code is `00`, end of block. -/
def eobTable : HuffmanTable :=
  { size := [0, 0, 1] ++ List.replicate 14 0
    value := List.replicate 256 0 }

/-- A scan of one lane over the demo tables with all quantisation entries 1. -/
def demoScan (xmcu : Int) (data : List Nat) : ShaderInput :=
  { u_xmcu := xmcu
    u_quantize := List.replicate 3 (List.replicate 64 1)
    input_data := data
    input_offsets := [0]
    huffman_tables := [computeHuffmanTable dcDemoTable, computeHuffmanTable eobTable,
      computeHuffmanTable dcDemoTable, computeHuffmanTable eobTable] }

/-- The single-MCU scan of the end-to-end scenario: the entropy-coded bytes
`60 00 03` are the bits `01 1000000000 00` (Y: DC difference 512, end of block) and
`00 00`, `00 00` (Cb and Cr: DC difference 0, end of block), padded with ones. -/
def grayScan : ShaderInput := demoScan 1 [0x00030060, 0]

/-- A two-MCU scan: the bytes `60 00 01 7F C0 0F` code the Y differences 512 and
-512 and the Cb, Cr differences 0. -/
def twoMcuScan : ShaderInput := demoScan 2 [0x7f010060, 0x00000fc0, 0]

/-- A scan of two lanes of one MCU each; both intervals hold the bytes `60 00 03`. -/
def twoLaneScan : ShaderInput :=
  { demoScan 1 [0x00030060, 0x00030060, 0] with input_offsets := [0, 1] }

/-- The image with every pixel `(0, 0, 0, 0)`. -/
def blankImage : Image := fun _ _ => { r := 0, g := 0, b := 0, a := 0 }

/-- The scan `grayScan` as the host uploads it: one interval of the 3 bytes
`60 00 03`, copied into a 4-byte buffer, with the offset table of `send`. -/
def packedGrayScan : ShaderInput :=
  { demoScan 1 (packWords (uploadIntervals [0, 0, 0, 0] [[0x60, 0x00, 0x03]])) with
    input_offsets := (computeOffsets [3]).1 }

/-! ## Reference definitions for the colour conversion and the bit stream -/

/-- The colour the specification gives for a sample triple: `y = Y/255`,
`cb = (Cb - 128)/255`, `cr = (Cr - 128)/255` and
`(y + 1.400 cr, y - 0.343 cb - 0.711 cr, y + 1.765 cb, 1)`. -/
def specColor (Y Cb Cr : Int) : Vec4 :=
  let y : ℚ := (Y : ℚ) / 255
  let cb : ℚ := ((Cb : ℚ) - 128) / 255
  let cr : ℚ := ((Cr : ℚ) - 128) / 255
  { r := y + 1400 / 1000 * cr
    g := y - 343 / 1000 * cb - 711 / 1000 * cr
    b := y + 1765 / 1000 * cb
    a := 1 }

/-- The states `(i, temp, bitbuffer)` in which the AC loop started at position `i`
evaluates its condition `i < 64`, in order: the same recursion as `acLoop`, recording
the state at the head of every iteration and at the exit. -/
def acStates (table : ComputeHuffmanTable) (input_data : List Nat) :
    Nat → Nat → List Int → BitBuffer → List (Nat × List Int × BitBuffer)
  | 0, _, _, _ => []
  | fuel + 1, i, temp, bitbuffer =>
    (i, temp, bitbuffer) ::
      (if i < 64 then
        match decode table input_data bitbuffer with
        | none => []
        | some r =>
          let s := r.1
          let x := s &&& 15
          if x ≠ 0 then
            let i1 := i + (s >>> 4)
            let v := receive input_data r.2 x
            match zigzagTable.get? i1 with
            | none => []
            | some z => acStates table input_data fuel (i1 + 1) (temp.set z (toInt32 v.1)) v.2
          else if s < 16 then []
          else acStates table input_data fuel (i + 16) temp r.2
      else [])

/-- A scan of one block over `acDemoTable`: the bits `10 10 10` (three skips of 16
positions) followed by eight times `01 11` (run 1, size 2, value 3). -/
def overrunScan : List Nat := [0xdddddda9, 0xdf, 0]

/-- The state number 10 of the AC loop on `overrunScan`. -/
def overrunState : Nat × List Int × BitBuffer :=
  ((acStates (computeHuffmanTable acDemoTable) overrunScan 64 1 (dcBlock 0) (laneInit 0)).get?
    10).getD (0, [], laneInit 0)

/-- What `decode` returns in `overrunState`. -/
def overrunSymbol : Nat × BitBuffer :=
  (decode (computeHuffmanTable acDemoTable) overrunScan overrunState.2.2).getD (0, laneInit 0)

/-- The bytes of a lane stream that `ensure` shifts into the bit buffer, as the loop
body consumes them: a byte is shifted in, and when it is `0xFF` the byte after it is
read by the second `getByte` and discarded, whatever its value. -/
def skipStuffed : List Nat → List Nat
  | [] => []
  | [x] => [x]
  | x :: y :: rest => if x = 0xff then x :: skipStuffed rest else x :: skipStuffed (y :: rest)

/-- What a call of `decode` or `receive` that consumes `c` bits does to the bit
buffer: `ensure()` followed by `bitbuffer.remain -= c`. -/
def consume (input_data : List Nat) (bitbuffer : BitBuffer) (c : Nat) : BitBuffer :=
  let bb := ensure input_data bitbuffer
  { bb with remain := subU bb.remain c }

/-- The bit buffer of the lane that starts at word `o` after a sequence of calls of
`decode` and `receive` that consume `cs[0], cs[1], ...` bits. -/
def consumeAll (input_data : List Nat) (o : Nat) (cs : List Nat) : BitBuffer :=
  cs.foldl (consume input_data) (laneInit o)

/-- The bytes of a stream read as one number, the first byte most significant. -/
def streamValue (bytes : List Nat) : Nat := bytes.foldl (fun a b => a * 256 + b) 0

/-- The `len` bits of a byte stream from bit position `p` on, where bit 0 is the most
significant bit of the first byte, as a number with the first of these bits most
significant (for `p + len` within the stream). -/
def streamBits (bytes : List Nat) (p len : Nat) : Nat :=
  streamValue bytes / 2 ^ (8 * bytes.length - (p + len)) % 2 ^ len

/-- A source AC table with two 2-bit codes: `00` end of block, `01` the symbol `0x30`
(run 3, size 0). -/
def skipTable : HuffmanTable :=
  { size := [0, 0, 2] ++ List.replicate 14 0
    value := [0x00, 0x30] ++ List.replicate 254 0 }

end JpegCompute

/-!
# mango: Atari image helpers, mesh conversion and the core buffer

Embeddings of `convert_atari_color` and `degas_decompress`
(`source/mango/image/image_atari.cpp`), of the two overloads of `convertMesh`
(`source/mango/import3d/mesh.cpp`) and of `Buffer` and `BufferStream::read`
(`source/mango/core/buffer.cpp`).

* A `u8`, `u16`, `u32`, `size_t` or `u64` is a `Nat`; where a result can leave the
  range of its type it is reduced modulo `2^8`, `2^32` or `2^64`.
* A byte of allocated storage is an `Option Nat`: `none` is a byte that was never
  written.
* A thrown exception is the `Except.error` outcome.
-/

namespace Mango

/-! ## Atari colours (image_atari.cpp, lines 70-80) -/

/-- The struct `BGRA`: four `u8` channels. -/
structure BGRA where
  b : Nat
  g : Nat
  r : Nat
  a : Nat
deriving DecidableEq

/-- The function `convert_atari_color`; every channel is stored in a `u8`. -/
def convert_atari_color (atari_color : Nat) : BGRA :=
  { b := (((atari_color &&& 0x7) <<< 5) ||| ((atari_color &&& 0x8) <<< 1) |||
      ((atari_color &&& 0x7) <<< 1) ||| ((atari_color &&& 0x8) >>> 3)) % 256
    g := (((atari_color &&& 0x70) <<< 1) ||| ((atari_color &&& 0x80) >>> 3) |||
      ((atari_color &&& 0x70) >>> 3) ||| ((atari_color &&& 0x80) >>> 7)) % 256
    r := (((atari_color &&& 0x700) >>> 3) ||| ((atari_color &&& 0x800) >>> 7) |||
      ((atari_color &&& 0x700) >>> 7) ||| ((atari_color &&& 0x800) >>> 11)) % 256
    a := 0xff }

/-- The 8-bit value the specification gives for a 4-bit STE channel `n`:
`17 * (((n & 7) << 1) | (n >> 3))`. -/
def expandNibble (n : Nat) : Nat := 17 * (((n &&& 7) <<< 1) ||| (n >>> 3))

/-! ## Degas decompression (image_atari.cpp, lines 100-127) -/

/-- One memory access of `degas_decompress`: `len` bytes read from `input + pos`, or
`len` bytes written to `buffer + pos`. -/
inductive Access where
  | read (pos len : Nat)
  | write (pos len : Nat)
deriving DecidableEq

/-- The function `degas_decompress`, as the list of its memory accesses in program
order.  `input` is the memory from the pointer `input` on and `inputSize` is
`input_end - input`; `b` and `i` are the distances of the pointers `buffer` and `input`
from their initial values.  A byte outside `input` is read as 0.  Every iteration
advances `buffer`, so a fuel of `scansize` is never used up. -/
def degas_decompress (input : List Nat) (inputSize : Nat) (scansize : Int) :
    Nat → Nat → Nat → List Access
  | 0, _, _ => []
  | fuel + 1, b, i =>
    if (b : Int) < scansize ∧ i < inputSize then
      let v := input.getD i 0
      if v > 128 then
        let n := 257 - v
        Access.read i 1 :: Access.read (i + 1) 1 :: Access.write b n ::
          degas_decompress input inputSize scansize fuel (b + n) (i + 1 + 1)
      else if v < 128 then
        let n := v + 1
        Access.read i 1 :: Access.read (i + 1) n :: Access.write b n ::
          degas_decompress input inputSize scansize fuel (b + n) (i + 1 + n)
      else [Access.read i 1]
    else []

/-- An access stays inside its buffer: a read ends at or before `input_end`, a write
at or before `buffer + scansize`. -/
def Access.inside (inputSize : Nat) (scansize : Int) : Access → Prop
  | Access.read pos len => pos + len ≤ inputSize
  | Access.write pos len => ((pos + len : Nat) : Int) ≤ scansize

instance Access.decidableInside (inputSize : Nat) (scansize : Int) (a : Access) :
    Decidable (a.inside inputSize scansize) :=
  match a with
  | Access.read pos len => inferInstanceAs (Decidable (pos + len ≤ inputSize))
  | Access.write pos len => inferInstanceAs (Decidable (((pos + len : Nat) : Int) ≤ scansize))

/-- A compressed stream for a 32000-byte buffer: 249 runs of 128 bytes, one run of
127 bytes and one more run of 128 bytes. -/
def degasOverrunInput : List Nat :=
  (List.replicate 249 [0x81, 0]).flatten ++ [0x82, 0] ++ [0x81, 0]

/-! ## Mesh conversion (mesh.cpp, lines 148-293) -/

/-- The struct `Triangle`: three vertices and a material index.  The source compares
vertices bytewise (`memcmp`); here a vertex is a value of a type `V` with decidable
equality. -/
structure Triangle (V : Type) where
  vertex0 : V
  vertex1 : V
  vertex2 : V
  material : Nat
deriving DecidableEq

/-- The struct `Mesh`. -/
structure Mesh (V : Type) where
  triangles : List (Triangle V)
deriving DecidableEq

/-- The enumeration `Primitive::Mode`. -/
inductive Mode where
  | TRIANGLE_LIST
  | TRIANGLE_STRIP
  | TRIANGLE_FAN
deriving DecidableEq

/-- The struct `Primitive`. -/
structure Primitive where
  mode : Mode
  start : Nat
  count : Nat
  material : Nat
deriving DecidableEq

/-- The struct `IndexedMesh`. -/
structure IndexedMesh (V : Type) where
  vertices : List V
  indices : List Nat
  primitives : List Primitive
deriving DecidableEq

/-- The expression `input.vertices[input.indices[i]]`; `none` when an index is
outside its vector. -/
def IndexedMesh.vertexAt {V : Type} (input : IndexedMesh V) (i : Nat) : Option V :=
  (input.indices.get? i).bind (fun idx => input.vertices.get? idx)

/-- The loop of the case `TRIANGLE_LIST`: `for (i = start; i < end; i += 3)`. -/
def listTriangles {V : Type} (input : IndexedMesh V) (material : Nat) (stop : Nat) :
    Nat → Nat → Option (List (Triangle V))
  | 0, _ => some []
  | fuel + 1, i =>
    if i < stop then
      match input.vertexAt (i + 0), input.vertexAt (i + 1), input.vertexAt (i + 2) with
      | some a, some b, some c =>
        (listTriangles input material stop fuel (i + 3)).map
          (fun ts => { vertex0 := a, vertex1 := b, vertex2 := c, material := material } :: ts)
      | _, _, _ => none
    else some []

/-- The loop of the case `TRIANGLE_STRIP`: `for (i = start + 2; i < end; ++i)` with
the running vertices `v0`, `v1`; every iteration assigns `v0` to the slot `i & 1`,
`v1` to the slot `(i + 1) & 1` and the new vertex to the slot 2. -/
def stripTriangles {V : Type} (input : IndexedMesh V) (material : Nat) (stop : Nat) :
    Nat → Nat → V → V → Option (List (Triangle V))
  | 0, _, _, _ => some []
  | fuel + 1, i, v0, v1 =>
    if i < stop then
      match input.vertexAt i with
      | some c =>
        let t : Triangle V :=
          if (i + 0) &&& 1 = 0 then
            { vertex0 := v0, vertex1 := v1, vertex2 := c, material := material }
          else
            { vertex0 := v1, vertex1 := v0, vertex2 := c, material := material }
        (stripTriangles input material stop fuel (i + 1) v1 c).map (fun ts => t :: ts)
      | none => none
    else some []

/-- The loop of the case `TRIANGLE_FAN`: `for (i = start + 2; i < end; ++i)` with
`triangle.vertex[0] = first` fixed and `last = triangle.vertex[2]` of the previous
iteration. -/
def fanTriangles {V : Type} (input : IndexedMesh V) (material : Nat) (stop : Nat) (first : V) :
    Nat → Nat → V → Option (List (Triangle V))
  | 0, _, _ => some []
  | fuel + 1, i, last =>
    if i < stop then
      match input.vertexAt i with
      | some c =>
        (fanTriangles input material stop first fuel (i + 1) c).map
          (fun ts => { vertex0 := first, vertex1 := last, vertex2 := c, material := material } :: ts)
      | none => none
    else some []

/-- The body of the loop over `input.primitives` of `convertMesh(const IndexedMesh&)`:
the triangles pushed for one primitive. -/
def primitiveTriangles {V : Type} (input : IndexedMesh V) (primitive : Primitive) :
    Option (List (Triangle V)) :=
  let start := primitive.start
  let stop := start + primitive.count
  match primitive.mode with
  | Mode.TRIANGLE_LIST => listTriangles input primitive.material stop primitive.count start
  | Mode.TRIANGLE_STRIP =>
    match input.vertexAt (start + 0), input.vertexAt (start + 1) with
    | some v0, some v1 =>
      stripTriangles input primitive.material stop primitive.count (start + 2) v0 v1
    | _, _ => none
  | Mode.TRIANGLE_FAN =>
    match input.vertexAt (start + 0), input.vertexAt (start + 1) with
    | some v0, some v2 =>
      fanTriangles input primitive.material stop v0 primitive.count (start + 2) v2
    | _, _ => none

/-- The function `convertMesh(const IndexedMesh&)`; `none` when an index is outside
its vector. -/
def IndexedMesh.convertMesh {V : Type} (input : IndexedMesh V) : Option (Mesh V) :=
  (input.primitives.mapM (primitiveTriangles input)).map
    (fun tss => { triangles := tss.flatten })

/-- The local state of `convertMesh(const Mesh&)`: the map `unique`, the running
`primitive` and `output`. -/
structure IndexState (V : Type) where
  unique : List (V × Nat)
  primitive : Primitive
  output : IndexedMesh V

/-- One iteration of `for (int i = 0; i < 3; ++i)`: look the vertex up in `unique`,
append it to `output.vertices` when it is new, push its index as a `u32` and count
it. -/
def addVertex {V : Type} [DecidableEq V] (st : IndexState V) (vertex : V) : IndexState V :=
  match st.unique.lookup vertex with
  | some index =>
    { st with
      primitive := { st.primitive with count := st.primitive.count + 1 }
      output := { st.output with indices := st.output.indices ++ [index % 4294967296] } }
  | none =>
    let index := st.output.vertices.length
    { unique := (vertex, index) :: st.unique
      primitive := { st.primitive with count := st.primitive.count + 1 }
      output := { st.output with
        vertices := st.output.vertices ++ [vertex]
        indices := st.output.indices ++ [index % 4294967296] } }

/-- One iteration of `for (const Triangle& triangle : input.triangles)`. -/
def addTriangle {V : Type} [DecidableEq V] (st : IndexState V) (triangle : Triangle V) :
    IndexState V :=
  let st1 : IndexState V :=
    if st.primitive.material ≠ triangle.material then
      if st.primitive.count > 0 then
        { st with
          output := { st.output with primitives := st.output.primitives ++ [st.primitive] }
          primitive := { st.primitive with
            start := st.primitive.start + st.primitive.count
            count := 0
            material := triangle.material } }
      else st
    else st
  addVertex (addVertex (addVertex st1 triangle.vertex0) triangle.vertex1) triangle.vertex2

/-- The function `convertMesh(const Mesh&)`.  The copy `triangles` that the function
sorts by material is never read afterwards: the loop runs over `input.triangles`. -/
def Mesh.convertMesh {V : Type} [DecidableEq V] (input : Mesh V) : IndexedMesh V :=
  let st := input.triangles.foldl addTriangle
    { unique := []
      primitive := { mode := Mode.TRIANGLE_LIST, start := 0, count := 0, material := 0 }
      output := { vertices := [], indices := [], primitives := [] } }
  if st.primitive.count > 0 then
    { st.output with primitives := st.output.primitives ++ [st.primitive] }
  else st.output

/-! ## Buffer and BufferStream (buffer.cpp) -/

/-- The call `std::memcpy(dest + offset, source, source.length)` on a block of
storage. -/
def copyBytes (dest : List (Option Nat)) (offset : Nat) (source : List (Option Nat)) :
    List (Option Nat) :=
  dest.take offset ++ source ++ dest.drop (offset + source.length)

/-- The members of `Buffer`: `m_memory.address` (`none` is the null pointer, `some`
holds the allocated block), `m_memory.size` and `m_capacity`. -/
structure Buffer where
  address : Option (List (Option Nat))
  size : Nat
  capacity : Nat
deriving DecidableEq

/-- A `ConstMemory`: an address (`none` is the null pointer, `some` holds the bytes
found there) and a size. -/
structure ConstMemory where
  address : Option (List Nat)
  size : Nat
deriving DecidableEq

/-- The function `Buffer::allocate`: a block of `bytes` bytes, none of them written.
The allocation itself (`aligned_malloc`, not among the sources) is taken to
succeed. -/
def Buffer.allocate (bytes : Nat) : Option (List (Option Nat)) :=
  some (List.replicate bytes none)

/-- The bytes a source pointer provides to a copy of `bytes` bytes. -/
def sourceBytes (source : Option (List Nat)) (bytes : Nat) : List (Option Nat) :=
  match source with
  | none => []
  | some l => (l.take bytes).map some

/-- A write of `data` at `offset` through the pointer `address`; nothing is written
through a null pointer. -/
def writeAt (address : Option (List (Option Nat))) (offset : Nat) (data : List (Option Nat)) :
    Option (List (Option Nat)) :=
  address.map (fun block => copyBytes block offset data)

/-- The constructor `Buffer()`. -/
def Buffer.init : Buffer := { address := none, size := 0, capacity := 0 }

/-- The constructor `Buffer(size_t bytes)`. -/
def Buffer.initBytes (bytes : Nat) : Buffer :=
  { address := Buffer.allocate bytes, size := bytes, capacity := bytes }

/-- The constructor `Buffer(size_t bytes, u8 value)`. -/
def Buffer.initFill (bytes value : Nat) : Buffer :=
  { address := writeAt (Buffer.allocate bytes) 0 (List.replicate bytes (some value))
    size := bytes, capacity := bytes }

/-- The constructor `Buffer(const void* source, size_t bytes)`. -/
def Buffer.initCopy (source : Option (List Nat)) (bytes : Nat) : Buffer :=
  { address := writeAt (Buffer.allocate bytes) 0 (sourceBytes source bytes)
    size := bytes, capacity := bytes }

/-- The constructor `Buffer(ConstMemory memory)`. -/
def Buffer.initMemory (memory : ConstMemory) : Buffer :=
  { address := writeAt (Buffer.allocate memory.size) 0 (sourceBytes memory.address memory.size)
    size := memory.size, capacity := memory.size }

/-- The constructor `Buffer(Stream& stream)` for a stream holding `content`: the
capacity is set from `m_memory.size`. -/
def Buffer.initStream (content : List Nat) : Buffer :=
  { address := writeAt (Buffer.allocate content.length) 0 (content.map some)
    size := content.length, capacity := content.length }

/-- The function `Buffer::reset()`. -/
def Buffer.reset (_buffer : Buffer) : Buffer := { address := none, size := 0, capacity := 0 }

/-- The function `Buffer::reset(size_t bytes)`. -/
def Buffer.resetBytes (_buffer : Buffer) (bytes : Nat) : Buffer :=
  { address := Buffer.allocate bytes, size := bytes, capacity := bytes }

/-- The function `Buffer::reset(size_t bytes, u8 value)`. -/
def Buffer.resetFill (buffer : Buffer) (bytes value : Nat) : Buffer :=
  let b := Buffer.resetBytes buffer bytes
  { b with address := writeAt b.address 0 (List.replicate bytes (some value)) }

/-- The function `Buffer::reserve`. -/
def Buffer.reserve (buffer : Buffer) (bytes : Nat) : Buffer :=
  if bytes > buffer.capacity then
    let storage := Buffer.allocate bytes
    let storage :=
      match buffer.address with
      | some block => writeAt storage 0 (block.take buffer.size)
      | none => storage
    { buffer with address := storage, capacity := bytes }
  else buffer

/-- The function `Buffer::resize`. -/
def Buffer.resize (buffer : Buffer) (bytes : Nat) : Buffer :=
  { Buffer.reserve buffer bytes with size := bytes }

/-- The function `Buffer::append(size_t bytes)`: the buffer afterwards and the offset
of the returned pointer from `m_memory.address`.  The arithmetic is that of
`size_t`, 64 bits. -/
def Buffer.append (buffer : Buffer) (bytes : Nat) : Buffer × Nat :=
  let required := (buffer.size + bytes) % 18446744073709551616
  let b :=
    if required > buffer.capacity then
      Buffer.reserve buffer ((required * 7) % 18446744073709551616 / 5)
    else buffer
  ({ b with size := (b.size + bytes) % 18446744073709551616 }, b.size)

/-- The function `Buffer::append(size_t bytes, u8 value)`. -/
def Buffer.appendFill (buffer : Buffer) (bytes value : Nat) : Buffer :=
  let r := Buffer.append buffer bytes
  { r.1 with address := writeAt r.1.address r.2 (List.replicate bytes (some value)) }

/-- The function `Buffer::append(const void* source, size_t bytes)`. -/
def Buffer.appendCopy (buffer : Buffer) (source : Option (List Nat)) (bytes : Nat) : Buffer :=
  let r := Buffer.append buffer bytes
  match source with
  | some _ => { r.1 with address := writeAt r.1.address r.2 (sourceBytes source bytes) }
  | none => r.1

/-- The function `Buffer::append(ConstMemory memory)`. -/
def Buffer.appendMemory (buffer : Buffer) (memory : ConstMemory) : Buffer :=
  Buffer.appendCopy buffer memory.address memory.size

/-- The function `Buffer::acquire`: the memory handed out (address and size) and the
buffer afterwards. -/
def Buffer.acquire (buffer : Buffer) : (Option (List (Option Nat)) × Nat) × Buffer :=
  ((buffer.address, buffer.size), { address := none, size := 0, capacity := 0 })

/-- The first `size()` bytes of the storage: the content of the buffer. -/
def Buffer.bytes (buffer : Buffer) : List (Option Nat) :=
  match buffer.address with
  | some block => block.take buffer.size
  | none => []

/-- The members of `BufferStream`. -/
structure BufferStream where
  m_buffer : Buffer
  m_offset : Nat
deriving DecidableEq

/-- The function `BufferStream::read`: the bytes copied to `dest`, or the exception
raised by `MANGO_EXCEPTION`, and the stream when the call is left.  The arithmetic is
that of `u64`. -/
def BufferStream.read (stream : BufferStream) (bytes : Nat) :
    Except String (List (Option Nat)) × BufferStream :=
  let size := stream.m_buffer.size
  if stream.m_offset > size ∨ size - stream.m_offset < bytes then
    (Except.error "[BufferStream] Reading past end of buffer.", stream)
  else
    let data :=
      match stream.m_buffer.address with
      | some block => (block.drop stream.m_offset).take bytes
      | none => []
    (Except.ok data, { stream with m_offset := (stream.m_offset + bytes) % 18446744073709551616 })

/-- The representation invariant of `Buffer`: `size() <= capacity()`, and the storage
block has `capacity()` bytes (no block when the address is null). -/
def Buffer.Inv (buffer : Buffer) : Prop :=
  buffer.size ≤ buffer.capacity ∧
    match buffer.address with
    | some block => block.length = buffer.capacity
    | none => buffer.capacity = 0

end Mango

namespace JpegCompute

/-! ## Machine-integer and bit-reader lemmas -/

theorem two_pow_pred (n : Nat) (h : 1 ≤ n) : 2 ^ n = 2 * 2 ^ (n - 1) := by
  cases n with
  | zero => omega
  | succ m => simp [pow_succ, Nat.mul_comm]

theorem getByte_remain (inp : List Nat) (bb : BitBuffer) :
    (getByte inp bb).2.remain = bb.remain := by
  unfold getByte; split_ifs <;> rfl

theorem getByte_data (inp : List Nat) (bb : BitBuffer) :
    (getByte inp bb).2.data = bb.data := by
  unfold getByte; split_ifs <;> rfl

theorem ensureBody_remain (inp : List Nat) (bb : BitBuffer) :
    (ensureBody inp bb).2.remain = wrapU (bb.remain + 8) := by
  unfold ensureBody
  dsimp only
  split_ifs <;> simp [getByte_remain]

theorem ensure_of_le (inp : List Nat) (bb : BitBuffer) (h : 16 ≤ bb.remain) :
    ensure inp bb = bb := by
  simp [ensure, ensureLoop, Nat.not_lt.mpr h]

theorem ensure_remain_ge (inp : List Nat) (bb : BitBuffer) :
    16 ≤ (ensure inp bb).remain := by
  unfold ensure ensureLoop ensureLoop ensureLoop
  dsimp only
  split_ifs with h1 h2
  · simp only [ensureBody_remain, wrapU] at h2 ⊢
    omega
  · simp only [ensureBody_remain, wrapU] at h2 ⊢
    omega
  · show _ ≤ bb.remain
    omega

theorem ensure_remain_lt (inp : List Nat) (bb : BitBuffer) (h : bb.remain < 4294967296) :
    (ensure inp bb).remain < 4294967296 := by
  unfold ensure ensureLoop ensureLoop ensureLoop
  dsimp only
  split_ifs with h1 h2
  · simp only [ensureBody_remain, wrapU] at h2 ⊢
    omega
  · simp only [ensureBody_remain, wrapU] at h2 ⊢
    omega
  · show bb.remain < _
    omega

theorem mask_eq (n : Nat) (hn16 : n ≤ 16) : subU (shl32 1 n) 1 = 2 ^ n - 1 := by
  interval_cases n <;> decide

theorem receiveValue_eq (n v : Nat) (hn1 : 1 ≤ n) (hn16 : n ≤ 16) (hv : v < 2 ^ n) :
    receiveValue n v = if 2 ^ (n - 1) ≤ v then v else v + 4294967296 - (2 ^ n - 1) := by
  have hq : wrapU (v + v) >>> n = if 2 ^ (n - 1) ≤ v then 1 else 0 := by
    rw [Nat.shiftRight_eq_div_pow]
    unfold wrapU
    interval_cases n <;> simp only [Nat.reducePow, Nat.reduceSub] at hv ⊢ <;>
      split_ifs <;> omega
  have hones : subU 0 1 &&& (2 ^ n - 1) = 2 ^ n - 1 := by
    rw [Nat.and_pow_two_sub_one_eq_mod]
    interval_cases n <;> norm_num [subU]
  have h2 : 2 ^ n = 2 * 2 ^ (n - 1) := two_pow_pred n hn1
  have h3 : 2 ^ n ≤ 65536 :=
    le_trans (Nat.pow_le_pow_right (by norm_num) hn16) (by norm_num)
  unfold receiveValue
  simp only [mask_eq n hn16, hq]
  split_ifs with h
  · have h0 : subU 1 1 = 0 := by decide
    rw [h0, Nat.zero_and]
    unfold subU
    omega
  · rw [hones]
    unfold subU
    omega

theorem toInt32_receiveValue (n v : Nat) (hn1 : 1 ≤ n) (hn16 : n ≤ 16) (hv : v < 2 ^ n) :
    toInt32 (receiveValue n v) =
      if 2 ^ (n - 1) ≤ v then (v : Int) else (v : Int) - (2 ^ n - 1) := by
  rw [receiveValue_eq n v hn1 hn16 hv]
  have h2 : 2 ^ n = 2 * 2 ^ (n - 1) := two_pow_pred n hn1
  have h3 : 2 ^ n ≤ 65536 :=
    le_trans (Nat.pow_le_pow_right (by norm_num) hn16) (by norm_num)
  have h4 : ((2 : Int) ^ n) = ((2 ^ n : Nat) : Int) := by push_cast; rfl
  rw [h4]
  generalize 2 ^ n = N at *
  generalize 2 ^ (n - 1) = P at *
  unfold toInt32
  split_ifs <;> omega

/-! ## Huffman decode of a 1-bit code -/

/-- C1 (failing input).  The table built by the host from the valid distribution
`size[1] = 1, size[2] = 1` (Kraft sum 3/4) gives symbol index 0 the 1-bit code `0`.
On the lane whose stream starts with a 0 bit the scan of `decode`, which starts at
length 2, stops at length 2 and computes the `value[]` index `0xFFFFFFFF`, outside
the 256 entries: `decode` does not return `value[0] = 5`. -/
theorem decode_oneBitCode_index :
    kraftSum oneBitTable.size ≤ 65536 ∧
    makeHuffsize (computeHuffmanTable oneBitTable).size = [1, 2, 0] ∧
    makeHuffcode (makeHuffsize (computeHuffmanTable oneBitTable).size) = [0, 2] ∧
    (computeHuffmanTable oneBitTable).value.get? 0 = some 5 ∧
    (ensure [0] (laneInit 0)).data / 2 ^ ((ensure [0] (laneInit 0)).remain - 1) % 2 ^ 1 = 0 ∧
    (decodeIndex (computeHuffmanTable oneBitTable) [0] (laneInit 0)).map
      (fun r => (r.1, r.2.1)) = some (2, 4294967295) ∧
    decode (computeHuffmanTable oneBitTable) [0] (laneInit 0) = none := by
  decide

/-! ## `receive` -/

/-- C2.  For `1 <= n <= 16`, with `v` the raw `n` bits at the head of the bit buffer
(the top `n` of the `remain` buffered bits once `ensure` has run), `receive(n)` returns,
read as a signed 32-bit integer, `v` when `v >= 2^(n-1)` and `v - (2^n - 1)` otherwise,
and leaves the bit buffer with exactly `n` buffered bits fewer. -/
theorem receive_magnitude_sign (input_data : List Nat) (bitbuffer : BitBuffer) (n : Nat)
    (hn1 : 1 ≤ n) (hn16 : n ≤ 16) (hrem : bitbuffer.remain < 4294967296) :
    toInt32 (receive input_data bitbuffer n).1 =
      (if 2 ^ (n - 1) ≤ (ensure input_data bitbuffer).data /
            2 ^ ((ensure input_data bitbuffer).remain - n) % 2 ^ n
        then (((ensure input_data bitbuffer).data /
            2 ^ ((ensure input_data bitbuffer).remain - n) % 2 ^ n : Nat) : Int)
        else (((ensure input_data bitbuffer).data /
            2 ^ ((ensure input_data bitbuffer).remain - n) % 2 ^ n : Nat) : Int) - (2 ^ n - 1)) ∧
    (receive input_data bitbuffer n).2.remain + n = (ensure input_data bitbuffer).remain ∧
    (receive input_data bitbuffer n).2 =
      { ensure input_data bitbuffer with
        remain := (ensure input_data bitbuffer).remain - n } ∧
    (16 ≤ bitbuffer.remain → (receive input_data bitbuffer n).2.remain + n = bitbuffer.remain) := by
  have hge := ensure_remain_ge input_data bitbuffer
  have hlt := ensure_remain_lt input_data bitbuffer hrem
  have hsub : subU (ensure input_data bitbuffer).remain n =
      (ensure input_data bitbuffer).remain - n := by
    unfold subU; omega
  have hval : (receive input_data bitbuffer n).1 = receiveValue n
      ((ensure input_data bitbuffer).data /
        2 ^ ((ensure input_data bitbuffer).remain - n) % 2 ^ n) := by
    simp only [receive, hsub, mask_eq n hn16, Nat.and_pow_two_sub_one_eq_mod,
      Nat.shiftRight_eq_div_pow]
  have hbb : (receive input_data bitbuffer n).2 =
      { ensure input_data bitbuffer with
        remain := (ensure input_data bitbuffer).remain - n } := by
    simp only [receive, hsub]
  refine ⟨?_, ?_, hbb, ?_⟩
  · rw [hval]
    exact toInt32_receiveValue n _ hn1 hn16 (Nat.mod_lt _ (by positivity))
  · rw [hbb]
    show (ensure input_data bitbuffer).remain - n + n = _
    omega
  · intro h16
    rw [hbb, ensure_of_le input_data bitbuffer h16]
    show bitbuffer.remain - n + n = _
    omega

/-- Witness of `receive_magnitude_sign`: the lane stream `0x60 ...` starts with the
bits `011`, and `receive(3)` returns `3 - 7 = -4`. -/
theorem receive_magnitude_sign_witness :
    toInt32 (receive [0x60] (laneInit 0) 3).1 = -4 ∧
    (receive [0x60] (laneInit 0) 3).2.remain + 3 = (ensure [0x60] (laneInit 0)).remain := by
  have h := receive_magnitude_sign [0x60] (laneInit 0) 3 (by decide) (by decide) (by decide)
  refine ⟨?_, h.2.1⟩
  rw [h.1]
  decide

/-- C3.  For `1 <= n <= 16` the map `v -> receive(n, v)` (the value `receive` returns
for the raw bits `v`, read as a signed 32-bit integer) sends `v < 2^(n-1)` into
`[-(2^n - 1), -2^(n-1)]`, sends `2^(n-1) <= v < 2^n` into `[2^(n-1), 2^n - 1]`, and is
a bijection from `[0, 2^n)` onto the union of the two ranges. -/
theorem receive_bijection (n : Nat) (hn1 : 1 ≤ n) (hn16 : n ≤ 16) :
    (∀ v : Nat, v < 2 ^ (n - 1) →
      toInt32 (receiveValue n v) ∈ Set.Icc (-(2 ^ n - 1) : Int) (-(2 ^ (n - 1)))) ∧
    (∀ v : Nat, 2 ^ (n - 1) ≤ v → v < 2 ^ n →
      toInt32 (receiveValue n v) ∈ Set.Icc (2 ^ (n - 1) : Int) (2 ^ n - 1)) ∧
    Set.BijOn (fun v : Nat => toInt32 (receiveValue n v)) (Set.Ico 0 (2 ^ n))
      (Set.Icc (-(2 ^ n - 1) : Int) (-(2 ^ (n - 1))) ∪ Set.Icc (2 ^ (n - 1) : Int) (2 ^ n - 1)) := by
  have h2 : 2 ^ n = 2 * 2 ^ (n - 1) := two_pow_pred n hn1
  have hpos : 0 < 2 ^ (n - 1) := by positivity
  have hN : ((2 : Int) ^ n) = ((2 ^ n : Nat) : Int) := by push_cast; rfl
  have hP : ((2 : Int) ^ (n - 1)) = ((2 ^ (n - 1) : Nat) : Int) := by push_cast; rfl
  have hf : ∀ v : Nat, v < 2 ^ n → toInt32 (receiveValue n v) =
      if 2 ^ (n - 1) ≤ v then (v : Int) else (v : Int) - (((2 ^ n : Nat) : Int) - 1) := by
    intro v hv
    rw [toInt32_receiveValue n v hn1 hn16 hv, hN]
  rw [hN, hP]
  generalize 2 ^ n = N at *
  generalize 2 ^ (n - 1) = P at *
  refine ⟨?_, ?_, ?_, ?_, ?_⟩
  · intro v hv
    rw [hf v (by omega), Set.mem_Icc]
    split_ifs <;> omega
  · intro v hv1 hv2
    rw [hf v hv2, Set.mem_Icc, if_pos hv1]
    omega
  · intro v hv
    rw [Set.mem_Ico] at hv
    simp only [Set.mem_union, Set.mem_Icc]
    rw [hf v hv.2]
    split_ifs <;> omega
  · intro a ha b hb hab
    rw [Set.mem_Ico] at ha hb
    change toInt32 (receiveValue n a) = toInt32 (receiveValue n b) at hab
    rw [hf a ha.2, hf b hb.2] at hab
    split_ifs at hab <;> omega
  · intro z hz
    simp only [Set.mem_union, Set.mem_Icc] at hz
    simp only [Set.mem_image, Set.mem_Ico]
    rcases hz with hz | hz
    · refine ⟨(z + ((N : Int) - 1)).toNat, ⟨by omega, by omega⟩, ?_⟩
      rw [hf _ (by omega)]
      split_ifs <;> omega
    · refine ⟨z.toNat, ⟨by omega, by omega⟩, ?_⟩
      rw [hf _ (by omega)]
      split_ifs <;> omega

/-- Witness of `receive_bijection` for 3-bit magnitudes: raw `011` is `-4`, raw `100`
is `4`. -/
theorem receive_bijection_witness :
    toInt32 (receiveValue 3 3) ∈ Set.Icc (-(2 ^ 3 - 1) : Int) (-(2 ^ (3 - 1))) ∧
    toInt32 (receiveValue 3 4) ∈ Set.Icc (2 ^ (3 - 1) : Int) (2 ^ 3 - 1) :=
  ⟨(receive_bijection 3 (by decide) (by decide)).1 3 (by decide),
   (receive_bijection 3 (by decide) (by decide)).2.1 4 (by decide) (by decide)⟩

/-! ## Byte-stuffing removal -/

theorem flatMap_wordBytes_getElem? (ws : List Nat) (j : Nat) :
    (ws.flatMap wordBytes)[j]? =
      (ws[j / 4]?).map (fun w => (w >>> (8 * (j % 4))) &&& 0xff) := by
  induction ws generalizing j with
  | nil => simp
  | cons w ws ih =>
    rw [List.flatMap_cons]
    by_cases hj : j < 4
    · interval_cases j <;> simp [wordBytes]
    · have h4 : (wordBytes w).length = 4 := rfl
      rw [List.getElem?_append_right (by omega), h4, ih]
      have h1 : j / 4 = (j - 4) / 4 + 1 := by omega
      have h2 : j % 4 = (j - 4) % 4 := by omega
      rw [h1, h2, List.getElem?_cons_succ]

theorem laneBytes_getElem? (inp : List Nat) (o j : Nat) :
    (laneBytes inp o)[j]? =
      (inp[o + j / 4]?).map (fun w => (w >>> (8 * (j % 4))) &&& 0xff) := by
  unfold laneBytes
  rw [flatMap_wordBytes_getElem?, List.getElem?_drop]

theorem getByte_at (inp : List Nat) (o j x : Nat) (bb : BitBuffer)
    (hsize : inp.length ≤ 4294967296) (hR : ReaderAt o j bb)
    (hx : (laneBytes inp o)[j]? = some x) :
    (getByte inp bb).1 = x ∧ ReaderAt o (j + 1) (getByte inp bb).2 := by
  rw [laneBytes_getElem?] at hx
  obtain ⟨hu8, hu32, hpos⟩ := hR
  cases hw : inp[o + j / 4]? with
  | none => rw [hw] at hx; simp at hx
  | some w =>
    rw [hw] at hx
    simp only [Option.map_some', Option.some.injEq] at hx
    have hlt : o + j / 4 < inp.length := by
      by_contra hcon
      rw [List.getElem?_eq_none (by omega)] at hw
      exact absurd hw (by simp)
    unfold getByte ReaderAt
    by_cases h32 : bb.used = 32
    · have ho : wrapU (bb.offset + 1) = o + j / 4 := by
        unfold wrapU; omega
      have hj : j % 4 = 0 := by omega
      simp only [h32, if_true, ho]
      rw [List.getD_eq_getElem?_getD, hw]
      rw [hj] at hx
      refine ⟨by simpa using hx, by decide, by simp [wrapU], ?_⟩
      simp only [wrapU]
      omega
    · have ho : bb.offset = o + j / 4 := by omega
      have hs : bb.used = 8 * (j % 4) := by omega
      simp only [h32, if_false]
      rw [List.getD_eq_getElem?_getD, ho, hw, hs]
      refine ⟨by simpa using hx, ?_, ?_, ?_⟩ <;> simp only [wrapU] <;> omega

theorem getByte_reader (inp : List Nat) (o j : Nat) (bb : BitBuffer)
    (hR : ReaderAt o j bb) (hpos : 4 * o + j < 4 * 4294967296) :
    ReaderAt o (j + 1) (getByte inp bb).2 := by
  obtain ⟨hu8, hu32, hp⟩ := hR
  unfold getByte ReaderAt
  by_cases h32 : bb.used = 32
  · simp only [h32, if_true, wrapU]
    refine ⟨by decide, by omega, ?_⟩
    omega
  · simp only [h32, if_false, wrapU]
    refine ⟨?_, ?_, ?_⟩ <;> omega

theorem ensureBody_at (inp : List Nat) (o j x : Nat) (bb : BitBuffer)
    (hsize : inp.length ≤ 4294967296) (hR : ReaderAt o j bb)
    (hx : (laneBytes inp o)[j]? = some x)
    (hnext : x = 0xff → (laneBytes inp o)[j + 1]? = some 0) :
    (ensureBody inp bb).1 = x ∧
      ReaderAt o (j + (if x = 0xff then 2 else 1)) (ensureBody inp bb).2 := by
  have hR1 : ReaderAt o j { bb with remain := wrapU (bb.remain + 8) } := hR
  obtain ⟨h1, h2⟩ := getByte_at inp o j x _ hsize hR1 hx
  unfold ensureBody
  simp only [h1]
  refine ⟨trivial, ?_⟩
  split_ifs with hff
  · exact (getByte_at inp o (j + 1) 0 _ hsize h2 (hnext hff)).2
  · exact h2

theorem destuff_cons_of_ne (x : Nat) (rest : List Nat) (hx : x ≠ 0xff) :
    destuff (x :: rest) = x :: destuff rest := by
  cases rest with
  | nil => simp [destuff]
  | cons y r => simp [destuff, hx]

theorem destuff_drop (S : List Nat) (j x : Nat) (hx : S[j]? = some x)
    (hnext : x = 0xff → S[j + 1]? = some 0) :
    destuff (S.drop j) = x :: destuff (S.drop (j + (if x = 0xff then 2 else 1))) := by
  have hj : j < S.length := by
    by_contra hcon
    rw [List.getElem?_eq_none (by omega)] at hx
    exact absurd hx (by simp)
  have hd : S.drop j = x :: S.drop (j + 1) := by
    rw [List.drop_eq_getElem_cons hj]
    congr 1
    rw [List.getElem?_eq_getElem hj] at hx
    exact Option.some.inj hx
  by_cases hff : x = 0xff
  · have h0 := hnext hff
    have hj1 : j + 1 < S.length := by
      by_contra hcon
      rw [List.getElem?_eq_none (by omega)] at h0
      exact absurd h0 (by simp)
    have hd1 : S.drop (j + 1) = 0 :: S.drop (j + 1 + 1) := by
      rw [List.drop_eq_getElem_cons hj1]
      congr 1
      rw [List.getElem?_eq_getElem hj1] at h0
      exact Option.some.inj h0
    rw [hd, hd1, if_pos hff, hff]
    simp [destuff]
  · rw [hd, if_neg hff, destuff_cons_of_ne x _ hff]

theorem destuff_drop_nonempty (S : List Nat) (j : Nat)
    (h : 0 < (destuff (S.drop j)).length) : ∃ x, S[j]? = some x := by
  by_cases hj : j < S.length
  · exact ⟨S[j], List.getElem?_eq_getElem hj⟩
  · rw [List.drop_eq_nil_of_le (by omega)] at h
    simp [destuff] at h

theorem ensureLoop_destuff (inp : List Nat) (o : Nat) (hsize : inp.length ≤ 4294967296)
    (hst : ∀ i, i < (laneBytes inp o).length → (laneBytes inp o)[i]? = some 0xff →
      (laneBytes inp o)[i + 1]? = some 0) :
    ∀ (fuel : Nat) (bb : BitBuffer) (j : Nat), ReaderAt o j bb →
      (ensureLoop inp fuel bb).1.length ≤ (destuff ((laneBytes inp o).drop j)).length →
      ∃ j', (ensureLoop inp fuel bb).1 ++ destuff ((laneBytes inp o).drop j') =
          destuff ((laneBytes inp o).drop j) ∧ ReaderAt o j' (ensureLoop inp fuel bb).2 := by
  intro fuel
  induction fuel with
  | zero => intro bb j hR _; exact ⟨j, by simp [ensureLoop], hR⟩
  | succ fuel ih =>
    intro bb j hR hlen
    unfold ensureLoop at hlen ⊢
    by_cases hrem : bb.remain < 16
    · simp only [hrem, if_true, List.length_cons] at hlen ⊢
      obtain ⟨x, hx⟩ := destuff_drop_nonempty (laneBytes inp o) j (by omega)
      have hjlt : j < (laneBytes inp o).length := by
        by_contra hcon
        rw [List.getElem?_eq_none (by omega)] at hx
        exact absurd hx (by simp)
      have hnext : x = 0xff → (laneBytes inp o)[j + 1]? = some 0 := by
        intro hff
        exact hst j hjlt (by rw [hx, hff])
      obtain ⟨hb, hR2⟩ := ensureBody_at inp o j x bb hsize hR hx hnext
      have hd := destuff_drop _ j x hx hnext
      rw [hd, List.length_cons] at hlen
      obtain ⟨j', hj', hR'⟩ := ih _ _ hR2 (by omega)
      refine ⟨j', ?_, hR'⟩
      rw [hd, hb, List.cons_append, hj']
    · simp only [hrem, if_false]
      exact ⟨j, by simp, hR⟩

theorem shiftedBytes_destuff (inp : List Nat) (o : Nat) (hsize : inp.length ≤ 4294967296)
    (hst : ∀ i, i < (laneBytes inp o).length → (laneBytes inp o)[i]? = some 0xff →
      (laneBytes inp o)[i + 1]? = some 0) :
    ∀ (cs : List Nat) (bb : BitBuffer) (j : Nat), ReaderAt o j bb →
      (shiftedBytes inp cs bb).length ≤ (destuff ((laneBytes inp o).drop j)).length →
      ∃ j', shiftedBytes inp cs bb ++ destuff ((laneBytes inp o).drop j') =
          destuff ((laneBytes inp o).drop j) := by
  intro cs
  induction cs with
  | nil => intro bb j _ _; exact ⟨j, by simp [shiftedBytes]⟩
  | cons c cs ih =>
    intro bb j hR hlen
    unfold shiftedBytes at hlen ⊢
    dsimp only at hlen ⊢
    simp only [List.length_append] at hlen
    obtain ⟨j1, hj1, hR1⟩ := ensureLoop_destuff inp o hsize hst 2 bb j hR
      (by unfold ensureBytes at hlen; omega)
    have hR2 : ReaderAt o j1
        { ensure inp bb with remain := subU (ensure inp bb).remain c } := hR1
    have hl := congrArg List.length hj1
    rw [List.length_append] at hl
    obtain ⟨j', hj'⟩ := ih _ j1 hR2 (by unfold ensureBytes at hlen; dsimp only; omega)
    dsimp only at hj'
    refine ⟨j', ?_⟩
    simp only [ensureBytes]
    rw [List.append_assoc, hj', hj1]

/-- C4.  On a lane whose byte stream has every `0xFF` immediately followed by a
stuffed `0x00`, the bytes that the calls of `ensure` shift into the bit buffer (for
any consumption between the calls), as far as they come from the stream, are the
stream with every pair `0xFF, 0x00` replaced by a single `0xFF` and every other byte
kept unchanged and in order. -/
theorem ensure_removes_stuffing (input_data : List Nat) (o : Nat) (consumed : List Nat)
    (hsize : input_data.length ≤ 4294967296)
    (hstuffed : ∀ i, i < (laneBytes input_data o).length →
      (laneBytes input_data o)[i]? = some 0xff → (laneBytes input_data o)[i + 1]? = some 0)
    (hin : (shiftedBytes input_data consumed (laneInit o)).length ≤
      (destuff (laneBytes input_data o)).length) :
    List.IsPrefix (shiftedBytes input_data consumed (laneInit o))
      (destuff (laneBytes input_data o)) := by
  have hR : ReaderAt o 0 (laneInit o) := by
    unfold ReaderAt laneInit; simp
  obtain ⟨j', hj'⟩ := shiftedBytes_destuff input_data o hsize hstuffed consumed
    (laneInit o) 0 hR (by simpa using hin)
  exact ⟨_, by simpa using hj'⟩

/-- Witness of `ensure_removes_stuffing`: the stream `60 00 FF 00 03 FF 00 04`
is shifted in as `60 00 FF 03 FF`. -/
theorem ensure_removes_stuffing_witness :
    List.IsPrefix (shiftedBytes [0x00FF0060, 0x0400FF03] [1, 20, 16] (laneInit 0))
      (destuff (laneBytes [0x00FF0060, 0x0400FF03] 0)) ∧
    shiftedBytes [0x00FF0060, 0x0400FF03] [1, 20, 16] (laneInit 0) =
      [0x60, 0x00, 0xff, 0x03, 0xff] ∧
    destuff (laneBytes [0x00FF0060, 0x0400FF03] 0) = [0x60, 0x00, 0xff, 0x03, 0xff, 0x04] :=
  ⟨ensure_removes_stuffing [0x00FF0060, 0x0400FF03] 0 [1, 20, 16] (by decide) (by decide)
    (by decide), by decide, by decide⟩

/-! ## AC run-length decoding -/

theorem getD_set_self (l : List Int) (i : Nat) (a : Int) (h : i < l.length) :
    (l.set i a).getD i 0 = a := by
  rw [List.getD_eq_getElem?_getD, List.getElem?_set_self h]
  rfl

theorem getD_set_ne (l : List Int) (i j : Nat) (a : Int) (h : i ≠ j) :
    (l.set i a).getD j 0 = l.getD j 0 := by
  rw [List.getD_eq_getElem?_getD, List.getD_eq_getElem?_getD, List.getElem?_set_ne h]


theorem zigzag_get? : ∀ a, a < 64 → zigzagTable.get? a = some (zigzagTable.getD a 64) := by
  decide

theorem zigzag_lt : ∀ a, a < 64 → zigzagTable.getD a 64 < 64 := by
  decide

theorem zigzag_ne_zero : ∀ a, a < 64 → 1 ≤ a → zigzagTable.getD a 64 ≠ 0 := by
  decide

theorem zigzag_nodup : zigzagTable.Nodup := by
  decide

theorem zigzag_length : zigzagTable.length = 64 := rfl

theorem zigzag_inj (a b : Nat) (ha : a < 64) (hb : b < 64)
    (h : zigzagTable.getD a 64 = zigzagTable.getD b 64) : a = b := by
  have ha' : a < zigzagTable.length := ha
  have hb' : b < zigzagTable.length := hb
  rw [List.getD_eq_getElem _ _ ha', List.getD_eq_getElem _ _ hb'] at h
  exact (List.Nodup.getElem_inj_iff zigzag_nodup).mp h

theorem zigzag_get?_none (a : Nat) (ha : 64 ≤ a) : zigzagTable.get? a = none := by
  rw [List.get?_eq_none]
  exact ha

theorem placements_ge : ∀ (es : List ACEvent) (i : Nat) (pv : Nat × Int),
    pv ∈ placements i es → i ≤ pv.1 := by
  intro es
  induction es with
  | nil => intro i pv h; simp [placements] at h
  | cons e es ih =>
    intro i pv h
    cases e with
    | coef run size value =>
      simp only [placements, List.mem_cons] at h
      rcases h with h | h
      · rw [h]; exact Nat.le_add_right i run
      · have := ih _ _ h; omega
    | zrl =>
      simp only [placements] at h
      have := ih _ _ h; omega

theorem find?_placements_none (es : List ACEvent) (i p idx : Nat) (hp : p < i) (hp63 : p < 64)
    (hz : zigzagTable.getD p 64 = idx) (hpos : ∀ pv ∈ placements i es, pv.1 ≤ 63) :
    (placements i es).find? (fun pv => decide (zigzagTable.getD pv.1 64 = idx)) = none := by
  rw [List.find?_eq_none]
  intro pv hpv
  have h1 := placements_ge es i pv hpv
  have h2 := hpos pv hpv
  simp only [decide_eq_true_eq]
  intro hcon
  have := zigzag_inj pv.1 p (by omega) hp63 (by rw [hcon, hz])
  omega

theorem acLoop_placements (table : ComputeHuffmanTable) (inp : List Nat) :
    ∀ (fuel i : Nat) (temp : List Int) (bb : BitBuffer) (es : List ACEvent),
      acEvents table inp fuel i bb = some es →
      (∀ pv ∈ placements i es, pv.1 ≤ 63) → temp.length = 64 →
      ∃ blk bb', acLoop table inp fuel i temp bb = some (blk, bb') ∧ blk.length = 64 ∧
        ∀ idx, idx < 64 → blk.getD idx 0 =
          match (placements i es).find? (fun pv => decide (zigzagTable.getD pv.1 64 = idx)) with
          | some pv => pv.2
          | none => temp.getD idx 0 := by
  intro fuel
  induction fuel with
  | zero => intro i temp bb es h; simp [acEvents] at h
  | succ fuel ih =>
    intro i temp bb es hev hpos hlen
    unfold acEvents at hev
    unfold acLoop
    by_cases hi : i < 64
    · rw [if_pos hi] at hev ⊢
      cases hd : decode table inp bb with
      | none => rw [hd] at hev; simp at hev
      | some r =>
        rw [hd] at hev
        simp only at hev ⊢
        by_cases hx : r.1 &&& 15 ≠ 0
        · rw [if_pos hx] at hev ⊢
          rw [Option.map_eq_some'] at hev
          obtain ⟨es', hes', rfl⟩ := hev
          simp only [placements] at hpos ⊢
          have hp63 : i + (r.1 >>> 4) ≤ 63 := hpos (_, _) (List.mem_cons_self _ _)
          rw [zigzag_get? (i + (r.1 >>> 4)) (by omega)]
          simp only
          have hz := zigzag_lt (i + (r.1 >>> 4)) (by omega)
          obtain ⟨blk, bb', hrun, hblk, hval⟩ := ih (i + (r.1 >>> 4) + 1)
            (temp.set (zigzagTable.getD (i + (r.1 >>> 4)) 64)
              (toInt32 (receive inp r.2 (r.1 &&& 15)).1))
            (receive inp r.2 (r.1 &&& 15)).2 es' hes'
            (fun pv hpv => hpos pv (List.mem_cons_of_mem _ hpv))
            (by rw [List.length_set]; exact hlen)
          refine ⟨blk, bb', hrun, hblk, ?_⟩
          intro idx hidx
          rw [hval idx hidx]
          by_cases hzi : zigzagTable.getD (i + (r.1 >>> 4)) 64 = idx
          · rw [find?_placements_none es' _ (i + (r.1 >>> 4)) idx (by omega) (by omega) hzi
              (fun pv hpv => hpos pv (List.mem_cons_of_mem _ hpv)),
              List.find?_cons_of_pos _ (by simpa using hzi)]
            rw [← hzi]
            exact getD_set_self temp _ _ (by omega)
          · rw [List.find?_cons_of_neg _ (by simpa using hzi)]
            cases List.find? (fun pv => decide (zigzagTable.getD pv.1 64 = idx))
                (placements (i + (r.1 >>> 4) + 1) es') with
            | some pv => rfl
            | none => exact getD_set_ne temp _ _ _ hzi
        · rw [if_neg hx] at hev ⊢
          by_cases hs : r.1 < 16
          · rw [if_pos hs] at hev ⊢
            simp only [Option.some.injEq] at hev
            subst hev
            exact ⟨temp, r.2, rfl, hlen, fun idx _ => by simp [placements]⟩
          · rw [if_neg hs] at hev ⊢
            rw [Option.map_eq_some'] at hev
            obtain ⟨es', hes', rfl⟩ := hev
            simp only [placements] at hpos ⊢
            exact ih (i + 16) temp r.2 es' hes' hpos hlen
    · rw [if_neg hi] at hev ⊢
      simp only [Option.some.injEq] at hev
      subst hev
      exact ⟨temp, bb, rfl, hlen, fun idx _ => by simp [placements]⟩

/-- C5.  Let `es` be the events the AC loop decodes from a bit buffer (coefficient
events `(run, size >= 1, value)` and 16-position skips), and suppose every zigzag
position `p_j` they reach (`p_0 = 0`, `p_j = p_(j-1) + 1 + run_j`, plus 16 per skip in
between) is at most 63.  Then the loop produces a 64-entry block that has the DC value
at index 0, the `j`-th value at natural index `zigzagTable[p_j]`, and 0 everywhere
else. -/
theorem acLoop_run_length (table : ComputeHuffmanTable) (input_data : List Nat)
    (bitbuffer : BitBuffer) (dc : Int) (es : List ACEvent)
    (hev : acEvents table input_data 64 1 bitbuffer = some es)
    (hpos : ∀ pv ∈ placements 1 es, pv.1 ≤ 63) :
    ∃ blk bb', acLoop table input_data 64 1 (dcBlock dc) bitbuffer = some (blk, bb') ∧
      blk.length = 64 ∧
      ∀ idx, idx < 64 → blk.getD idx 0 = refCoefficient dc (placements 1 es) idx := by
  obtain ⟨blk, bb', hrun, hlen, hval⟩ := acLoop_placements table input_data 64 1
    (dcBlock dc) bitbuffer es hev hpos (by simp [dcBlock])
  refine ⟨blk, bb', hrun, hlen, ?_⟩
  intro idx hidx
  rw [hval idx hidx]
  unfold refCoefficient
  by_cases h0 : idx = 0
  · subst h0
    have hnone : (placements 1 es).find?
        (fun pv => decide (zigzagTable.getD pv.1 64 = 0)) = none := by
      rw [List.find?_eq_none]
      intro pv hpv
      have h1 := placements_ge es 1 pv hpv
      have h2 := hpos pv hpv
      simpa using zigzag_ne_zero pv.1 (by omega) h1
    rw [hnone]
    exact getD_set_self _ 0 dc (by simp)
  · simp only [h0, if_false]
    cases List.find? (fun pv => decide (zigzagTable.getD pv.1 64 = idx)) (placements 1 es) with
    | some pv => rfl
    | none =>
      show ((List.replicate 64 (0 : Int)).set 0 dc).getD idx 0 = 0
      rw [getD_set_ne _ 0 idx dc (by omega), List.getD_eq_getElem?_getD,
        List.getElem?_replicate, if_pos hidx]
      rfl

/-- Witness of `acLoop_run_length`: the bits `01 11 10 01 00 00` decode to the value 3
at zigzag position 2, a skip, the value -3 at position 20, and end of block. -/
theorem acLoop_run_length_witness :
    acEvents (computeHuffmanTable acDemoTable) [0x79] 64 1 (laneInit 0) =
      some [ACEvent.coef 1 2 3, ACEvent.zrl, ACEvent.coef 1 2 (-3)] ∧
    placements 1 [ACEvent.coef 1 2 3, ACEvent.zrl, ACEvent.coef 1 2 (-3)] = [(2, 3), (20, -3)] ∧
    ∃ blk bb', acLoop (computeHuffmanTable acDemoTable) [0x79] 64 1 (dcBlock 7) (laneInit 0) =
        some (blk, bb') ∧ blk.length = 64 ∧
      ∀ idx, idx < 64 → blk.getD idx 0 = refCoefficient 7
        (placements 1 [ACEvent.coef 1 2 3, ACEvent.zrl, ACEvent.coef 1 2 (-3)]) idx :=
  ⟨by decide, by decide,
   acLoop_run_length (computeHuffmanTable acDemoTable) [0x79] (laneInit 0) 7
     [ACEvent.coef 1 2 3, ACEvent.zrl, ACEvent.coef 1 2 (-3)] (by decide) (by decide)⟩

/-! ## DC prediction -/

theorem acLoop_index_zero (table : ComputeHuffmanTable) (inp : List Nat) :
    ∀ (fuel i : Nat) (temp : List Int) (bb : BitBuffer) (blk : List Int) (bb' : BitBuffer),
      1 ≤ i → acLoop table inp fuel i temp bb = some (blk, bb') →
      blk.getD 0 0 = temp.getD 0 0 := by
  intro fuel
  induction fuel with
  | zero => intro i temp bb blk bb' _ h; simp [acLoop] at h
  | succ fuel ih =>
    intro i temp bb blk bb' hi1 h
    unfold acLoop at h
    by_cases hi : i < 64
    · rw [if_pos hi] at h
      cases hd : decode table inp bb with
      | none => rw [hd] at h; simp at h
      | some r =>
        rw [hd] at h
        simp only at h
        by_cases hx : r.1 &&& 15 ≠ 0
        · rw [if_pos hx] at h
          by_cases h63 : i + (r.1 >>> 4) < 64
          · rw [zigzag_get? (i + (r.1 >>> 4)) h63] at h
            simp only at h
            rw [ih _ _ _ _ _ (by omega) h]
            exact getD_set_ne temp _ 0 _ (zigzag_ne_zero _ h63 (by omega))
          · rw [zigzag_get?_none (i + (r.1 >>> 4)) (by omega)] at h
            simp at h
        · rw [if_neg hx] at h
          by_cases hs : r.1 < 16
          · rw [if_pos hs] at h
            simp only [Option.some.injEq, Prod.mk.injEq] at h
            rw [h.1]
          · rw [if_neg hs] at h
            exact ih _ _ _ _ _ (by omega) h
    · rw [if_neg hi] at h
      simp only [Option.some.injEq, Prod.mk.injEq] at h
      rw [h.1]

theorem decodeBlock_dc (inp : ShaderInput) (blk : Nat) (st : LaneState)
    (bt : BlockTrace) (st' : LaneState) (hblk : blk < 3)
    (h : decodeBlock inp blk st = some (bt, st')) :
    bt.temp.getD 0 0 = toInt32 (wrapU (bt.diff + st.last_dc_value.getD blk 0)) ∧
    st'.last_dc_value =
      st.last_dc_value.set blk (wrapU (bt.diff + st.last_dc_value.getD blk 0)) := by
  have hpred : ∀ db, decodeBlocks.get? blk = some db → db.pred = blk := by
    intro db hdb
    interval_cases blk <;> simp [decodeBlocks] at hdb <;> rw [← hdb]
  unfold decodeBlock at h
  cases hdb : decodeBlocks.get? blk with
  | none => rw [hdb] at h; simp at h
  | some db =>
    rw [hdb] at h
    simp only at h
    have hp := hpred db hdb
    cases hdc : inp.huffman_tables.get? db.dc with
    | none => rw [hdc] at h; simp at h
    | some dcTable =>
      cases hac : inp.huffman_tables.get? db.ac with
      | none => rw [hdc, hac] at h; simp at h
      | some acTable =>
        rw [hdc, hac] at h
        simp only at h
        cases hd : decodeDC dcTable inp.input_data st.bitbuffer with
        | none => rw [hd] at h; simp at h
        | some d =>
          rw [hd] at h
          simp only at h
          cases ha : acLoop acTable inp.input_data 64 1
              ((List.replicate 64 (0 : Int)).set 0
                (toInt32 (wrapU (d.1 + st.last_dc_value.getD db.pred 0)))) d.2 with
          | none => rw [ha] at h; simp at h
          | some a =>
            rw [ha] at h
            simp only [Option.some.injEq, Prod.mk.injEq] at h
            obtain ⟨h1, h2⟩ := h
            have h0 := acLoop_index_zero acTable inp.input_data 64 1 _ d.2 a.1 a.2
              (le_refl 1) ha
            rw [getD_set_self _ 0 _ (by simp)] at h0
            rw [← h1, ← h2]
            simp only
            rw [hp] at h0 ⊢
            exact ⟨h0, rfl⟩

theorem eq_some_getD {α : Type} (o : Option α) (d : α) (h : o.isSome = true) :
    o = some (o.getD d) := by
  cases o with
  | none => simp at h
  | some a => rfl

theorem toInt32_wrapU_add (d l : Nat) (s : Int) :
    wrapI (toInt32 (wrapU (d + l)) + s) = wrapI (toInt32 l + (toInt32 d + s)) := by
  unfold wrapI toInt32 wrapU
  split_ifs <;> omega

theorem toInt32_eq_wrapI (d l : Nat) :
    toInt32 (wrapU (d + l)) = wrapI (toInt32 l + (toInt32 d + 0)) := by
  unfold wrapI toInt32 wrapU
  split_ifs <;> omega

theorem decodeMcu_dc (inp : ShaderInput) (laneY mcu_x : Nat) (st : LaneState)
    (m : McuTrace) (st' : LaneState) (l0 l1 l2 : Nat)
    (hlast : st.last_dc_value = [l0, l1, l2])
    (h : decodeMcu inp laneY mcu_x st = some (m, st')) :
    ∃ b0 b1 b2, m.blocks = [b0, b1, b2] ∧
      b0.temp.getD 0 0 = toInt32 (wrapU (b0.diff + l0)) ∧
      b1.temp.getD 0 0 = toInt32 (wrapU (b1.diff + l1)) ∧
      b2.temp.getD 0 0 = toInt32 (wrapU (b2.diff + l2)) ∧
      st'.last_dc_value =
        [wrapU (b0.diff + l0), wrapU (b1.diff + l1), wrapU (b2.diff + l2)] := by
  unfold decodeMcu at h
  cases h0 : decodeBlock inp 0 st with
  | none => rw [h0] at h; simp at h
  | some r0 =>
    rw [h0] at h
    simp only at h
    cases h1 : decodeBlock inp 1 r0.2 with
    | none => rw [h1] at h; simp at h
    | some r1 =>
      rw [h1] at h
      simp only at h
      cases h2 : decodeBlock inp 2 r1.2 with
      | none => rw [h2] at h; simp at h
      | some r2 =>
        rw [h2] at h
        simp only [Option.some.injEq, Prod.mk.injEq] at h
        obtain ⟨hm, hst⟩ := h
        obtain ⟨a0, c0⟩ := decodeBlock_dc inp 0 st r0.1 r0.2 (by decide) h0
        obtain ⟨a1, c1⟩ := decodeBlock_dc inp 1 r0.2 r1.1 r1.2 (by decide) h1
        obtain ⟨a2, c2⟩ := decodeBlock_dc inp 2 r1.2 r2.1 r2.2 (by decide) h2
        rw [hlast] at a0 c0
        simp only [List.getD_cons_zero, List.set_cons_zero] at a0 c0
        rw [c0] at a1 c1
        simp only [List.getD_cons_succ, List.getD_cons_zero, List.set_cons_succ,
          List.set_cons_zero] at a1 c1
        rw [c1] at a2 c2
        simp only [List.getD_cons_succ, List.getD_cons_zero, List.set_cons_succ,
          List.set_cons_zero] at a2 c2
        refine ⟨r0.1, r1.1, r2.1, ?_, a0, a1, a2, ?_⟩
        · rw [← hm]
        · rw [← hst, c2]

theorem mcuLoop_dc (inp : ShaderInput) (laneY : Nat) :
    ∀ (n mcu_x : Nat) (st : LaneState) (ms : List McuTrace) (l0 l1 l2 : Nat),
      st.last_dc_value = [l0, l1, l2] → mcuLoop inp laneY n mcu_x st = some ms →
      ∀ k c, k < ms.length → c < 3 →
        dcCoefficient ms k c =
          some (wrapI (toInt32 ([l0, l1, l2].getD c 0) + dcDiffSum ms k c)) := by
  intro n
  induction n with
  | zero =>
    intro mcu_x st ms l0 l1 l2 _ h k c hk
    simp only [mcuLoop, Option.some.injEq] at h
    subst h
    simp at hk
  | succ n ih =>
    intro mcu_x st ms l0 l1 l2 hlast h k c hk hc
    unfold mcuLoop at h
    cases hm : decodeMcu inp laneY mcu_x st with
    | none => rw [hm] at h; simp at h
    | some r =>
      rw [hm] at h
      simp only at h
      rw [Option.map_eq_some'] at h
      obtain ⟨ms', hms', rfl⟩ := h
      obtain ⟨b0, b1, b2, hb, a0, a1, a2, hst⟩ :=
        decodeMcu_dc inp laneY mcu_x st r.1 r.2 l0 l1 l2 hlast hm
      have hdiff : dcDiff r.1 c = toInt32 ([b0.diff, b1.diff, b2.diff].getD c 0) := by
        unfold dcDiff
        rw [hb]
        interval_cases c <;> rfl
      cases k with
      | zero =>
        have hsum : dcDiffSum (r.1 :: ms') 0 c = dcDiff r.1 c + 0 := by
          simp [dcDiffSum]
        rw [hsum, hdiff]
        unfold dcCoefficient
        simp only [List.get?_cons_zero, Option.some_bind, hb]
        interval_cases c
        · simp only [List.get?_cons_zero, Option.map_some', List.getD_cons_zero, a0]
          rw [toInt32_eq_wrapI]
        · simp only [List.get?_cons_succ, List.get?_cons_zero, Option.map_some',
            List.getD_cons_succ, List.getD_cons_zero, a1]
          rw [toInt32_eq_wrapI]
        · simp only [List.get?_cons_succ, List.get?_cons_zero, Option.map_some',
            List.getD_cons_succ, List.getD_cons_zero, a2]
          rw [toInt32_eq_wrapI]
      | succ k =>
        have hsum : dcDiffSum (r.1 :: ms') (k + 1) c = dcDiff r.1 c + dcDiffSum ms' k c := by
          simp [dcDiffSum]
        have hk' : k < ms'.length := by simpa using hk
        have hrec := ih (mcu_x + 1) r.2 ms' _ _ _ hst hms' k c hk' hc
        have hco : dcCoefficient (r.1 :: ms') (k + 1) c = dcCoefficient ms' k c := by
          simp [dcCoefficient]
        rw [hco, hrec, hsum, hdiff]
        interval_cases c <;>
          simp only [List.getD_cons_succ, List.getD_cons_zero] <;>
          rw [toInt32_wrapU_add]

/-- C6.  In every lane, the DC coefficient (index 0) of block `k` of component `c`
is the sum, wrapped to a signed 32-bit integer, of the DC differences of blocks
`0..k` of component `c` of that lane: each of the 3 predictors starts at 0 and is
changed only by the blocks of its own component.  (The difference of a block is what
`decodeDC` returns: the category symbol when it is 0, else `receive` of it.) -/
theorem dc_prediction (inp : ShaderInput) (laneY : Nat) (ms : List McuTrace)
    (h : main inp laneY = some ms) (k c : Nat) (hk : k < ms.length) (hc : c < 3) :
    dcCoefficient ms k c = some (wrapI (dcDiffSum ms k c)) := by
  have h0 := mcuLoop_dc inp laneY _ 0 _ ms 0 0 0 rfl h k c hk hc
  rw [h0]
  have hz : toInt32 ([0, 0, 0].getD c 0) = 0 := by
    interval_cases c <;> rfl
  rw [hz, zero_add]

/-- Witness of `dc_prediction`: in the two-MCU scan the Y differences are 512 and
-512, so the DC coefficient of the second Y block is 0. -/
theorem dc_prediction_witness :
    dcCoefficient ((main twoMcuScan 0).getD []) 1 0 =
      some (wrapI (dcDiffSum ((main twoMcuScan 0).getD []) 1 0)) ∧
    dcDiffSum ((main twoMcuScan 0).getD []) 1 0 = 512 + -512 ∧
    dcCoefficient ((main twoMcuScan 0).getD []) 0 0 = some 512 :=
  ⟨dc_prediction twoMcuScan 0 _ (eq_some_getD _ [] (by decide)) 1 0 (by decide) (by decide),
   by decide, by decide⟩

/-! ## Inverse DCT -/

theorem wrapI_of_range (z : Int) (h1 : -2147483648 ≤ z) (h2 : z < 2147483648) :
    wrapI z = z := by
  unfold wrapI; omega

theorem wrapI_range (z : Int) : -2147483648 ≤ wrapI z ∧ wrapI z < 2147483648 := by
  unfold wrapI; omega

theorem range8 : List.range 8 = [0, 1, 2, 3, 4, 5, 6, 7] := by decide

theorem idct_compute_dc (s : Int) (h1 : -262144 ≤ s) (h2 : s ≤ 262144) :
    idct_compute s 0 0 0 0 0 0 0 =
      { x0 := 4096 * s, x1 := 4096 * s, x2 := 4096 * s, x3 := 4096 * s,
        y0 := 0, y1 := 0, y2 := 0, y3 := 0 } := by
  have hw0 : wrapI 0 = 0 := by decide
  have hw : wrapI (s * 4096) = 4096 * s := by
    rw [wrapI_of_range _ (by omega) (by omega)]; ring
  have hw' : wrapI (4096 * s) = 4096 * s := wrapI_of_range _ (by omega) (by omega)
  unfold idct_compute
  simp only [add_zero, zero_add, sub_zero, zero_mul, hw0, hw, hw']

theorem idctOutputs_dc (v bias divisor : Int) (h1 : -2147483648 ≤ v + bias)
    (h2 : v + bias < 2147483648) :
    idctOutputs { x0 := v, x1 := v, x2 := v, x3 := v, y0 := 0, y1 := 0, y2 := 0, y3 := 0 }
      bias divisor = List.replicate 8 ((v + bias) / divisor) := by
  have hw : wrapI (v + bias) = v + bias := wrapI_of_range _ h1 h2
  unfold idctOutputs
  simp only [add_zero, sub_zero, hw]
  rfl

theorem idctFirst_zero (data qt : List Int) (i : Nat) (hi1 : 1 ≤ i) (hi8 : i < 8)
    (hac : ∀ k, 1 ≤ k → k < 64 → data.getD k 0 = 0) :
    idctFirst data qt i = List.replicate 8 0 := by
  unfold idctFirst
  simp only [hac (i + 8 * 0) (by omega) (by omega), hac (i + 8 * 1) (by omega) (by omega),
    hac (i + 8 * 2) (by omega) (by omega), hac (i + 8 * 3) (by omega) (by omega),
    hac (i + 8 * 4) (by omega) (by omega), hac (i + 8 * 5) (by omega) (by omega),
    hac (i + 8 * 6) (by omega) (by omega), hac (i + 8 * 7) (by omega) (by omega), zero_mul]
  decide

theorem idctFirst_dc (data qt : List Int)
    (hac : ∀ k, 1 ≤ k → k < 64 → data.getD k 0 = 0)
    (h1 : -65536 ≤ data.getD 0 0 * qt.getD 0 0) (h2 : data.getD 0 0 * qt.getD 0 0 ≤ 65536) :
    idctFirst data qt 0 = List.replicate 8 (4 * (data.getD 0 0 * qt.getD 0 0)) := by
  have hw0 : wrapI 0 = 0 := by decide
  unfold idctFirst
  simp only [hac (0 + 8 * 1) (by omega) (by omega),
    hac (0 + 8 * 2) (by omega) (by omega), hac (0 + 8 * 3) (by omega) (by omega),
    hac (0 + 8 * 4) (by omega) (by omega), hac (0 + 8 * 5) (by omega) (by omega),
    hac (0 + 8 * 6) (by omega) (by omega), hac (0 + 8 * 7) (by omega) (by omega), zero_mul,
    hw0, Nat.mul_zero, Nat.add_zero]
  generalize data.getD 0 0 * qt.getD 0 0 = d at *
  rw [wrapI_of_range d (by omega) (by omega), idct_compute_dc d (by omega) (by omega),
    idctOutputs_dc _ _ _ (by omega) (by omega)]
  congr 1
  omega

theorem idctSecond_dc (d : Int) (i : Nat) (hi8 : i < 8) (h1 : -65536 ≤ d) (h2 : d ≤ 65536) :
    idctSecond (List.replicate 8 (4 * d) ++ List.replicate 56 0) i =
      List.replicate 8 (128 + (d + 4) / 8) := by
  have h : idctSecond (List.replicate 8 (4 * d) ++ List.replicate 56 0) i =
      idctOutputs (idct_compute (4 * d) 0 0 0 0 0 0 0) (0x10000 + 128 * 131072) 131072 := by
    interval_cases i <;> rfl
  rw [h, idct_compute_dc (4 * d) (by omega) (by omega),
    idctOutputs_dc _ _ _ (by omega) (by omega)]
  congr 1
  omega

theorem idct_dc_only (data qt : List Int)
    (hac : ∀ k, 1 ≤ k → k < 64 → data.getD k 0 = 0)
    (h1 : -65536 ≤ data.getD 0 0 * qt.getD 0 0) (h2 : data.getD 0 0 * qt.getD 0 0 ≤ 65536) :
    idct data qt = List.replicate 64 (128 + (data.getD 0 0 * qt.getD 0 0 + 4) / 8) := by
  have htemp : (List.range 8).flatMap (idctFirst data qt) =
      List.replicate 8 (4 * (data.getD 0 0 * qt.getD 0 0)) ++ List.replicate 56 0 := by
    rw [range8]
    simp only [List.flatMap_cons, List.flatMap_nil, idctFirst_dc data qt hac h1 h2,
      idctFirst_zero data qt 1 (by decide) (by decide) hac,
      idctFirst_zero data qt 2 (by decide) (by decide) hac,
      idctFirst_zero data qt 3 (by decide) (by decide) hac,
      idctFirst_zero data qt 4 (by decide) (by decide) hac,
      idctFirst_zero data qt 5 (by decide) (by decide) hac,
      idctFirst_zero data qt 6 (by decide) (by decide) hac,
      idctFirst_zero data qt 7 (by decide) (by decide) hac]
    rfl
  unfold idct
  simp only [htemp]
  rw [range8]
  simp only [List.flatMap_cons, List.flatMap_nil,
    idctSecond_dc _ 0 (by decide) h1 h2, idctSecond_dc _ 1 (by decide) h1 h2,
    idctSecond_dc _ 2 (by decide) h1 h2, idctSecond_dc _ 3 (by decide) h1 h2,
    idctSecond_dc _ 4 (by decide) h1 h2, idctSecond_dc _ 5 (by decide) h1 h2,
    idctSecond_dc _ 6 (by decide) h1 h2, idctSecond_dc _ 7 (by decide) h1 h2]
  rfl

/-- C7 (counterexample).  With DC value 512, all AC coefficients zero and all
quantisation entries 1, the first sample is 192, while `clamp(512 + 128, 0, 255)` is
255: the samples are not within 1 of `clamp(D + 128, 0, 255)`. -/
theorem idct_dc_not_level_shifted :
    ¬ (∀ (D : Int) (k : Nat), k < 64 →
        (idct (dcBlock D) (List.replicate 64 1)).getD k 0 - clamp (D + 128) 0 255 ≤ 1 ∧
        clamp (D + 128) 0 255 - (idct (dcBlock D) (List.replicate 64 1)).getD k 0 ≤ 1) := by
  intro h
  have h0 := (h 512 0 (by decide)).2
  revert h0
  decide

/-- C7 (amended).  For every DC value `D` with `|D| <= 2^16`, the coefficient block
with DC `D` and all 63 AC coefficients zero, dequantised with a table of all ones,
yields 64 samples that are all equal to `128 + floor((D + 4) / 8)`: the DC value is
scaled by 1/8 and the result is not clamped. -/
theorem idct_dc_only_ones (data qt : List Int) (D : Int)
    (hD1 : -65536 ≤ D) (hD2 : D ≤ 65536) (hdc : data.getD 0 0 = D)
    (hac : ∀ k, 1 ≤ k → k < 64 → data.getD k 0 = 0)
    (hqt : ∀ k, k < 64 → qt.getD k 0 = 1) :
    idct data qt = List.replicate 64 (128 + (D + 4) / 8) := by
  have hd : data.getD 0 0 * qt.getD 0 0 = D := by
    rw [hdc, hqt 0 (by decide), mul_one]
  have h := idct_dc_only data qt hac (by rw [hd]; exact hD1) (by rw [hd]; exact hD2)
  rw [hd] at h
  exact h

/-- Witness of `idct_dc_only_ones`: DC value 512 gives 64 samples equal to 192. -/
theorem idct_dc_only_ones_witness :
    idct (dcBlock 512) (List.replicate 64 1) = List.replicate 64 (128 + (512 + 4) / 8) :=
  idct_dc_only_ones (dcBlock 512) (List.replicate 64 1) 512 (by decide) (by decide)
    (by decide) (by decide) (by decide)

theorem shift17_range (w : Int) :
    -16384 ≤ wrapI w / 131072 ∧ wrapI w / 131072 ≤ 16383 := by
  have := wrapI_range w
  omega

theorem idctOutputs_range (c : IDCT) (bias : Int) :
    ∀ v ∈ idctOutputs c bias 131072, -16384 ≤ v ∧ v ≤ 16383 := by
  intro v hv
  unfold idctOutputs at hv
  simp only [List.mem_cons, List.mem_singleton, List.not_mem_nil, or_false] at hv
  rcases hv with h | h | h | h | h | h | h | h <;>
  · rw [h]
    exact shift17_range _

theorem idct_mem_range (data qt : List Int) :
    ∀ v ∈ idct data qt, -16384 ≤ v ∧ v ≤ 16383 := by
  intro v hv
  unfold idct at hv
  rw [List.mem_flatMap] at hv
  obtain ⟨i, _, hi⟩ := hv
  exact idctOutputs_range _ _ v hi

theorem idct_length (data qt : List Int) : (idct data qt).length = 64 := by
  unfold idct
  rw [range8]
  simp only [List.flatMap_cons, List.flatMap_nil, List.length_append, List.length_nil]
  rfl

/-- C8 (counterexample).  With DC value 2000, all AC coefficients zero and all
quantisation entries 1, the first sample written by `idct` is 378, outside
`0..255`. -/
theorem idct_sample_above_255 :
    ¬ (∀ (data qt : List Int) (k : Nat), k < 64 →
        0 ≤ (idct data qt).getD k 0 ∧ (idct data qt).getD k 0 ≤ 255) := by
  intro h
  have h0 := (h (dcBlock 2000) (List.replicate 64 1) 0 (by decide)).2
  revert h0
  decide

/-- C8 (amended).  For every coefficient block and every quantisation table, `idct`
writes 64 samples and each of them lies in `-16384..16383` (a 32-bit sum shifted
right by 17 bits); no clamp to `0..255` is applied. -/
theorem idct_sample_range (data qt : List Int) :
    (idct data qt).length = 64 ∧
    ∀ k, k < 64 → -16384 ≤ (idct data qt).getD k 0 ∧ (idct data qt).getD k 0 ≤ 16383 := by
  refine ⟨idct_length data qt, ?_⟩
  intro k hk
  have hlen := idct_length data qt
  have hk' : k < (idct data qt).length := by omega
  rw [List.getD_eq_getElem _ _ hk']
  exact idct_mem_range data qt _ (List.getElem_mem _)

/-- Witness of `idct_sample_range`: the first sample of the DC-only block with DC
value 2000 is 378. -/
theorem idct_sample_range_witness :
    (-16384 ≤ (idct (dcBlock 2000) (List.replicate 64 1)).getD 0 0 ∧
      (idct (dcBlock 2000) (List.replicate 64 1)).getD 0 0 ≤ 16383) ∧
    (idct (dcBlock 2000) (List.replicate 64 1)).getD 0 0 = 378 :=
  ⟨(idct_sample_range (dcBlock 2000) (List.replicate 64 1)).2 0 (by decide), by decide⟩

/-! ## Colour resolve and the end-to-end scenario -/

theorem decodeBlock_result (inp : ShaderInput) (blk : Nat) (st : LaneState)
    (bt : BlockTrace) (st' : LaneState) (h : decodeBlock inp blk st = some (bt, st')) :
    bt.result = idct bt.temp (inp.u_quantize.getD blk []) := by
  unfold decodeBlock at h
  cases hdb : decodeBlocks.get? blk with
  | none => rw [hdb] at h; simp at h
  | some db =>
    rw [hdb] at h
    simp only at h
    cases hdc : inp.huffman_tables.get? db.dc with
    | none => rw [hdc] at h; simp at h
    | some dcTable =>
      cases hac : inp.huffman_tables.get? db.ac with
      | none => rw [hdc, hac] at h; simp at h
      | some acTable =>
        rw [hdc, hac] at h
        simp only at h
        cases hd : decodeDC dcTable inp.input_data st.bitbuffer with
        | none => rw [hd] at h; simp at h
        | some d =>
          rw [hd] at h
          simp only at h
          cases ha : acLoop acTable inp.input_data 64 1
              ((List.replicate 64 (0 : Int)).set 0
                (toInt32 (wrapU (d.1 + st.last_dc_value.getD db.pred 0)))) d.2 with
          | none => rw [ha] at h; simp at h
          | some a =>
            rw [ha] at h
            simp only [Option.some.injEq, Prod.mk.injEq] at h
            rw [← h.1]

theorem decodeMcu_blocks (inp : ShaderInput) (laneY mcu_x : Nat) (st : LaneState)
    (m : McuTrace) (st' : LaneState) (h : decodeMcu inp laneY mcu_x st = some (m, st')) :
    ∃ b0 b1 b2, m.blocks = [b0, b1, b2] ∧
      b0.result = idct b0.temp (inp.u_quantize.getD 0 []) ∧
      b1.result = idct b1.temp (inp.u_quantize.getD 1 []) ∧
      b2.result = idct b2.temp (inp.u_quantize.getD 2 []) ∧
      m.stores = resolveStores laneY mcu_x [b0.result, b1.result, b2.result] := by
  unfold decodeMcu at h
  cases h0 : decodeBlock inp 0 st with
  | none => rw [h0] at h; simp at h
  | some r0 =>
    rw [h0] at h
    simp only at h
    cases h1 : decodeBlock inp 1 r0.2 with
    | none => rw [h1] at h; simp at h
    | some r1 =>
      rw [h1] at h
      simp only at h
      cases h2 : decodeBlock inp 2 r1.2 with
      | none => rw [h2] at h; simp at h
      | some r2 =>
        rw [h2] at h
        simp only [Option.some.injEq, Prod.mk.injEq] at h
        refine ⟨r0.1, r1.1, r2.1, ?_, decodeBlock_result inp 0 st _ _ h0,
          decodeBlock_result inp 1 _ _ _ h1, decodeBlock_result inp 2 _ _ _ h2, ?_⟩
        · rw [← h.1]
        · rw [← h.1]

theorem mcuLoop_mem (inp : ShaderInput) (laneY : Nat) :
    ∀ (n mcu_x : Nat) (st : LaneState) (ms : List McuTrace),
      mcuLoop inp laneY n mcu_x st = some ms →
      ∀ m ∈ ms, ∃ x st0 st1, mcu_x ≤ x ∧ x < mcu_x + n ∧
        decodeMcu inp laneY x st0 = some (m, st1) := by
  intro n
  induction n with
  | zero =>
    intro mcu_x st ms h m hm
    simp only [mcuLoop, Option.some.injEq] at h
    subst h
    simp at hm
  | succ n ih =>
    intro mcu_x st ms h m hm
    unfold mcuLoop at h
    cases hd : decodeMcu inp laneY mcu_x st with
    | none => rw [hd] at h; simp at h
    | some r =>
      rw [hd] at h
      simp only at h
      rw [Option.map_eq_some'] at h
      obtain ⟨ms', hms', rfl⟩ := h
      rcases List.mem_cons.mp hm with rfl | hm'
      · exact ⟨mcu_x, st, r.2, le_refl _, by omega, hd⟩
      · obtain ⟨x, st0, st1, h1, h2, h3⟩ := ih _ _ _ hms' m hm'
        exact ⟨x, st0, st1, by omega, by omega, h3⟩

theorem resolveStores_length (laneY mcu_x : Nat) (result : List (List Int)) :
    (resolveStores laneY mcu_x result).length = 64 := by
  unfold resolveStores
  rw [range8]
  rfl

theorem resolveStores_color (laneY mcu_x : Nat) (result : List (List Int)) :
    ∀ s ∈ resolveStores laneY mcu_x result, ∃ k, k < 64 ∧ s.color = resolveColor result k := by
  intro s hs
  unfold resolveStores at hs
  simp only [List.mem_flatMap, List.mem_map, List.mem_range] at hs
  obtain ⟨y, hy, x, hx, rfl⟩ := hs
  exact ⟨y * 8 + x, by omega, rfl⟩

theorem resolveColor_gray (a : Int) (k : Nat) (hk : k < 64) :
    resolveColor [List.replicate 64 a, List.replicate 64 128, List.replicate 64 128] k =
      { r := (a : ℚ) / 255, g := (a : ℚ) / 255, b := (a : ℚ) / 255, a := 1 } := by
  have hY : (List.replicate 64 a).getD k 0 = a := by
    rw [List.getD_eq_getElem?_getD, List.getElem?_replicate, if_pos hk]; rfl
  have hC : (List.replicate 64 (128 : Int)).getD k 0 = 128 := by
    rw [List.getD_eq_getElem?_getD, List.getElem?_replicate, if_pos hk]; rfl
  have hw : wrapI (128 - 128) = 0 := by decide
  unfold resolveColor chroma_to_rgb
  simp only [List.getD_cons_zero, List.getD_cons_succ, hY, hC, hw]
  norm_num

theorem gray_lane_stores (inp : ShaderInput) (laneY : Nat) (D : Int)
    (hD1 : -65536 ≤ D) (hD2 : D ≤ 65536)
    (hq : ∀ c, c < 3 → ∀ k, k < 64 → (inp.u_quantize.getD c []).getD k 0 = 1)
    (hblocks : (main inp laneY).map
      (fun ms => ms.map (fun m => m.blocks.map (fun b => b.temp))) =
        some [[dcBlock D, dcBlock 0, dcBlock 0]]) :
    ∃ ss, laneStores inp laneY = some ss ∧ ss.length = 64 ∧
      ∀ s ∈ ss, s.color =
        { r := ((128 + (D + 4) / 8 : Int) : ℚ) / 255, g := ((128 + (D + 4) / 8 : Int) : ℚ) / 255,
          b := ((128 + (D + 4) / 8 : Int) : ℚ) / 255, a := 1 } := by
  rw [Option.map_eq_some'] at hblocks
  obtain ⟨ms, hms, hmap⟩ := hblocks
  obtain ⟨m, rfl⟩ : ∃ m, ms = [m] := by
    cases ms with
    | nil => simp at hmap
    | cons m rest =>
      cases rest with
      | nil => exact ⟨m, rfl⟩
      | cons m2 rest2 => simp at hmap
  simp only [List.map_cons, List.map_nil, List.cons.injEq, and_true] at hmap
  obtain ⟨x, st0, st1, _, _, hdm⟩ := mcuLoop_mem inp laneY _ _ _ _ hms m (List.mem_singleton_self m)
  obtain ⟨b0, b1, b2, hb, r0, r1, r2, hst⟩ := decodeMcu_blocks inp laneY x st0 m st1 hdm
  rw [hb] at hmap
  simp only [List.map_cons, List.map_nil, List.cons.injEq, and_true] at hmap
  obtain ⟨t0, t1, t2⟩ := hmap
  have hac : ∀ (E : Int) k, 1 ≤ k → k < 64 → (dcBlock E).getD k 0 = 0 := by
    intro E k hk1 hk2
    unfold dcBlock
    rw [getD_set_ne _ 0 k E (by omega), List.getD_eq_getElem?_getD, List.getElem?_replicate,
      if_pos hk2]
    rfl
  have hdc : ∀ E : Int, (dcBlock E).getD 0 0 = E := by
    intro E
    exact getD_set_self _ 0 E (by simp)
  rw [t0, idct_dc_only (dcBlock D) _ (hac D) (by rw [hdc, hq 0 (by decide) 0 (by decide)]; omega)
    (by rw [hdc, hq 0 (by decide) 0 (by decide)]; omega)] at r0
  rw [t1, idct_dc_only (dcBlock 0) _ (hac 0) (by rw [hdc]; simp) (by rw [hdc]; simp)] at r1
  rw [t2, idct_dc_only (dcBlock 0) _ (hac 0) (by rw [hdc]; simp) (by rw [hdc]; simp)] at r2
  rw [hdc, hq 0 (by decide) 0 (by decide), mul_one] at r0
  rw [hdc, zero_mul] at r1 r2
  have e128 : (128 + (0 + 4) / 8 : Int) = 128 := by decide
  rw [e128] at r1 r2
  rw [r0, r1, r2] at hst
  refine ⟨m.stores, ?_, ?_, ?_⟩
  · unfold laneStores
    rw [hms]
    simp
  · rw [hst]; exact resolveStores_length _ _ _
  · intro s hs
    rw [hst] at hs
    obtain ⟨k, hk, hc⟩ := resolveStores_color _ _ _ s hs
    rw [hc, resolveColor_gray _ k hk]

/-- C9 (counterexample).  The one-lane, one-MCU scan `grayScan` has all quantisation
entries 1 and decodes to the Y block with DC 512 and the Cb, Cr blocks with DC 0, all
AC coefficients zero; its 64 stored pixels do not have colour channels within 1 of
128 (in 8-bit units): the channels are 192. -/
theorem grayScan_not_midgray :
    (main grayScan 0).map (fun ms => ms.map (fun m => m.blocks.map (fun b => b.temp))) =
      some [[dcBlock 512, dcBlock 0, dcBlock 0]] ∧
    (∀ c, c < 3 → ∀ k, k < 64 → (grayScan.u_quantize.getD c []).getD k 0 = 1) ∧
    ¬ (∃ ss, laneStores grayScan 0 = some ss ∧ ss.length = 64 ∧
        ∀ s ∈ ss, |255 * s.color.r - 128| ≤ 1 ∧ |255 * s.color.g - 128| ≤ 1 ∧
          |255 * s.color.b - 128| ≤ 1 ∧ 255 * s.color.a = 255) := by
  have hb : (main grayScan 0).map
      (fun ms => ms.map (fun m => m.blocks.map (fun b => b.temp))) =
      some [[dcBlock 512, dcBlock 0, dcBlock 0]] := by decide
  have hq : ∀ c, c < 3 → ∀ k, k < 64 → (grayScan.u_quantize.getD c []).getD k 0 = 1 := by
    decide
  refine ⟨hb, hq, ?_⟩
  rintro ⟨ss, hss, hlen, hcol⟩
  obtain ⟨ss0, hss0, _, hcol0⟩ := gray_lane_stores grayScan 0 512 (by decide) (by decide) hq hb
  rw [hss] at hss0
  have hEq : ss = ss0 := Option.some.inj hss0
  subst hEq
  cases ss with
  | nil => simp at hlen
  | cons s rest =>
    have h1 := (hcol s (List.mem_cons_self _ _)).1
    rw [hcol0 s (List.mem_cons_self _ _)] at h1
    norm_num [abs_le] at h1

/-- C9 (amended).  Decoding a single lane with one MCU whose Y block has DC = 512
and all AC zero, whose Cb and Cr blocks have DC = 0 and all AC zero, with all
quantisation entries 1, stores 64 pixels that all have the colour
`(192/255, 192/255, 192/255, 1)`, the 8-bit RGBA value `(192, 192, 192, 255)`. -/
theorem dc512_scan_pixels (inp : ShaderInput) (laneY : Nat)
    (hq : ∀ c, c < 3 → ∀ k, k < 64 → (inp.u_quantize.getD c []).getD k 0 = 1)
    (hblocks : (main inp laneY).map
      (fun ms => ms.map (fun m => m.blocks.map (fun b => b.temp))) =
        some [[dcBlock 512, dcBlock 0, dcBlock 0]]) :
    ∃ ss, laneStores inp laneY = some ss ∧ ss.length = 64 ∧
      ∀ s ∈ ss, s.color = { r := 192 / 255, g := 192 / 255, b := 192 / 255, a := 1 } := by
  obtain ⟨ss, h1, h2, h3⟩ := gray_lane_stores inp laneY 512 (by decide) (by decide) hq hblocks
  refine ⟨ss, h1, h2, ?_⟩
  intro s hs
  rw [h3 s hs]
  norm_num

/-- Witness of `dc512_scan_pixels` on the scan `grayScan`. -/
theorem dc512_scan_pixels_witness :
    ∃ ss, laneStores grayScan 0 = some ss ∧ ss.length = 64 ∧
      ∀ s ∈ ss, s.color = { r := 192 / 255, g := 192 / 255, b := 192 / 255, a := 1 } :=
  dc512_scan_pixels grayScan 0 (by decide) (by decide)

/-! ## Order independence of lanes -/

theorem resolveStores_band (laneY mcu_x : Nat) (result : List (List Int))
    (hy : laneY < 268435456) :
    ∀ s ∈ resolveStores laneY mcu_x result,
      8 * (laneY : Int) ≤ s.y ∧ s.y < 8 * (laneY : Int) + 8 := by
  intro s hs
  unfold resolveStores at hs
  simp only [List.mem_flatMap, List.mem_map, List.mem_range] at hs
  obtain ⟨y, hy8, x, hx8, rfl⟩ := hs
  simp only
  unfold wrapI toInt32 wrapU
  split_ifs <;> omega

theorem laneStores_band (inp : ShaderInput) (laneY : Nat) (ss : List Store)
    (hy : laneY < 268435456) (h : laneStores inp laneY = some ss) :
    ∀ s ∈ ss, 8 * (laneY : Int) ≤ s.y ∧ s.y < 8 * (laneY : Int) + 8 := by
  unfold laneStores at h
  rw [Option.map_eq_some'] at h
  obtain ⟨ms, hms, rfl⟩ := h
  intro s hs
  rw [List.mem_flatMap] at hs
  obtain ⟨m, hm, hsm⟩ := hs
  obtain ⟨x, st0, st1, _, _, hdm⟩ := mcuLoop_mem inp laneY _ _ _ _ hms m hm
  obtain ⟨b0, b1, b2, _, _, _, _, hst⟩ := decodeMcu_blocks inp laneY x st0 m st1 hdm
  rw [hst] at hsm
  exact resolveStores_band laneY x _ hy s hsm

theorem foldl_imageStore_outside (ss : List Store) :
    ∀ (img : Image) (x y : Int), (∀ s ∈ ss, s.y ≠ y) →
      (ss.foldl imageStore img) x y = img x y := by
  induction ss with
  | nil => intro img x y _; rfl
  | cons s rest ih =>
    intro img x y h
    rw [List.foldl_cons, ih _ x y (fun t ht => h t (List.mem_cons_of_mem _ ht))]
    have hs := h s (List.mem_cons_self _ _)
    unfold imageStore
    rw [if_neg (fun hc => hs hc.2.symm)]

theorem foldl_imageStore_congr (ss : List Store) :
    ∀ (img1 img2 : Image) (x y : Int), img1 x y = img2 x y →
      (ss.foldl imageStore img1) x y = (ss.foldl imageStore img2) x y := by
  induction ss with
  | nil => intro img1 img2 x y h; exact h
  | cons s rest ih =>
    intro img1 img2 x y h
    rw [List.foldl_cons, List.foldl_cons]
    apply ih
    unfold imageStore
    split_ifs
    · rfl
    · exact h

theorem stores_commute (sa sb : List Store) (img : Image)
    (hdis : ∀ s ∈ sa, ∀ t ∈ sb, s.y ≠ t.y) :
    sb.foldl imageStore (sa.foldl imageStore img) =
      sa.foldl imageStore (sb.foldl imageStore img) := by
  funext x y
  by_cases hb : ∃ t ∈ sb, t.y = y
  · obtain ⟨t, ht, hty⟩ := hb
    have ha : ∀ s ∈ sa, s.y ≠ y := fun s hs => hty ▸ hdis s hs t ht
    rw [foldl_imageStore_congr sb _ img x y (foldl_imageStore_outside sa img x y ha),
      foldl_imageStore_outside sa _ x y ha]
  · have hb' : ∀ t ∈ sb, t.y ≠ y := fun t ht hc => hb ⟨t, ht, hc⟩
    rw [foldl_imageStore_outside sb _ x y hb',
      foldl_imageStore_congr sa _ img x y (foldl_imageStore_outside sb img x y hb')]

theorem runLanes_cons (inp : ShaderInput) (a : Nat) (l : List Nat) (img : Image) :
    runLanes inp (a :: l) img = (runLane inp img a).bind (runLanes inp l) := by
  unfold runLanes
  rw [List.foldlM_cons]
  rfl

theorem runLane_swap (inp : ShaderInput) (a b : Nat) (img : Image)
    (ha : a < 268435456) (hb : b < 268435456) :
    (runLane inp img a).bind (fun i => runLane inp i b) =
      (runLane inp img b).bind (fun i => runLane inp i a) := by
  by_cases hab : a = b
  · subst hab; rfl
  · unfold runLane
    cases hsa : laneStores inp a with
    | none => cases hsb : laneStores inp b <;> simp
    | some sa =>
      cases hsb : laneStores inp b with
      | none => simp
      | some sb =>
        simp only [Option.map_some', Option.some_bind]
        congr 1
        apply stores_commute
        intro s hs t ht
        have h1 := laneStores_band inp a sa ha hsa s hs
        have h2 := laneStores_band inp b sb hb hsb t ht
        omega

theorem runLanes_perm (inp : ShaderInput) (l1 l2 : List Nat) (hperm : l1.Perm l2) :
    (∀ y ∈ l1, y < 268435456) → ∀ img : Image, runLanes inp l1 img = runLanes inp l2 img := by
  induction hperm with
  | nil => intro _ _; rfl
  | cons a _ ih =>
    intro h img
    rw [runLanes_cons, runLanes_cons]
    congr 1
    funext i
    exact ih (fun y hy => h y (List.mem_cons_of_mem _ hy)) i
  | swap a b l =>
    intro h img
    have ea : runLanes inp (a :: l) = fun i => (runLane inp i a).bind (runLanes inp l) :=
      funext (runLanes_cons inp a l)
    have eb : runLanes inp (b :: l) = fun i => (runLane inp i b).bind (runLanes inp l) :=
      funext (runLanes_cons inp b l)
    rw [runLanes_cons, runLanes_cons, ea, eb]
    have e1 : ∀ (o : Option Image) (c d : Nat),
        (o.bind (fun i => (runLane inp i c).bind (runLanes inp l))) =
          (o.bind (fun i => runLane inp i c)).bind (runLanes inp l) := by
      intro o c d
      cases o <;> rfl
    rw [e1 _ _ 0, e1 _ _ 0, runLane_swap inp b a img
      (h b (List.mem_cons_self _ _)) (h a (List.mem_cons_of_mem _ (List.mem_cons_self _ _)))]
  | trans p1 _ ih1 ih2 =>
    intro h img
    rw [ih1 h img]
    exact ih2 (fun y hy => h y (p1.mem_iff.mpr hy)) img

/-- C10.  For every scan input and every two orders in which the same lanes are run
one after another (one order a permutation of the other; lane indices below `2^28`,
so that `8 * y + 7` is a signed 32-bit row number), the final image is the same. -/
theorem lanes_order_independent (inp : ShaderInput) (order1 order2 : List Nat)
    (img : Image) (hperm : order1.Perm order2) (hlanes : ∀ y ∈ order1, y < 268435456) :
    runLanes inp order1 img = runLanes inp order2 img :=
  runLanes_perm inp order1 order2 hperm hlanes img

/-- Witness of `lanes_order_independent`: the two lanes of `twoLaneScan` in
ascending and in reversed order. -/
theorem lanes_order_independent_witness :
    runLanes twoLaneScan [0, 1] blankImage = runLanes twoLaneScan [1, 0] blankImage :=
  lanes_order_independent twoLaneScan [0, 1] [1, 0] blankImage (List.Perm.swap 1 0 [])
    (by decide)

/-! ## `ensure` and `peekBits` -/

/-- C18.  For every bit-buffer state, after `ensure` at least 16 bits are buffered;
`remain` has grown by 8 for every byte shifted in; and when `remain` was already
`>= 16` the whole bit buffer is unchanged and no byte is shifted in. -/
theorem ensure_postcondition (input_data : List Nat) (bitbuffer : BitBuffer) :
    16 ≤ (ensure input_data bitbuffer).remain ∧
    (ensure input_data bitbuffer).remain =
      bitbuffer.remain + 8 * (ensureBytes input_data bitbuffer).length ∧
    (16 ≤ bitbuffer.remain →
      ensure input_data bitbuffer = bitbuffer ∧ ensureBytes input_data bitbuffer = []) := by
  refine ⟨ensure_remain_ge input_data bitbuffer, ?_, ?_⟩
  · unfold ensure ensureBytes ensureLoop ensureLoop ensureLoop
    dsimp only
    split_ifs with h1 h2
    · simp only [ensureBody_remain, wrapU, List.length_cons, List.length_nil] at h2 ⊢
      omega
    · simp only [ensureBody_remain, wrapU, List.length_cons, List.length_nil] at h2 ⊢
      omega
    · simp
  · intro h
    refine ⟨ensure_of_le input_data bitbuffer h, ?_⟩
    simp [ensureBytes, ensureLoop, Nat.not_lt.mpr h]

/-- Witness of `ensure_postcondition`: a buffer holding 20 bits is left alone. -/
theorem ensure_postcondition_witness :
    ensure [0x60] { offset := 0, used := 24, data := 0x60000, remain := 20 } =
      { offset := 0, used := 24, data := 0x60000, remain := 20 } ∧
    ensureBytes [0x60] { offset := 0, used := 24, data := 0x60000, remain := 20 } = [] :=
  (ensure_postcondition [0x60] { offset := 0, used := 24, data := 0x60000, remain := 20 }).2.2
    (by decide)

theorem mask_eq32 (n : Nat) (hn : n < 32) : subU (shl32 1 n) 1 = 2 ^ n - 1 := by
  interval_cases n <;> decide

theorem top_bits_eq (a r n : Nat) (hn : n ≤ r) :
    a / 2 ^ (r - n) % 2 ^ n = a % 2 ^ r / 2 ^ (r - n) := by
  have h : 2 ^ r = 2 ^ (r - n) * 2 ^ n := by
    rw [← pow_add]; congr 1; omega
  rw [h, Nat.mod_mul_right_div_self]

theorem ensureBody_data (inp : List Nat) (bb : BitBuffer) :
    ∃ x, x < 256 ∧ (ensureBody inp bb).2.data = (bb.data % 16777216) * 256 + x := by
  have hx : ∀ w s : Nat, (w >>> s) &&& 0xff < 256 := by
    intro w s
    have := Nat.and_pow_two_sub_one_eq_mod (w >>> s) 8
    simp only [Nat.reducePow, Nat.reduceSub] at this
    rw [this]
    exact Nat.mod_lt _ (by decide)
  have key : ∀ (d x : Nat), x < 256 → shl32 d 8 ||| x = (d % 16777216) * 256 + x := by
    intro d x hx
    have h1 : shl32 d 8 = 2 ^ 8 * (d % 16777216) := by
      unfold shl32
      rw [if_pos (by decide), Nat.shiftLeft_eq]
      omega
    rw [h1, ← Nat.mul_add_lt_is_or (by simpa using hx)]
    omega
  unfold ensureBody getByte
  dsimp only
  split_ifs <;> exact ⟨_, hx _ _, key _ _ (hx _ _)⟩

theorem ensureBody_top (inp : List Nat) (bb : BitBuffer) (n : Nat)
    (hn : n ≤ bb.remain) (hr : bb.remain ≤ 23) :
    (ensureBody inp bb).2.data / 2 ^ ((ensureBody inp bb).2.remain - n) % 2 ^ n =
      bb.data / 2 ^ (bb.remain - n) % 2 ^ n := by
  obtain ⟨x, hx, hd⟩ := ensureBody_data inp bb
  have hrem : (ensureBody inp bb).2.remain = bb.remain + 8 := by
    rw [ensureBody_remain]; unfold wrapU; omega
  rw [hd, hrem]
  have e1 : bb.remain + 8 - n = 8 + (bb.remain - n) := by omega
  rw [e1, pow_add, ← Nat.div_div_eq_div_mul]
  have e2 : (bb.data % 16777216 * 256 + x) / 2 ^ 8 = bb.data % 16777216 := by
    norm_num
    omega
  rw [e2, top_bits_eq _ _ _ hn, top_bits_eq _ _ _ hn]
  have hdvd : 2 ^ bb.remain ∣ 16777216 := by
    have : (16777216 : Nat) = 2 ^ 24 := by norm_num
    rw [this]
    exact Nat.pow_dvd_pow 2 (by omega)
  rw [Nat.mod_mod_of_dvd _ hdvd]

theorem ensure_top (inp : List Nat) (bb : BitBuffer) (n : Nat) (hn : n ≤ bb.remain) :
    (ensure inp bb).data / 2 ^ ((ensure inp bb).remain - n) % 2 ^ n =
      bb.data / 2 ^ (bb.remain - n) % 2 ^ n := by
  by_cases h16 : 16 ≤ bb.remain
  · rw [ensure_of_le inp bb h16]
  · have hr1 : (ensureBody inp bb).2.remain = bb.remain + 8 := by
      rw [ensureBody_remain]; unfold wrapU; omega
    unfold ensure ensureLoop ensureLoop ensureLoop
    dsimp only
    rw [if_pos (by omega)]
    by_cases h2 : (ensureBody inp bb).2.remain < 16
    · rw [if_pos h2]
      dsimp only
      rw [ensureBody_top inp _ n (by omega) (by omega),
        ensureBody_top inp bb n hn (by omega)]
    · rw [if_neg h2]
      dsimp only
      exact ensureBody_top inp bb n hn (by omega)

/-- C19.  For every bit-buffer state and every `n` with `1 <= n <= remain` and
`n < 32`, `peekBits(n)` is the top `n` of the `remain` valid bits,
`floor((data mod 2^remain) / 2^(remain - n))`; it is a function of the bit buffer
and changes nothing; and it is the raw `n`-bit value that `receive(n)` takes in the
same state. -/
theorem peekBits_top_bits (input_data : List Nat) (bitbuffer : BitBuffer) (n : Nat)
    (hn1 : 1 ≤ n) (hn : n ≤ bitbuffer.remain) (hn32 : n < 32)
    (hrem : bitbuffer.remain < 4294967296) :
    peekBits bitbuffer n =
      bitbuffer.data % 2 ^ bitbuffer.remain / 2 ^ (bitbuffer.remain - n) ∧
    (receive input_data bitbuffer n).1 = receiveValue n (peekBits bitbuffer n) := by
  have hpeek : peekBits bitbuffer n =
      bitbuffer.data / 2 ^ (bitbuffer.remain - n) % 2 ^ n := by
    have hsub : subU bitbuffer.remain n = bitbuffer.remain - n := by
      unfold subU; omega
    unfold peekBits
    rw [hsub, mask_eq32 n hn32, Nat.and_pow_two_sub_one_eq_mod, Nat.shiftRight_eq_div_pow]
  refine ⟨by rw [hpeek, top_bits_eq _ _ _ hn], ?_⟩
  have hge := ensure_remain_ge input_data bitbuffer
  have hlt := ensure_remain_lt input_data bitbuffer hrem
  have hmono : bitbuffer.remain ≤ (ensure input_data bitbuffer).remain := by
    rw [(ensure_postcondition input_data bitbuffer).2.1]; omega
  have hsub : subU (ensure input_data bitbuffer).remain n =
      (ensure input_data bitbuffer).remain - n := by
    unfold subU; omega
  rw [hpeek, ← ensure_top input_data bitbuffer n hn]
  simp only [receive, hsub, mask_eq32 n hn32, Nat.and_pow_two_sub_one_eq_mod,
    Nat.shiftRight_eq_div_pow]

/-- Witness of `peekBits_top_bits`: with the 16 bits `0110 0000 0000 0000` buffered,
`peekBits(3)` is `011`. -/
theorem peekBits_top_bits_witness :
    peekBits { offset := 0, used := 16, data := 0x6000, remain := 16 } 3 =
      0x6000 % 2 ^ 16 / 2 ^ (16 - 3) ∧
    peekBits { offset := 0, used := 16, data := 0x6000, remain := 16 } 3 = 3 ∧
    (receive [0x60] { offset := 0, used := 16, data := 0x6000, remain := 16 } 3).1 =
      receiveValue 3 (peekBits { offset := 0, used := 16, data := 0x6000, remain := 16 } 3) :=
  ⟨(peekBits_top_bits [0x60] { offset := 0, used := 16, data := 0x6000, remain := 16 } 3
      (by decide) (by decide) (by decide) (by decide)).1, by decide,
   (peekBits_top_bits [0x60] { offset := 0, used := 16, data := 0x6000, remain := 16 } 3
      (by decide) (by decide) (by decide) (by decide)).2⟩

/-! ## Dequantisation -/

theorem wrapI_wrapI (z : Int) : wrapI (wrapI z * 1) = wrapI z := by
  unfold wrapI; omega

/-- C20.  For every coefficient block `data` and quantisation table `qt`,
`idct(data, qt)` equals `idct(data', ones)` where `data'[k]` is the 32-bit wrapped
product `data[k] * qt[k]` for every `k` in `0..63` and `ones[k] = 1`. -/
theorem idct_dequantize_pointwise (data qt data' ones : List Int)
    (hprod : ∀ k, k < 64 → data'.getD k 0 = wrapI (data.getD k 0 * qt.getD k 0))
    (hones : ∀ k, k < 64 → ones.getD k 0 = 1) :
    idct data qt = idct data' ones := by
  have hfirst : ∀ i, i < 8 → idctFirst data' ones i = idctFirst data qt i := by
    intro i hi
    unfold idctFirst
    simp only [hprod (i + 8 * 0) (by omega), hprod (i + 8 * 1) (by omega),
      hprod (i + 8 * 2) (by omega), hprod (i + 8 * 3) (by omega),
      hprod (i + 8 * 4) (by omega), hprod (i + 8 * 5) (by omega),
      hprod (i + 8 * 6) (by omega), hprod (i + 8 * 7) (by omega),
      hones (i + 8 * 0) (by omega), hones (i + 8 * 1) (by omega),
      hones (i + 8 * 2) (by omega), hones (i + 8 * 3) (by omega),
      hones (i + 8 * 4) (by omega), hones (i + 8 * 5) (by omega),
      hones (i + 8 * 6) (by omega), hones (i + 8 * 7) (by omega), wrapI_wrapI]
  unfold idct
  rw [range8]
  simp only [List.flatMap_cons, List.flatMap_nil, hfirst 0 (by decide), hfirst 1 (by decide),
    hfirst 2 (by decide), hfirst 3 (by decide), hfirst 4 (by decide), hfirst 5 (by decide),
    hfirst 6 (by decide), hfirst 7 (by decide)]

/-- Witness of `idct_dequantize_pointwise`: DC 64 with quantisation step 8 is the
block with DC 512 and step 1. -/
theorem idct_dequantize_pointwise_witness :
    idct (dcBlock 64) (List.replicate 64 8) = idct (dcBlock 512) (List.replicate 64 1) :=
  idct_dequantize_pointwise (dcBlock 64) (List.replicate 64 8) (dcBlock 512)
    (List.replicate 64 1) (by decide) (by decide)

/-! ## Host side: the packed buffer -/

theorem align_offset_four (s : Nat) :
    align_offset s 4 % 4 = 0 ∧ s ≤ align_offset s 4 ∧ align_offset s 4 < s + 4 := by
  unfold align_offset
  omega

theorem intervalStart_zero (sizes : List Nat) : intervalStart sizes 0 = 0 := by
  simp [intervalStart]

theorem intervalStart_cons (s : Nat) (t : List Nat) (k : Nat) :
    intervalStart (s :: t) (k + 1) = align_offset s 4 + intervalStart t k := by
  simp [intervalStart]

theorem intervalStart_mod (sizes : List Nat) : ∀ k, intervalStart sizes k % 4 = 0 := by
  induction sizes with
  | nil => intro k; simp [intervalStart]
  | cons s t ih =>
    intro k
    cases k with
    | zero => simp [intervalStart]
    | succ k =>
      rw [intervalStart_cons]
      have := ih k
      have := (align_offset_four s).1
      omega

theorem intervalStart_le_total (sizes : List Nat) :
    ∀ k, intervalStart sizes k ≤ (sizes.map (fun s => align_offset s 4)).sum := by
  induction sizes with
  | nil => intro k; simp [intervalStart]
  | cons s t ih =>
    intro k
    cases k with
    | zero => simp [intervalStart]
    | succ k =>
      rw [intervalStart_cons, List.map_cons, List.sum_cons]
      have := ih k
      omega

theorem intervalStart_next (sizes : List Nat) :
    ∀ k, k < sizes.length →
      intervalStart sizes (k + 1) = intervalStart sizes k + align_offset (sizes.getD k 0) 4 := by
  induction sizes with
  | nil => intro k hk; simp at hk
  | cons s t ih =>
    intro k hk
    cases k with
    | zero => simp [intervalStart]
    | succ k =>
      rw [intervalStart_cons, intervalStart_cons, ih k (by simpa using hk)]
      simp only [List.getD_cons_succ]
      omega

theorem intervalStart_mono (sizes : List Nat) (k : Nat) :
    ∀ d, k + d ≤ sizes.length → intervalStart sizes k ≤ intervalStart sizes (k + d) := by
  intro d
  induction d with
  | zero => intro _; exact le_refl _
  | succ d ih =>
    intro h
    have h1 := ih (by omega)
    have h2 := intervalStart_next sizes (k + d) (by omega)
    rw [← Nat.add_assoc, h2]
    omega

theorem intervalStart_length (sizes : List Nat) :
    intervalStart sizes sizes.length = (sizes.map (fun s => align_offset s 4)).sum := by
  simp [intervalStart]

theorem foldl_offsetStep (sizes : List Nat) :
    ∀ (offs : List Nat) (off : Nat),
      (sizes.foldl offsetStep (offs, off)).2 = off + (sizes.map (fun s => align_offset s 4)).sum ∧
      (sizes.foldl offsetStep (offs, off)).1.length = offs.length + sizes.length ∧
      (∀ i, i < offs.length → (sizes.foldl offsetStep (offs, off)).1[i]? = offs[i]?) ∧
      ∀ k, k < sizes.length → (sizes.foldl offsetStep (offs, off)).1[offs.length + k]? =
        some (wrapU ((off + intervalStart sizes k) / 4)) := by
  induction sizes with
  | nil => intro offs off; simp
  | cons s t ih =>
    intro offs off
    rw [List.foldl_cons]
    obtain ⟨h1, h2, h3, h4⟩ := ih (offsetStep (offs, off) s).1 (offsetStep (offs, off) s).2
    have e : offsetStep (offs, off) s =
        ((offsetStep (offs, off) s).1, (offsetStep (offs, off) s).2) := rfl
    rw [e]
    have hl : (offsetStep (offs, off) s).1.length = offs.length + 1 := by
      simp [offsetStep]
    refine ⟨?_, ?_, ?_, ?_⟩
    · rw [h1]; simp only [offsetStep, List.map_cons, List.sum_cons]; omega
    · rw [h2, hl]; simp only [List.length_cons]; omega
    · intro i hi
      rw [h3 i (by omega)]
      simp only [offsetStep]
      rw [List.getElem?_append_left hi]
    · intro k hk
      cases k with
      | zero =>
        rw [h3 _ (by omega)]
        simp only [offsetStep, Nat.add_zero, intervalStart_zero]
        rw [List.getElem?_append_right (le_refl _)]
        simp
      | succ k =>
        have := h4 k (by simpa using hk)
        rw [hl] at this
        rw [show offs.length + (k + 1) = offs.length + 1 + k by omega, this,
          intervalStart_cons]
        simp only [offsetStep]
        congr 3
        omega

theorem offsets_table_aux (sizes : List Nat)
    (hsize : (sizes.map (fun s => align_offset s 4)).sum < 17179869184) :
    ∀ k, k < sizes.length →
      (computeOffsets sizes).1[k]? = some (intervalStart sizes k / 4) ∧
      intervalStart sizes k % 4 = 0 := by
  obtain ⟨_, _, _, h4⟩ := foldl_offsetStep sizes [] 0
  intro k hk
  refine ⟨?_, intervalStart_mod sizes k⟩
  have := h4 k hk
  simp only [List.length_nil, Nat.zero_add] at this
  unfold computeOffsets
  rw [this]
  have hle := intervalStart_le_total sizes k
  unfold wrapU
  congr 1
  omega

/-- C13.  With `align_offset(s, 4)` the least multiple of 4 that is `>= s`, for every
list of interval sizes whose aligned sizes sum to less than `2^34` bytes (so that
`offset / 4` is a `u32`): the offset table has one entry per interval, entry `k` is
the sum of the aligned sizes of the intervals before `k` divided by 4, that sum is a
multiple of 4, and `buffer_size` is the sum of all aligned sizes. -/
theorem offsets_table (sizes : List Nat)
    (hsize : (sizes.map (fun s => align_offset s 4)).sum < 17179869184) :
    (∀ s, align_offset s 4 % 4 = 0 ∧ s ≤ align_offset s 4 ∧ align_offset s 4 < s + 4) ∧
    (computeOffsets sizes).1.length = sizes.length ∧
    (computeOffsets sizes).2 = (sizes.map (fun s => align_offset s 4)).sum ∧
    ∀ k, k < sizes.length →
      (computeOffsets sizes).1[k]? = some (intervalStart sizes k / 4) ∧
      intervalStart sizes k % 4 = 0 := by
  obtain ⟨h1, h2, _, _⟩ := foldl_offsetStep sizes [] 0
  refine ⟨align_offset_four, ?_, ?_, offsets_table_aux sizes hsize⟩
  · unfold computeOffsets; rw [h2]; simp
  · unfold computeOffsets; rw [h1]; simp

/-- Witness of `offsets_table`: intervals of 3, 8 and 5 bytes start at words 0, 1
and 3 of a 20-byte buffer. -/
theorem offsets_table_witness :
    computeOffsets [3, 8, 5] = ([0, 1, 3], 20) ∧
    (computeOffsets [3, 8, 5]).1[2]? = some (intervalStart [3, 8, 5] 2 / 4) ∧
    intervalStart [3, 8, 5] 2 % 4 = 0 :=
  ⟨by decide, (offsets_table [3, 8, 5] (by decide)).2.2.2 2 (by decide)⟩

theorem memcpy_length (buf : List Nat) (off : Nat) (m : List Nat)
    (h : off + m.length ≤ buf.length) : (memcpy buf off m).length = buf.length := by
  unfold memcpy
  simp only [List.length_append, List.length_take, List.length_drop]
  omega

theorem memcpy_getElem?_lt (buf : List Nat) (off : Nat) (m : List Nat) (i : Nat)
    (h : off ≤ buf.length) (hi : i < off) : (memcpy buf off m)[i]? = buf[i]? := by
  unfold memcpy
  rw [List.append_assoc, List.getElem?_append_left (by simp; omega),
    List.getElem?_take_of_lt hi]

theorem memcpy_getElem?_mid (buf : List Nat) (off : Nat) (m : List Nat) (j : Nat)
    (h : off ≤ buf.length) (hj : j < m.length) : (memcpy buf off m)[off + j]? = m[j]? := by
  unfold memcpy
  have hl : (buf.take off).length = off := by simp; omega
  rw [List.append_assoc, List.getElem?_append_right (by omega), hl,
    List.getElem?_append_left (by omega)]
  congr 1
  omega

theorem foldl_uploadStep (intervals : List (List Nat)) :
    ∀ (buf : List Nat) (off : Nat),
      off + ((intervals.map List.length).map (fun s => align_offset s 4)).sum ≤ buf.length →
      (intervals.foldl uploadStep (buf, off)).1.length = buf.length ∧
      (∀ i, i < off → (intervals.foldl uploadStep (buf, off)).1[i]? = buf[i]?) ∧
      ∀ k j, k < intervals.length → j < (intervals.getD k []).length →
        (intervals.foldl uploadStep (buf, off)).1[
          off + intervalStart (intervals.map List.length) k + j]? =
            (intervals.getD k [])[j]? := by
  induction intervals with
  | nil => intro buf off _; simp
  | cons m t ih =>
    intro buf off hlen
    simp only [List.map_cons, List.sum_cons] at hlen
    have ha := align_offset_four m.length
    rw [List.foldl_cons]
    have e : uploadStep (buf, off) m =
        (memcpy buf off m, off + align_offset m.length 4) := rfl
    rw [e]
    have hml := memcpy_length buf off m (by omega)
    obtain ⟨h1, h2, h3⟩ := ih (memcpy buf off m) (off + align_offset m.length 4)
      (by rw [hml]; omega)
    refine ⟨by rw [h1, hml], ?_, ?_⟩
    · intro i hi
      rw [h2 i (by omega), memcpy_getElem?_lt buf off m i (by omega) hi]
    · intro k j hk hj
      cases k with
      | zero =>
        simp only [List.getD_cons_zero] at hj ⊢
        simp only [List.map_cons, intervalStart_zero, Nat.add_zero]
        rw [h2 (off + j) (by omega), memcpy_getElem?_mid buf off m j (by omega) hj]
      | succ k =>
        simp only [List.getD_cons_succ] at hj ⊢
        have := h3 k j (by simpa using hk) hj
        simp only [List.map_cons, intervalStart_cons]
        rw [← this]
        congr 1
        omega

/-- C14.  For every list of intervals uploaded into a buffer of `buffer_size` bytes
(less than `2^34`): byte `j` of interval `k` is at packed byte position
`4 * offsets[k] + j`; the byte range of an interval ends at or before the start of
every later interval (the ranges are disjoint and in interval order); the range of
the last interval ends inside the buffer; and fewer than 4 padding bytes follow an
interval. -/
theorem upload_contents (intervals : List (List Nat)) (buffer : List Nat)
    (hbuf : buffer.length = (computeOffsets (intervals.map List.length)).2)
    (hsize : buffer.length < 17179869184) :
    (uploadIntervals buffer intervals).length = buffer.length ∧
    (∀ k j, k < intervals.length → j < (intervals.getD k []).length →
      (uploadIntervals buffer intervals)[
        4 * (computeOffsets (intervals.map List.length)).1.getD k 0 + j]? =
          (intervals.getD k [])[j]?) ∧
    (∀ k k', k < k' → k' < intervals.length →
      4 * (computeOffsets (intervals.map List.length)).1.getD k 0 +
          (intervals.getD k []).length ≤
        4 * (computeOffsets (intervals.map List.length)).1.getD k' 0 ∧
      4 * (computeOffsets (intervals.map List.length)).1.getD (k + 1) 0 <
        4 * (computeOffsets (intervals.map List.length)).1.getD k 0 +
          (intervals.getD k []).length + 4) ∧
    (∀ k, k + 1 = intervals.length →
      4 * (computeOffsets (intervals.map List.length)).1.getD k 0 +
          (intervals.getD k []).length ≤ buffer.length ∧
      buffer.length < 4 * (computeOffsets (intervals.map List.length)).1.getD k 0 +
          (intervals.getD k []).length + 4) := by
  have htot : (computeOffsets (intervals.map List.length)).2 =
      ((intervals.map List.length).map (fun s => align_offset s 4)).sum := by
    unfold computeOffsets
    rw [(foldl_offsetStep _ [] 0).1]; simp
  have hN : (intervals.map List.length).length = intervals.length := by simp
  have hoff : ∀ k, k < intervals.length →
      4 * (computeOffsets (intervals.map List.length)).1.getD k 0 =
        intervalStart (intervals.map List.length) k := by
    intro k hk
    have h := (offsets_table_aux (intervals.map List.length) (by rw [← htot, ← hbuf]; exact hsize)
      k (by rw [hN]; exact hk))
    rw [List.getD_eq_getElem?_getD, h.1]
    have := h.2
    simp only [Option.getD_some]
    omega
  have hsz : ∀ k, k < intervals.length →
      (intervals.map List.length).getD k 0 = (intervals.getD k []).length := by
    intro k hk
    rw [List.getD_eq_getElem?_getD, List.getD_eq_getElem?_getD, List.getElem?_map]
    rw [List.getElem?_eq_getElem hk]
    rfl
  obtain ⟨h1, _, h3⟩ := foldl_uploadStep intervals buffer 0 (by rw [hbuf, htot]; omega)
  refine ⟨h1, ?_, ?_, ?_⟩
  · intro k j hk hj
    rw [hoff k hk]
    have := h3 k j hk hj
    rw [Nat.zero_add] at this
    exact this
  · intro k k' hkk hk'
    have hk : k < intervals.length := by omega
    have hnext := intervalStart_next (intervals.map List.length) k (by rw [hN]; exact hk)
    have hmono := intervalStart_mono (intervals.map List.length) (k + 1) (k' - (k + 1))
      (by rw [hN]; omega)
    rw [show k + 1 + (k' - (k + 1)) = k' by omega] at hmono
    rw [hsz k hk] at hnext
    have ha := align_offset_four (intervals.getD k []).length
    rw [hoff k hk, hoff k' hk']
    refine ⟨by omega, ?_⟩
    by_cases hk1 : k + 1 < intervals.length
    · rw [hoff (k + 1) hk1]; omega
    · have : (computeOffsets (intervals.map List.length)).1.getD (k + 1) 0 = 0 := by
        rw [List.getD_eq_getElem?_getD, List.getElem?_eq_none]
        · rfl
        · unfold computeOffsets
          rw [(foldl_offsetStep _ [] 0).2.1]
          simp only [List.length_nil, Nat.zero_add, hN]
          omega
      rw [this]; omega
  · intro k hk
    have hk' : k < intervals.length := by omega
    have hnext := intervalStart_next (intervals.map List.length) k (by rw [hN]; exact hk')
    rw [hsz k hk', hk, ← hN, intervalStart_length, ← htot, ← hbuf] at hnext
    have ha := align_offset_four (intervals.getD k []).length
    rw [hoff k hk']
    omega

/-- Witness of `upload_contents`: intervals of 3 and 2 bytes in an 8-byte buffer. -/
theorem upload_contents_witness :
    uploadIntervals [9, 9, 9, 9, 9, 9, 9, 9] [[0x60, 0x00, 0x03], [0x11, 0x22]] =
      [0x60, 0x00, 0x03, 9, 0x11, 0x22, 9, 9] ∧
    (uploadIntervals [9, 9, 9, 9, 9, 9, 9, 9] [[0x60, 0x00, 0x03], [0x11, 0x22]])[
      4 * (computeOffsets ([[0x60, 0x00, 0x03], [0x11, 0x22]].map List.length)).1.getD 1 0 + 1]? =
        ([[0x60, 0x00, 0x03], [0x11, 0x22]].getD 1 [])[1]? :=
  ⟨by decide,
   (upload_contents [[0x60, 0x00, 0x03], [0x11, 0x22]] [9, 9, 9, 9, 9, 9, 9, 9] (by decide)
      (by decide)).2.1 1 1 (by decide) (by decide)⟩

/-! ## Output region of a lane -/

theorem resolveStores_coords (laneY mcu_x : Nat) (result : List (List Int))
    (hy : laneY < 268435456) (hx : mcu_x < 268435456) :
    (resolveStores laneY mcu_x result).map (fun s => (s.x, s.y)) =
      blockPixels laneY mcu_x := by
  unfold resolveStores blockPixels
  rw [List.map_flatMap]
  apply List.flatMap_congr
  intro y hy8
  rw [List.map_map]
  apply List.map_congr_left
  intro x hx8
  rw [List.mem_range] at hy8 hx8
  simp only [Function.comp_apply, Prod.mk.injEq]
  unfold wrapI toInt32 wrapU
  constructor
  · omega
  · split_ifs <;> omega

theorem mcuLoop_coords (inp : ShaderInput) (laneY : Nat) (hy : laneY < 268435456) :
    ∀ (n mcu_x : Nat) (st : LaneState) (ms : List McuTrace),
      mcu_x + n ≤ 268435456 → mcuLoop inp laneY n mcu_x st = some ms →
      (ms.flatMap (fun m => m.stores)).map (fun s => (s.x, s.y)) =
        (List.range' mcu_x n).flatMap (blockPixels laneY) := by
  intro n
  induction n with
  | zero =>
    intro mcu_x st ms _ h
    simp only [mcuLoop, Option.some.injEq] at h
    subst h
    rfl
  | succ n ih =>
    intro mcu_x st ms hb h
    unfold mcuLoop at h
    cases hd : decodeMcu inp laneY mcu_x st with
    | none => rw [hd] at h; simp at h
    | some r =>
      rw [hd] at h
      simp only at h
      rw [Option.map_eq_some'] at h
      obtain ⟨ms', hms', rfl⟩ := h
      obtain ⟨b0, b1, b2, _, _, _, _, hst⟩ := decodeMcu_blocks inp laneY mcu_x st r.1 r.2 hd
      rw [List.flatMap_cons, List.map_append, List.range'_succ, List.flatMap_cons,
        ih (mcu_x + 1) r.2 ms' (by omega) hms', hst,
        resolveStores_coords laneY mcu_x _ hy (by omega)]

theorem mem_blockPixels (laneY mcu_x : Nat) (px py : Int) :
    (px, py) ∈ blockPixels laneY mcu_x ↔
      8 * (mcu_x : Int) ≤ px ∧ px < 8 * (mcu_x : Int) + 8 ∧
      8 * (laneY : Int) ≤ py ∧ py < 8 * (laneY : Int) + 8 := by
  unfold blockPixels
  simp only [List.mem_flatMap, List.mem_map, List.mem_range, Prod.mk.injEq]
  constructor
  · rintro ⟨y, hy, x, hx, h1, h2⟩
    omega
  · intro h
    exact ⟨(py - 8 * (laneY : Int)).toNat, by omega, (px - 8 * (mcu_x : Int)).toNat,
      by omega, by omega, by omega⟩

theorem nodup_blockPixels (laneY mcu_x : Nat) : (blockPixels laneY mcu_x).Nodup := by
  unfold blockPixels
  rw [List.nodup_flatMap]
  refine ⟨?_, ?_⟩
  · intro y _
    apply List.Nodup.map _ (List.nodup_range 8)
    intro a b hab
    simp only [Prod.mk.injEq] at hab
    omega
  · apply List.Pairwise.imp _ (List.pairwise_lt_range 8)
    intro a b hab
    simp only [Function.onFun, List.disjoint_left, List.mem_map, List.mem_range]
    rintro p ⟨x, _, rfl⟩ ⟨x', _, h⟩
    simp only [Prod.mk.injEq] at h
    omega

theorem nodup_lanePixels (laneY s n : Nat) :
    ((List.range' s n).flatMap (blockPixels laneY)).Nodup := by
  rw [List.nodup_flatMap]
  refine ⟨fun k _ => nodup_blockPixels laneY k, ?_⟩
  apply List.Pairwise.imp _ (List.pairwise_lt_range' s n)
  intro a b hab
  simp only [Function.onFun, List.disjoint_left]
  rintro ⟨px, py⟩ h1 h2
  rw [mem_blockPixels] at h1 h2
  omega

/-- C12.  The lane with index `y` (below `2^28`) and `xmcu <= 2^28` MCU columns, when
it runs to completion, stores exactly the pixels `(px, py)` with `0 <= px < 8 * xmcu`
and `8 * y <= py < 8 * y + 8`, each exactly once; and it leaves every pixel outside
the rows `8 * y .. 8 * y + 7` as it was. -/
theorem lane_pixels (inp : ShaderInput) (laneY : Nat) (ss : List Store)
    (h : laneStores inp laneY = some ss) (hy : laneY < 268435456)
    (hx : inp.u_xmcu ≤ 268435456) :
    (ss.map (fun s => (s.x, s.y))).Nodup ∧
    (∀ px py : Int, (px, py) ∈ ss.map (fun s => (s.x, s.y)) ↔
      0 ≤ px ∧ px < 8 * inp.u_xmcu ∧ 8 * (laneY : Int) ≤ py ∧ py < 8 * (laneY : Int) + 8) ∧
    ∀ (img : Image) (px py : Int), ¬ (8 * (laneY : Int) ≤ py ∧ py < 8 * (laneY : Int) + 8) →
      (ss.foldl imageStore img) px py = img px py := by
  have hband := laneStores_band inp laneY ss hy h
  unfold laneStores at h
  rw [Option.map_eq_some'] at h
  obtain ⟨ms, hms, rfl⟩ := h
  have hc := mcuLoop_coords inp laneY hy inp.u_xmcu.toNat 0 _ ms (by omega) hms
  refine ⟨?_, ?_, ?_⟩
  · rw [hc]; exact nodup_lanePixels laneY 0 _
  · intro px py
    rw [hc, List.mem_flatMap]
    constructor
    · rintro ⟨k, hk, hp⟩
      rw [List.mem_range'_1] at hk
      rw [mem_blockPixels] at hp
      omega
    · intro hp
      refine ⟨(px / 8).toNat, ?_, ?_⟩
      · rw [List.mem_range'_1]; omega
      · rw [mem_blockPixels]; omega
  · intro img px py hout
    apply foldl_imageStore_outside
    intro s hs hsy
    have := hband s hs
    omega

/-- Witness of `lane_pixels`: lane 1 of `twoLaneScan` stores the 64 pixels of the
rows 8..15 and columns 0..7. -/
theorem lane_pixels_witness :
    (((laneStores twoLaneScan 1).getD []).map (fun s => (s.x, s.y))).Nodup ∧
    ((3, 12) ∈ ((laneStores twoLaneScan 1).getD []).map (fun s => (s.x, s.y)) ↔
      (0 : Int) ≤ 3 ∧ (3 : Int) < 8 * twoLaneScan.u_xmcu ∧
        8 * ((1 : Nat) : Int) ≤ 12 ∧ (12 : Int) < 8 * ((1 : Nat) : Int) + 8) :=
  ⟨(lane_pixels twoLaneScan 1 _ (eq_some_getD _ [] (by decide)) (by decide) (by decide)).1,
   (lane_pixels twoLaneScan 1 _ (eq_some_getD _ [] (by decide)) (by decide) (by decide)).2.1
      3 12⟩

/-! ## Bytes fetched by a lane -/

theorem getByte_fetch (inp : List Nat) (o j : Nat) (bb : BitBuffer)
    (hR : ReaderAt o j bb) (hpos : 4 * o + j < 17179869184) :
    (getByte inp bb).1 = packedByte inp (4 * o + j) ∧ ReaderAt o (j + 1) (getByte inp bb).2 := by
  refine ⟨?_, getByte_reader inp o j bb hR (by omega)⟩
  obtain ⟨hu8, hu32, hp⟩ := hR
  unfold getByte packedByte
  by_cases h32 : bb.used = 32
  · have ho : wrapU (bb.offset + 1) = (4 * o + j) / 4 := by unfold wrapU; omega
    have hs : 8 * ((4 * o + j) % 4) = 0 := by omega
    simp only [h32, if_true, ho, hs]
  · have ho : bb.offset = (4 * o + j) / 4 := by omega
    have hs : 8 * ((4 * o + j) % 4) = bb.used := by omega
    simp only [h32, if_false, hs, ← ho]

theorem ensureBody_adv (inp : List Nat) (o j : Nat) (bb : BitBuffer)
    (hR : ReaderAt o j bb) (hb : 4 * o + j + 2 ≤ 17179869184) :
    ∃ j', j ≤ j' ∧ j' ≤ j + 2 ∧ ReaderAt o j' (ensureBody inp bb).2 := by
  have hR1 : ReaderAt o j { bb with remain := wrapU (bb.remain + 8) } := hR
  have h1 := getByte_reader inp o j _ hR1 (by omega)
  unfold ensureBody
  dsimp only
  split_ifs with hff
  · exact ⟨j + 2, by omega, by omega, getByte_reader inp o (j + 1) _ h1 (by omega)⟩
  · exact ⟨j + 1, by omega, by omega, h1⟩

theorem ensureLoop_adv (inp : List Nat) (o : Nat) :
    ∀ (fuel j : Nat) (bb : BitBuffer), ReaderAt o j bb →
      4 * o + j + 2 * fuel ≤ 17179869184 →
      ∃ j', j ≤ j' ∧ j' ≤ j + 2 * fuel ∧ ReaderAt o j' (ensureLoop inp fuel bb).2 := by
  intro fuel
  induction fuel with
  | zero => intro j bb hR _; exact ⟨j, le_refl _, by omega, hR⟩
  | succ fuel ih =>
    intro j bb hR hb
    unfold ensureLoop
    split_ifs with h
    · obtain ⟨j1, h1, h2, hR1⟩ := ensureBody_adv inp o j bb hR (by omega)
      obtain ⟨j2, h3, h4, hR2⟩ := ih j1 _ hR1 (by omega)
      exact ⟨j2, by omega, by omega, hR2⟩
    · exact ⟨j, le_refl _, by omega, hR⟩

theorem ensure_adv (inp : List Nat) (o j : Nat) (bb : BitBuffer)
    (hR : ReaderAt o j bb) (hb : 4 * o + j + 4 ≤ 17179869184) :
    ∃ j', j ≤ j' ∧ j' ≤ j + 4 ∧ ReaderAt o j' (ensure inp bb) :=
  ensureLoop_adv inp o 2 j bb hR hb

theorem receive_adv (inp : List Nat) (o j n : Nat) (bb : BitBuffer)
    (hR : ReaderAt o j bb) (hb : 4 * o + j + 4 ≤ 17179869184) :
    ∃ j', j ≤ j' ∧ j' ≤ j + 4 ∧ ReaderAt o j' (receive inp bb n).2 := by
  obtain ⟨j', h1, h2, hR'⟩ := ensure_adv inp o j bb hR hb
  exact ⟨j', h1, h2, hR'⟩

theorem decode_adv (table : ComputeHuffmanTable) (inp : List Nat) (o j : Nat)
    (bb : BitBuffer) (r : Nat × BitBuffer) (hR : ReaderAt o j bb)
    (hb : 4 * o + j + 4 ≤ 17179869184) (h : decode table inp bb = some r) :
    ∃ j', j ≤ j' ∧ j' ≤ j + 4 ∧ ReaderAt o j' r.2 := by
  obtain ⟨j', h1, h2, hR'⟩ := ensure_adv inp o j bb hR hb
  unfold decode decodeIndex at h
  dsimp only at h
  cases hs : decodeSize table.maxcode
      (shl32 (ensure inp bb).data (subU 32 (ensure inp bb).remain)) 17 2 with
  | none => rw [hs] at h; simp at h
  | some size =>
    rw [hs] at h
    dsimp only at h
    split at h
    · simp at h
    · simp only [Option.some.injEq] at h
      rw [← h]
      exact ⟨j', h1, h2, hR'⟩

theorem decodeDC_adv (table : ComputeHuffmanTable) (inp : List Nat) (o j : Nat)
    (bb : BitBuffer) (r : Nat × BitBuffer) (hR : ReaderAt o j bb)
    (hb : 4 * o + j + 8 ≤ 17179869184) (h : decodeDC table inp bb = some r) :
    ∃ j', j ≤ j' ∧ j' ≤ j + 8 ∧ ReaderAt o j' r.2 := by
  unfold decodeDC at h
  cases hd : decode table inp bb with
  | none => rw [hd] at h; simp at h
  | some d =>
    rw [hd] at h
    dsimp only at h
    obtain ⟨j1, h1, h2, hR1⟩ := decode_adv table inp o j bb d hR (by omega) hd
    split_ifs at h with hz
    · simp only [Option.some.injEq] at h
      obtain ⟨j2, h3, h4, hR2⟩ := receive_adv inp o j1 d.1 d.2 hR1 (by omega)
      rw [← h]
      exact ⟨j2, by omega, by omega, hR2⟩
    · simp only [Option.some.injEq] at h
      rw [← h]
      exact ⟨j1, by omega, by omega, hR1⟩

theorem acLoop_adv (table : ComputeHuffmanTable) (inp : List Nat) (o : Nat) :
    ∀ (fuel i j : Nat) (temp : List Int) (bb : BitBuffer) (r : List Int × BitBuffer),
      ReaderAt o j bb → 4 * o + j + 8 * fuel ≤ 17179869184 →
      acLoop table inp fuel i temp bb = some r →
      ∃ j', j ≤ j' ∧ j' ≤ j + 8 * fuel ∧ ReaderAt o j' r.2 := by
  intro fuel
  induction fuel with
  | zero => intro i j temp bb r _ _ h; simp [acLoop] at h
  | succ fuel ih =>
    intro i j temp bb r hR hb h
    unfold acLoop at h
    by_cases hi : i < 64
    · rw [if_pos hi] at h
      cases hd : decode table inp bb with
      | none => rw [hd] at h; simp at h
      | some d =>
        rw [hd] at h
        simp only at h
        obtain ⟨j1, h1, h2, hR1⟩ := decode_adv table inp o j bb d hR (by omega) hd
        by_cases hx : d.1 &&& 15 ≠ 0
        · rw [if_pos hx] at h
          obtain ⟨j2, h3, h4, hR2⟩ := receive_adv inp o j1 (d.1 &&& 15) d.2 hR1 (by omega)
          cases hz : zigzagTable.get? (i + (d.1 >>> 4)) with
          | none => rw [hz] at h; simp at h
          | some z =>
            rw [hz] at h
            simp only at h
            obtain ⟨j3, h5, h6, hR3⟩ := ih _ j2 _ _ r hR2 (by omega) h
            exact ⟨j3, by omega, by omega, hR3⟩
        · rw [if_neg hx] at h
          by_cases hs : d.1 < 16
          · rw [if_pos hs] at h
            simp only [Option.some.injEq] at h
            rw [← h]
            exact ⟨j1, by omega, by omega, hR1⟩
          · rw [if_neg hs] at h
            obtain ⟨j3, h5, h6, hR3⟩ := ih _ j1 _ _ r hR1 (by omega) h
            exact ⟨j3, by omega, by omega, hR3⟩
    · rw [if_neg hi] at h
      simp only [Option.some.injEq] at h
      rw [← h]
      exact ⟨j, le_refl _, by omega, hR⟩

theorem decodeBlock_adv (inp : ShaderInput) (blk o j : Nat) (st : LaneState)
    (r : BlockTrace × LaneState) (hR : ReaderAt o j st.bitbuffer)
    (hb : 4 * o + j + 520 ≤ 17179869184) (h : decodeBlock inp blk st = some r) :
    ∃ j', j ≤ j' ∧ j' ≤ j + 520 ∧ ReaderAt o j' r.2.bitbuffer := by
  unfold decodeBlock at h
  cases hdb : decodeBlocks.get? blk with
  | none => rw [hdb] at h; simp at h
  | some db =>
    rw [hdb] at h
    simp only at h
    cases hdc : inp.huffman_tables.get? db.dc with
    | none => rw [hdc] at h; simp at h
    | some dcTable =>
      cases hac : inp.huffman_tables.get? db.ac with
      | none => rw [hdc, hac] at h; simp at h
      | some acTable =>
        rw [hdc, hac] at h
        simp only at h
        cases hd : decodeDC dcTable inp.input_data st.bitbuffer with
        | none => rw [hd] at h; simp at h
        | some d =>
          rw [hd] at h
          simp only at h
          obtain ⟨j1, h1, h2, hR1⟩ :=
            decodeDC_adv dcTable inp.input_data o j st.bitbuffer d hR (by omega) hd
          cases ha : acLoop acTable inp.input_data 64 1
              ((List.replicate 64 (0 : Int)).set 0
                (toInt32 (wrapU (d.1 + st.last_dc_value.getD db.pred 0)))) d.2 with
          | none => rw [ha] at h; simp at h
          | some a =>
            rw [ha] at h
            simp only [Option.some.injEq] at h
            obtain ⟨j2, h3, h4, hR2⟩ :=
              acLoop_adv acTable inp.input_data o 64 1 j1 _ d.2 a hR1 (by omega) ha
            rw [← h]
            exact ⟨j2, by omega, by omega, hR2⟩

theorem decodeMcu_adv (inp : ShaderInput) (laneY mcu_x o j : Nat) (st : LaneState)
    (r : McuTrace × LaneState) (hR : ReaderAt o j st.bitbuffer)
    (hb : 4 * o + j + 1560 ≤ 17179869184) (h : decodeMcu inp laneY mcu_x st = some r) :
    ∃ j', j ≤ j' ∧ j' ≤ j + 1560 ∧ ReaderAt o j' r.2.bitbuffer := by
  unfold decodeMcu at h
  cases h0 : decodeBlock inp 0 st with
  | none => rw [h0] at h; simp at h
  | some r0 =>
    rw [h0] at h
    simp only at h
    obtain ⟨j0, a0, b0, hR0⟩ := decodeBlock_adv inp 0 o j st r0 hR (by omega) h0
    cases h1 : decodeBlock inp 1 r0.2 with
    | none => rw [h1] at h; simp at h
    | some r1 =>
      rw [h1] at h
      simp only at h
      obtain ⟨j1, a1, b1, hR1⟩ := decodeBlock_adv inp 1 o j0 r0.2 r1 hR0 (by omega) h1
      cases h2 : decodeBlock inp 2 r1.2 with
      | none => rw [h2] at h; simp at h
      | some r2 =>
        rw [h2] at h
        simp only [Option.some.injEq] at h
        obtain ⟨j2, a2, b2, hR2⟩ := decodeBlock_adv inp 2 o j1 r1.2 r2 hR1 (by omega) h2
        rw [← h]
        exact ⟨j2, by omega, by omega, hR2⟩

theorem mcuLoopState_adv (inp : ShaderInput) (laneY o : Nat) :
    ∀ (n mcu_x j : Nat) (st st' : LaneState), ReaderAt o j st.bitbuffer →
      4 * o + j + 1560 * n ≤ 17179869184 →
      mcuLoopState inp laneY n mcu_x st = some st' →
      ∃ j', j ≤ j' ∧ j' ≤ j + 1560 * n ∧ ReaderAt o j' st'.bitbuffer := by
  intro n
  induction n with
  | zero =>
    intro mcu_x j st st' hR _ h
    simp only [mcuLoopState, Option.some.injEq] at h
    rw [← h]
    exact ⟨j, le_refl _, by omega, hR⟩
  | succ n ih =>
    intro mcu_x j st st' hR hb h
    unfold mcuLoopState at h
    cases hd : decodeMcu inp laneY mcu_x st with
    | none => rw [hd] at h; simp at h
    | some m =>
      rw [hd] at h
      simp only at h
      obtain ⟨j1, a1, b1, hR1⟩ := decodeMcu_adv inp laneY mcu_x o j st m hR (by omega) hd
      obtain ⟨j2, a2, b2, hR2⟩ := ih (mcu_x + 1) j1 m.2 st' hR1 (by omega) h
      exact ⟨j2, by omega, by omega, hR2⟩

theorem mcuLoopState_isSome (inp : ShaderInput) (laneY : Nat) :
    ∀ (n mcu_x : Nat) (st : LaneState),
      (mcuLoopState inp laneY n mcu_x st).isSome = (mcuLoop inp laneY n mcu_x st).isSome := by
  intro n
  induction n with
  | zero => intro mcu_x st; rfl
  | succ n ih =>
    intro mcu_x st
    unfold mcuLoopState mcuLoop
    cases hd : decodeMcu inp laneY mcu_x st with
    | none => rfl
    | some m =>
      simp only
      rw [ih (mcu_x + 1) m.2]
      cases mcuLoop inp laneY n (mcu_x + 1) m.2 <;> rfl

theorem laneFinal_isSome (inp : ShaderInput) (laneY : Nat) :
    (laneFinal inp laneY).isSome = (main inp laneY).isSome :=
  mcuLoopState_isSome inp laneY _ _ _

/-- C11 (counterexample).  The host uploads one interval of `n = 3` bytes
(`60 00 03`, a complete MCU) as the word `0x00030060` at offset 0.  After the DC part
of the first block the lane has 12 bits buffered and its reader stands at byte 3, so
the `ensure` of the next `decode` fetches the byte at position 3; at the end of the
lane the reader stands at byte 5: the bytes at positions 3 and 4, at and beyond the
end of the interval, have been fetched. -/
theorem lane_reads_past_interval :
    packedGrayScan.input_data = [0x00030060] ∧ packedGrayScan.input_offsets = [0] ∧
    ([[0x60, 0x00, 0x03]].map List.length : List Nat) = [3] ∧
    (decodeDC (computeHuffmanTable dcDemoTable) packedGrayScan.input_data (laneInit 0)).map
      (fun r => (r.2.remain, 4 * r.2.offset + r.2.used / 8)) = some (12, 3) ∧
    (laneFinal packedGrayScan 0).map
      (fun st => 4 * st.bitbuffer.offset + st.bitbuffer.used / 8) = some 5 ∧
    ¬ ((5 : Nat) ≤ 3) := by
  decide

/-- C11 (amended).  Every `getByte` fetches the byte at the reader's position in the
packed words and moves the reader one byte on; a lane starts reading at the first
byte of its interval, `4 * offsets[y]`, and when it has run the reader stands `j`
bytes further, `j <= 1560 * xmcu`: the bytes fetched are those at the `j` consecutive
positions from the interval's start, none before it, and their number is limited by
the MCU count only, not by the interval's length. -/
theorem lane_fetch_window (inp : ShaderInput) (laneY : Nat) (st : LaneState)
    (h : laneFinal inp laneY = some st)
    (hw : 4 * inp.input_offsets.getD laneY 0 + 1560 * inp.u_xmcu.toNat ≤ 17179869184) :
    (∀ (bb : BitBuffer) (j : Nat), ReaderAt (inp.input_offsets.getD laneY 0) j bb →
      4 * inp.input_offsets.getD laneY 0 + j < 17179869184 →
      (getByte inp.input_data bb).1 =
        packedByte inp.input_data (4 * inp.input_offsets.getD laneY 0 + j) ∧
      ReaderAt (inp.input_offsets.getD laneY 0) (j + 1) (getByte inp.input_data bb).2) ∧
    ReaderAt (inp.input_offsets.getD laneY 0) 0 (laneInit (inp.input_offsets.getD laneY 0)) ∧
    ∃ j, j ≤ 1560 * inp.u_xmcu.toNat ∧
      ReaderAt (inp.input_offsets.getD laneY 0) j st.bitbuffer := by
  have hR0 : ReaderAt (inp.input_offsets.getD laneY 0) 0
      (laneInit (inp.input_offsets.getD laneY 0)) := by
    unfold ReaderAt laneInit; simp
  refine ⟨fun bb j hR hpos => getByte_fetch inp.input_data _ j bb hR hpos, hR0, ?_⟩
  obtain ⟨j, _, h2, hR⟩ := mcuLoopState_adv inp laneY (inp.input_offsets.getD laneY 0)
    inp.u_xmcu.toNat 0 0 _ st hR0 (by omega) h
  exact ⟨j, by omega, hR⟩

/-- Witness of `lane_fetch_window` on the uploaded 3-byte interval: the reader ends
5 bytes after the interval's start. -/
theorem lane_fetch_window_witness :
    ∃ j, j ≤ 1560 * packedGrayScan.u_xmcu.toNat ∧
      ReaderAt (packedGrayScan.input_offsets.getD 0 0) j
        ((laneFinal packedGrayScan 0).getD ⟨laneInit 0, []⟩).bitbuffer :=
  (lane_fetch_window packedGrayScan 0 _ (eq_some_getD _ ⟨laneInit 0, []⟩ (by decide))
    (by decide)).2.2

/-! ## Canonical codes and the decoding tables -/

theorem symCount_add (size : List Nat) : ∀ (d1 s d2 : Nat),
    symCount size s (d1 + d2) = symCount size s d1 + symCount size (s + d1) d2 := by
  intro d1
  induction d1 with
  | zero => intro s d2; simp [symCount]
  | succ d1 ih =>
    intro s d2
    rw [show d1 + 1 + d2 = (d1 + d2) + 1 by omega]
    simp only [symCount]
    rw [ih (s + 1) d2, show s + 1 + d1 = s + (d1 + 1) by omega]
    omega

theorem symCount_succ (size : List Nat) (s d : Nat) :
    symCount size s (d + 1) = symCount size s d + size.getD (s + d) 0 := by
  rw [symCount_add size d s 1]
  simp [symCount]

theorem codeBase_add (size : List Nat) : ∀ (d1 s d2 : Nat),
    codeBase size s (d1 + d2) = codeBase size s d1 * 2 ^ d2 + codeBase size (s + d1) d2 := by
  intro d1
  induction d1 with
  | zero => intro s d2; simp [codeBase]
  | succ d1 ih =>
    intro s d2
    rw [show d1 + 1 + d2 = (d1 + d2) + 1 by omega]
    simp only [codeBase]
    rw [ih (s + 1) d2, show s + 1 + d1 = s + (d1 + 1) by omega,
      show d1 + d2 + 1 = (d1 + 1) + d2 by omega, pow_add]
    ring

theorem codeBase_eq_zero (size : List Nat) : ∀ (d s : Nat),
    symCount size s d = 0 → codeBase size s d = 0 := by
  intro d
  induction d with
  | zero => intro s _; rfl
  | succ d ih =>
    intro s h
    simp only [symCount] at h
    simp only [codeBase]
    rw [ih (s + 1) (by omega), show size.getD s 0 = 0 by omega]
    simp

theorem codeBase_le (size : List Nat) : ∀ (d s : Nat),
    codeBase size s d ≤ symCount size s d * 2 ^ d := by
  intro d
  induction d with
  | zero => intro s; simp [codeBase]
  | succ d ih =>
    intro s
    simp only [codeBase, symCount]
    have h := ih (s + 1)
    have h2 : symCount size (s + 1) d * 2 ^ d ≤ symCount size (s + 1) d * 2 ^ (d + 1) :=
      Nat.mul_le_mul_left _ (Nat.pow_le_pow_right (by decide) (by omega))
    rw [Nat.add_mul]
    omega

theorem lengthsFrom_succ (size : List Nat) (s n : Nat) :
    lengthsFrom size s (n + 1) =
      List.replicate (size.getD s 0) s ++ lengthsFrom size (s + 1) n := by
  unfold lengthsFrom
  rw [List.range'_succ, List.flatMap_cons]

theorem lengthsFrom_length (size : List Nat) : ∀ (n s : Nat),
    (lengthsFrom size s n).length = symCount size s n := by
  intro n
  induction n with
  | zero => intro s; rfl
  | succ n ih =>
    intro s
    rw [lengthsFrom_succ, List.length_append, List.length_replicate, ih]
    rfl

theorem canonFrom_length (size : List Nat) : ∀ (n code s : Nat),
    (canonFrom size code s n).length = symCount size s n := by
  intro n
  induction n with
  | zero => intro code s; rfl
  | succ n ih =>
    intro code s
    simp only [canonFrom, List.length_append, List.length_map, List.length_range, ih]
    rfl

theorem lengthsFrom_getD (size : List Nat) : ∀ (n s d t : Nat), d < n →
    t < size.getD (s + d) 0 →
    (lengthsFrom size s n).getD (symCount size s d + t) 0 = s + d := by
  intro n
  induction n with
  | zero => intro s d t hd; omega
  | succ n ih =>
    intro s d t hd ht
    rw [lengthsFrom_succ, List.getD_eq_getElem?_getD]
    cases d with
    | zero =>
      simp only [symCount, Nat.zero_add, Nat.add_zero] at ht ⊢
      rw [List.getElem?_append_left (by simpa using ht), List.getElem?_replicate, if_pos ht]
      rfl
    | succ d =>
      simp only [symCount]
      rw [List.getElem?_append_right (by simp; omega), List.length_replicate,
        show size.getD s 0 + symCount size (s + 1) d + t - size.getD s 0 =
          symCount size (s + 1) d + t by omega, ← List.getD_eq_getElem?_getD,
        ih (s + 1) d t (by omega) (by rw [show s + 1 + d = s + (d + 1) by omega]; exact ht)]
      omega

theorem canonFrom_getD (size : List Nat) : ∀ (n code s d t : Nat), d < n →
    t < size.getD (s + d) 0 →
    (canonFrom size code s n).getD (symCount size s d + t) 0 =
      code * 2 ^ d + codeBase size s d + t := by
  intro n
  induction n with
  | zero => intro code s d t hd; omega
  | succ n ih =>
    intro code s d t hd ht
    simp only [canonFrom]
    rw [List.getD_eq_getElem?_getD]
    cases d with
    | zero =>
      simp only [symCount, codeBase, Nat.zero_add, Nat.add_zero, pow_zero, Nat.mul_one] at ht ⊢
      rw [List.getElem?_append_left (by simpa using ht), List.getElem?_map,
        List.getElem?_range ht]
      rfl
    | succ d =>
      simp only [symCount, codeBase]
      rw [List.getElem?_append_right (by simp; omega), List.length_map, List.length_range,
        show size.getD s 0 + symCount size (s + 1) d + t - size.getD s 0 =
          symCount size (s + 1) d + t by omega, ← List.getD_eq_getElem?_getD,
        ih _ (s + 1) d t (by omega) (by rw [show s + 1 + d = s + (d + 1) by omega]; exact ht)]
      rw [pow_succ]
      ring

theorem symbol_position (size : List Nat) (s : Nat) : ∀ (n p : Nat), p < symCount size s n →
    ∃ d t, d < n ∧ t < size.getD (s + d) 0 ∧ p = symCount size s d + t := by
  intro n
  induction n with
  | zero => intro p hp; simp [symCount] at hp
  | succ n ih =>
    intro p hp
    rw [symCount_succ] at hp
    by_cases h : p < symCount size s n
    · obtain ⟨d, t, hd, ht, hpe⟩ := ih p h
      exact ⟨d, t, by omega, ht, hpe⟩
    · exact ⟨n, p - symCount size s n, by omega, by omega, by omega⟩

theorem symCount_mono (size : List Nat) (s d1 d2 : Nat) (h : d1 ≤ d2) :
    symCount size s d1 ≤ symCount size s d2 := by
  obtain ⟨e, rfl⟩ := Nat.exists_eq_add_of_le h
  rw [symCount_add]
  omega

theorem mem_lengthsFrom (size : List Nat) : ∀ (n s x : Nat),
    x ∈ lengthsFrom size s n → s ≤ x ∧ x < s + n := by
  intro n s x hx
  unfold lengthsFrom at hx
  rw [List.mem_flatMap] at hx
  obtain ⟨j, hj, hxj⟩ := hx
  rw [List.mem_range'_1] at hj
  have := (List.mem_replicate.mp hxj).2
  omega

theorem codeRun_replicate (si : Nat) (rest : List Nat) (hrest : rest.headD 0 ≠ si)
    (hne : rest ≠ []) :
    ∀ (r code : Nat), codeRun si (List.replicate r si ++ rest) code =
      ((List.range r).map (fun t => code + t), rest, code + r) := by
  intro r
  induction r with
  | zero =>
    intro code
    cases rest with
    | nil => exact absurd rfl hne
    | cons h t =>
      have hh : h ≠ si := hrest
      simp [codeRun, hh]
  | succ r ih =>
    intro code
    rw [List.replicate_succ, List.cons_append]
    simp only [codeRun, if_true]
    rw [ih (code + 1), List.range_succ_eq_map, List.map_cons, List.map_map]
    refine Prod.ext ?_ (Prod.ext rfl (by simp only; omega))
    simp only [Nat.add_zero, List.cons.injEq, true_and]
    apply List.map_congr_left
    intro t _
    simp only [Function.comp_apply]
    omega

theorem canonFrom_eq_nil (size : List Nat) (code s n : Nat) (h : symCount size s n = 0) :
    canonFrom size code s n = [] := by
  rw [← List.length_eq_zero, canonFrom_length, h]

theorem lengthsFrom_eq_nil (size : List Nat) (s n : Nat) (h : symCount size s n = 0) :
    lengthsFrom size s n = [] := by
  rw [← List.length_eq_zero, lengthsFrom_length, h]

theorem tail_head_ne (size : List Nat) (s n : Nat) (hs : 1 ≤ s) :
    (lengthsFrom size (s + 1) n ++ [0]).headD 0 ≠ s := by
  cases hl : lengthsFrom size (s + 1) n with
  | nil => simp; omega
  | cons h t =>
    have := mem_lengthsFrom size n (s + 1) h (by rw [hl]; exact List.mem_cons_self _ _)
    simp only [List.cons_append, List.headD_cons]
    omega

theorem genCodes_canon (size : List Nat) : ∀ (n fuel s code : Nat), 1 ≤ s → n < fuel →
    genCodes fuel (lengthsFrom size s n ++ [0]) code s = canonFrom size code s n := by
  intro n
  induction n with
  | zero =>
    intro fuel s code _ hf
    obtain ⟨f, rfl⟩ : ∃ f, fuel = f + 1 := ⟨fuel - 1, by omega⟩
    simp [genCodes, lengthsFrom, canonFrom]
  | succ n ih =>
    intro fuel s code hs hf
    obtain ⟨f, rfl⟩ : ∃ f, fuel = f + 1 := ⟨fuel - 1, by omega⟩
    unfold genCodes
    by_cases hh : (lengthsFrom size s (n + 1) ++ [0]).headD 0 ≠ 0
    · rw [if_pos hh]
      dsimp only
      rw [lengthsFrom_succ, List.append_assoc,
        codeRun_replicate s _ (tail_head_ne size s n hs) (by simp) (size.getD s 0) code]
      dsimp only
      rw [ih f (s + 1) _ (by omega) (by omega)]
      simp only [canonFrom, Nat.shiftLeft_eq, pow_one]
    · rw [if_neg hh]
      have hnil : lengthsFrom size s (n + 1) = [] := by
        cases hl : lengthsFrom size s (n + 1) with
        | nil => rfl
        | cons h t =>
          exfalso
          apply hh
          have := mem_lengthsFrom size (n + 1) s h (by rw [hl]; exact List.mem_cons_self _ _)
          rw [hl]
          simp only [List.cons_append, List.headD_cons]
          omega
      have hz : symCount size s (n + 1) = 0 := by
        rw [← lengthsFrom_length, hnil]; rfl
      exact (canonFrom_eq_nil size code s (n + 1) hz).symm

theorem genCodes_start (size : List Nat) : ∀ (n fuel s : Nat), 1 ≤ s → n < fuel →
    genCodes fuel (lengthsFrom size s n ++ [0]) 0 ((lengthsFrom size s n ++ [0]).headD 0) =
      canonFrom size 0 s n := by
  intro n
  induction n with
  | zero =>
    intro fuel s _ hf
    obtain ⟨f, rfl⟩ : ∃ f, fuel = f + 1 := ⟨fuel - 1, by omega⟩
    simp [genCodes, lengthsFrom, canonFrom]
  | succ n ih =>
    intro fuel s hs hf
    by_cases hz : size.getD s 0 = 0
    · have e1 : lengthsFrom size s (n + 1) = lengthsFrom size (s + 1) n := by
        rw [lengthsFrom_succ, hz]; rfl
      have e2 : canonFrom size 0 s (n + 1) = canonFrom size 0 (s + 1) n := by
        simp only [canonFrom]
        rw [hz]
        rfl
      rw [e1, e2]
      exact ih fuel (s + 1) (by omega) (by omega)
    · have hhead : (lengthsFrom size s (n + 1) ++ [0]).headD 0 = s := by
        rw [lengthsFrom_succ]
        obtain ⟨r, hr⟩ : ∃ r, size.getD s 0 = r + 1 := ⟨size.getD s 0 - 1, by omega⟩
        rw [hr, List.replicate_succ]
        rfl
      rw [hhead]
      exact genCodes_canon size (n + 1) fuel s 0 hs hf

theorem makeHuffsize_eq (size : List Nat) :
    makeHuffsize size = lengthsFrom size 1 16 ++ [0] := rfl

theorem makeHuffcode_eq (size : List Nat) :
    makeHuffcode (makeHuffsize size) = canonFrom size 0 1 16 := by
  unfold makeHuffcode
  rw [makeHuffsize_eq]
  exact genCodes_start size 16 17 1 (le_refl 1) (by decide)

theorem huffsize_getD (size : List Nat) (L t : Nat) (h1 : 1 ≤ L) (h16 : L ≤ 16)
    (ht : t < size.getD L 0) :
    (makeHuffsize size).getD (firstIndex size L + t) 0 = L := by
  have hlen := lengthsFrom_length size 16 1
  have hpos : firstIndex size L + t < symCount size 1 16 := by
    unfold firstIndex
    have h := symCount_succ size 1 (L - 1)
    have hm := symCount_mono size 1 (L - 1 + 1) 16 (by omega)
    rw [show 1 + (L - 1) = L by omega] at h
    omega
  rw [makeHuffsize_eq, List.getD_eq_getElem?_getD,
    List.getElem?_append_left (by rw [hlen]; exact hpos), ← List.getD_eq_getElem?_getD]
  unfold firstIndex
  rw [lengthsFrom_getD size 16 1 (L - 1) t (by omega)
    (by rw [show 1 + (L - 1) = L by omega]; exact ht)]
  omega

theorem huffcode_getD (size : List Nat) (L t : Nat) (h1 : 1 ≤ L) (h16 : L ≤ 16)
    (ht : t < size.getD L 0) :
    (makeHuffcode (makeHuffsize size)).getD (firstIndex size L + t) 0 =
      firstCode size L + t := by
  rw [makeHuffcode_eq]
  unfold firstIndex firstCode
  rw [canonFrom_getD size 16 0 1 (L - 1) t (by omega)
    (by rw [show 1 + (L - 1) = L by omega]; exact ht)]
  omega

theorem symbol_length (size : List Nat) (p : Nat) (hp : p < symCount size 1 16) :
    ∃ L t, 1 ≤ L ∧ L ≤ 16 ∧ t < size.getD L 0 ∧ p = firstIndex size L + t := by
  obtain ⟨d, t, hd, ht, hpe⟩ := symbol_position size 1 16 p hp
  refine ⟨1 + d, t, by omega, by omega, ht, ?_⟩
  unfold firstIndex
  rw [show 1 + d - 1 = d by omega]
  exact hpe

theorem firstIndex_step (size : List Nat) (L e : Nat) (h1 : 1 ≤ L) :
    firstIndex size (L + 1 + e) =
      firstIndex size L + size.getD L 0 + symCount size (L + 1) e := by
  unfold firstIndex
  rw [show L + 1 + e - 1 = (L - 1 + 1) + e by omega, symCount_add, symCount_succ,
    show 1 + (L - 1) = L by omega, show 1 + (L - 1 + 1) = L + 1 by omega]

theorem firstCode_step (size : List Nat) (L e : Nat) (h1 : 1 ≤ L)
    (hz : symCount size (L + 1) e = 0) :
    firstCode size (L + 1 + e) = (firstCode size L + size.getD L 0) * 2 ^ (e + 1) := by
  unfold firstCode
  rw [show L + 1 + e - 1 = (L - 1) + (1 + e) by omega, codeBase_add,
    show 1 + e = e + 1 by omega]
  simp only [codeBase]
  rw [show 1 + (L - 1) = L by omega, codeBase_eq_zero size e (L + 1) hz]
  ring

/-- C15.  For every code-length count array `size[1..16]` with at most 256 symbols,
`huffsize` and `huffcode` have one entry per symbol (`huffsize` is followed by the
terminating 0), every code is below `2^23` (so the `int` arithmetic of the host does
not overflow), `huffcode[0] = 0`, and for consecutive symbols `p`, `p + 1` the lengths
do not decrease, `huffcode[p+1] = huffcode[p] + 1` when the lengths are equal and
`huffcode[p+1] = (huffcode[p] + 1) * 2^d` when symbol `p + 1` is `d > 0` bits longer. -/
theorem canonical_code_assignment (size : List Nat) (hsym : symCount size 1 16 ≤ 256) :
    (makeHuffsize size).length = symCount size 1 16 + 1 ∧
    (makeHuffcode (makeHuffsize size)).length = symCount size 1 16 ∧
    (0 < symCount size 1 16 → (makeHuffcode (makeHuffsize size)).getD 0 0 = 0) ∧
    (∀ p, p < symCount size 1 16 → (makeHuffcode (makeHuffsize size)).getD p 0 < 8388608) ∧
    ∀ p, p + 1 < symCount size 1 16 →
      (makeHuffsize size).getD p 0 ≤ (makeHuffsize size).getD (p + 1) 0 ∧
      ((makeHuffsize size).getD (p + 1) 0 = (makeHuffsize size).getD p 0 →
        (makeHuffcode (makeHuffsize size)).getD (p + 1) 0 =
          (makeHuffcode (makeHuffsize size)).getD p 0 + 1) ∧
      ((makeHuffsize size).getD p 0 < (makeHuffsize size).getD (p + 1) 0 →
        (makeHuffcode (makeHuffsize size)).getD (p + 1) 0 =
          ((makeHuffcode (makeHuffsize size)).getD p 0 + 1) *
            2 ^ ((makeHuffsize size).getD (p + 1) 0 - (makeHuffsize size).getD p 0)) := by
  refine ⟨?_, ?_, ?_, ?_, ?_⟩
  · rw [makeHuffsize_eq, List.length_append, lengthsFrom_length]; rfl
  · rw [makeHuffcode_eq, canonFrom_length]
  · intro hpos
    obtain ⟨L, t, h1, h16, ht, hp⟩ := symbol_length size 0 hpos
    have hz : firstIndex size L = 0 := by omega
    have ht0 : t = 0 := by omega
    have hc := huffcode_getD size L t h1 h16 ht
    rw [hz, ht0] at hc
    rw [hc]
    unfold firstCode
    rw [codeBase_eq_zero size (L - 1) 1 hz]
  · intro p hp
    obtain ⟨L, t, h1, h16, ht, hpe⟩ := symbol_length size p hp
    rw [hpe, huffcode_getD size L t h1 h16 ht]
    have hb : firstCode size L ≤ firstIndex size L * 2 ^ (L - 1) := codeBase_le size (L - 1) 1
    have hpow : 2 ^ (L - 1) ≤ 32768 := by
      have : (32768 : Nat) = 2 ^ 15 := by norm_num
      rw [this]
      exact Nat.pow_le_pow_right (by decide) (by omega)
    have hb2 : firstIndex size L * 2 ^ (L - 1) ≤ firstIndex size L * 32768 :=
      Nat.mul_le_mul_left _ hpow
    omega
  · intro p hp
    obtain ⟨L, t, h1, h16, ht, hpe⟩ := symbol_length size p (by omega)
    obtain ⟨L', t', h1', h16', ht', hpe'⟩ := symbol_length size (p + 1) hp
    have hsL : (makeHuffsize size).getD p 0 = L := by
      rw [hpe]; exact huffsize_getD size L t h1 h16 ht
    have hsL' : (makeHuffsize size).getD (p + 1) 0 = L' := by
      rw [hpe']; exact huffsize_getD size L' t' h1' h16' ht'
    have hcL : (makeHuffcode (makeHuffsize size)).getD p 0 = firstCode size L + t := by
      rw [hpe]; exact huffcode_getD size L t h1 h16 ht
    have hcL' : (makeHuffcode (makeHuffsize size)).getD (p + 1) 0 = firstCode size L' + t' := by
      rw [hpe']; exact huffcode_getD size L' t' h1' h16' ht'
    rw [hsL, hsL', hcL, hcL']
    have hle : L ≤ L' := by
      by_contra hcon
      have hstep := firstIndex_step size L' (L - L' - 1) h1'
      rw [show L' + 1 + (L - L' - 1) = L by omega] at hstep
      omega
    refine ⟨hle, ?_, ?_⟩
    · intro heq
      subst heq
      have : t' = t + 1 := by omega
      rw [this]
      omega
    · intro hlt
      have hstep := firstIndex_step size L (L' - L - 1) h1
      rw [show L + 1 + (L' - L - 1) = L' by omega] at hstep
      have hS : symCount size (L + 1) (L' - L - 1) = 0 := by omega
      have hcode := firstCode_step size L (L' - L - 1) h1 hS
      rw [show L + 1 + (L' - L - 1) = L' by omega, show L' - L - 1 + 1 = L' - L by omega] at hcode
      have ht0 : t' = 0 := by omega
      have ht1 : t + 1 = size.getD L 0 := by omega
      rw [hcode, ht0, Nat.add_zero, ← ht1]
      ring_nf

/-- Witness of `canonical_code_assignment` on the counts `size[2] = 1, size[3] = 2,
size[5] = 1`: the codes are `00, 010, 011, 10000`. -/
theorem canonical_code_assignment_witness :
    makeHuffsize [0, 0, 1, 2, 0, 1] = [2, 3, 3, 5, 0] ∧
    makeHuffcode (makeHuffsize [0, 0, 1, 2, 0, 1]) = [0, 2, 3, 16] ∧
    ((makeHuffsize [0, 0, 1, 2, 0, 1]).getD 2 0 < (makeHuffsize [0, 0, 1, 2, 0, 1]).getD (2 + 1) 0 →
      (makeHuffcode (makeHuffsize [0, 0, 1, 2, 0, 1])).getD (2 + 1) 0 =
        ((makeHuffcode (makeHuffsize [0, 0, 1, 2, 0, 1])).getD 2 0 + 1) *
          2 ^ ((makeHuffsize [0, 0, 1, 2, 0, 1]).getD (2 + 1) 0 -
            (makeHuffsize [0, 0, 1, 2, 0, 1]).getD 2 0)) :=
  ⟨by decide, by decide,
   ((canonical_code_assignment [0, 0, 1, 2, 0, 1] (by decide)).2.2.2.2 2 (by decide)).2.2⟩

theorem maxcode_word (c L : Nat) (h1 : 1 ≤ L) (h16 : L ≤ 16) :
    shl32 (wrapU c) (32 - L) ||| wrapU ((1 <<< (32 - L)) - 1) =
      (c * 2 ^ (32 - L) + (2 ^ (32 - L) - 1)) % 4294967296 := by
  have hA : shl32 (wrapU c) (32 - L) = 2 ^ (32 - L) * (c % 2 ^ L) := by
    unfold shl32 wrapU
    rw [if_pos (by omega), Nat.shiftLeft_eq]
    interval_cases L <;> omega
  have hB : wrapU ((1 <<< (32 - L)) - 1) = 2 ^ (32 - L) - 1 := by
    interval_cases L <;> decide
  have hlt : 2 ^ (32 - L) - 1 < 2 ^ (32 - L) := by
    have : 0 < 2 ^ (32 - L) := by positivity
    omega
  rw [hA, hB, ← Nat.mul_add_lt_is_or hlt]
  interval_cases L <;> omega

theorem tableSize_getD (source : HuffmanTable) (j : Nat) (hj : j < 17) :
    (computeHuffmanTable source).size.getD j 0 = source.size.getD j 0 := by
  unfold computeHuffmanTable
  simp only
  rw [List.getD_eq_getElem?_getD, List.getElem?_map, List.getElem?_range hj]
  rfl

theorem getD_set_self_nat (l : List Nat) (i a : Nat) (h : i < l.length) :
    (l.set i a).getD i 0 = a := by
  rw [List.getD_eq_getElem?_getD, List.getElem?_set_self h]
  rfl

theorem getD_set_ne_nat (l : List Nat) (i j a : Nat) (h : i ≠ j) :
    (l.set i a).getD j 0 = l.getD j 0 := by
  rw [List.getD_eq_getElem?_getD, List.getD_eq_getElem?_getD, List.getElem?_set_ne h]

theorem foldl_f15Step (size hc : List Nat) : ∀ m, m ≤ 16 →
    ((List.range' 1 m).foldl (f15Step size hc) (0, List.replicate 18 0, List.replicate 19 0)).1 =
      symCount size 1 m ∧
    ((List.range' 1 m).foldl (f15Step size hc)
      (0, List.replicate 18 0, List.replicate 19 0)).2.1.length = 18 ∧
    ((List.range' 1 m).foldl (f15Step size hc)
      (0, List.replicate 18 0, List.replicate 19 0)).2.2.length = 19 ∧
    (∀ L, 1 ≤ L → L ≤ m →
      ((List.range' 1 m).foldl (f15Step size hc)
        (0, List.replicate 18 0, List.replicate 19 0)).2.1.getD L 0 =
        (if size.getD L 0 ≠ 0 then
          shl32 (wrapU (hc.getD (firstIndex size L + size.getD L 0 - 1) 0)) (32 - L) |||
            wrapU ((1 <<< (32 - L)) - 1)
         else 0) ∧
      (size.getD L 0 ≠ 0 →
        ((List.range' 1 m).foldl (f15Step size hc)
          (0, List.replicate 18 0, List.replicate 19 0)).2.2.getD L 0 =
          subU (firstIndex size L) (hc.getD (firstIndex size L) 0))) := by
  intro m
  induction m with
  | zero =>
    intro _
    refine ⟨rfl, rfl, rfl, ?_⟩
    intro L h1 h0
    omega
  | succ m ih =>
    intro hm
    obtain ⟨ip, il1, il2, iL⟩ := ih (by omega)
    rw [List.range'_1_concat, List.foldl_append, List.foldl_cons, List.foldl_nil]
    generalize (List.range' 1 m).foldl (f15Step size hc)
      (0, List.replicate 18 0, List.replicate 19 0) = st at ip il1 il2 iL
    have hfi : firstIndex size (1 + m) = st.1 := by
      unfold firstIndex
      rw [show 1 + m - 1 = m by omega, ip]
    unfold f15Step
    by_cases hz : size.getD (1 + m) 0 ≠ 0
    · rw [if_pos hz]
      dsimp only
      refine ⟨?_, ?_, ?_, ?_⟩
      · rw [symCount_succ, ip]
      · rw [List.length_set, il1]
      · rw [List.length_set, il2]
      · intro L h1 hL
        by_cases hLm : L = 1 + m
        · subst hLm
          rw [getD_set_self_nat _ _ _ (by rw [il1]; omega),
            getD_set_self_nat _ _ _ (by rw [il2]; omega), if_pos hz, hfi]
          exact ⟨rfl, fun _ => rfl⟩
        · rw [getD_set_ne_nat _ _ _ _ (Ne.symm hLm), getD_set_ne_nat _ _ _ _ (Ne.symm hLm)]
          exact iL L h1 (by omega)
    · rw [if_neg hz]
      dsimp only
      have hz0 : size.getD (1 + m) 0 = 0 := by
        by_contra hne; exact hz hne
      refine ⟨?_, ?_, il2, ?_⟩
      · rw [symCount_succ, ip, hz0]; rfl
      · rw [List.length_set, il1]
      · intro L h1 hL
        by_cases hLm : L = 1 + m
        · subst hLm
          rw [getD_set_self_nat _ _ _ (by rw [il1]; omega), if_neg hz]
          exact ⟨rfl, fun h => absurd h hz⟩
        · rw [getD_set_ne_nat _ _ _ _ (Ne.symm hLm)]
          exact iL L h1 (by omega)

theorem firstIndex_next_le (size : List Nat) (L : Nat) (h1 : 1 ≤ L) (h16 : L ≤ 16) :
    firstIndex size L + size.getD L 0 ≤ symCount size 1 16 := by
  unfold firstIndex
  have h := symCount_succ size 1 (L - 1)
  have hm := symCount_mono size 1 (L - 1 + 1) 16 (by omega)
  rw [show 1 + (L - 1) = L by omega] at h
  omega

theorem huffsize_of_symbol (size : List Nat) (q L : Nat) (hq : q < symCount size 1 16)
    (hL : (makeHuffsize size).getD q 0 = L) :
    1 ≤ L ∧ L ≤ 16 ∧ firstIndex size L ≤ q ∧ q < firstIndex size L + size.getD L 0 := by
  obtain ⟨L', t, h1, h16, ht, hpe⟩ := symbol_length size q hq
  have := huffsize_getD size L' t h1 h16 ht
  rw [← hpe, hL] at this
  subst this
  exact ⟨h1, h16, by omega, by omega⟩

theorem huffsize_end (size : List Nat) :
    (makeHuffsize size).getD (symCount size 1 16) 0 = 0 := by
  rw [makeHuffsize_eq, List.getD_eq_getElem?_getD,
    List.getElem?_append_right (by rw [lengthsFrom_length]), lengthsFrom_length]
  simp

/-- C16.  For every source table and every length `L` in `1..16`: when `size[L] > 0`, the symbol at index `firstIndex L + size[L] - 1` is the last one of
length `L` and `maxcode[L]` is its code times `2^(32-L)` plus `2^(32-L) - 1`, as an
unsigned 32-bit word; when `size[L] = 0`, `maxcode[L] = 0`; and
`maxcode[17] = 0xFFFFFFFF`. -/
theorem maxcode_table (source : HuffmanTable) :
    (∀ L, 1 ≤ L → L ≤ 16 → (computeHuffmanTable source).size.getD L 0 ≠ 0 →
      (hostHuffsize source).getD (firstIndex (computeHuffmanTable source).size L +
        (computeHuffmanTable source).size.getD L 0 - 1) 0 = L ∧
      (hostHuffsize source).getD (firstIndex (computeHuffmanTable source).size L +
        (computeHuffmanTable source).size.getD L 0) 0 ≠ L ∧
      (computeHuffmanTable source).maxcode.getD L 0 =
        ((hostHuffcode source).getD (firstIndex (computeHuffmanTable source).size L +
            (computeHuffmanTable source).size.getD L 0 - 1) 0 * 2 ^ (32 - L) +
          (2 ^ (32 - L) - 1)) % 4294967296) ∧
    (∀ L, 1 ≤ L → L ≤ 16 → (computeHuffmanTable source).size.getD L 0 = 0 →
      (computeHuffmanTable source).maxcode.getD L 0 = 0) ∧
    (computeHuffmanTable source).maxcode.getD 17 0 = 0xFFFFFFFF ∧
    ∀ j, j < 17 → (computeHuffmanTable source).size.getD j 0 = source.size.getD j 0 := by
  obtain ⟨_, hl1, _, hL⟩ := foldl_f15Step (computeHuffmanTable source).size
    (hostHuffcode source) 16 (le_refl 16)
  have hmax : (computeHuffmanTable source).maxcode =
      ((List.range' 1 16).foldl (f15Step (computeHuffmanTable source).size (hostHuffcode source))
        (0, List.replicate 18 0, List.replicate 19 0)).2.1.set 17 0xffffffff := rfl
  refine ⟨?_, ?_, ?_, fun j hj => tableSize_getD source j hj⟩
  · intro L h1 h16 hz
    refine ⟨?_, ?_, ?_⟩
    · have := huffsize_getD (computeHuffmanTable source).size L
        ((computeHuffmanTable source).size.getD L 0 - 1) h1 h16 (by omega)
      unfold hostHuffsize
      rw [show firstIndex (computeHuffmanTable source).size L +
        (computeHuffmanTable source).size.getD L 0 - 1 =
          firstIndex (computeHuffmanTable source).size L +
            ((computeHuffmanTable source).size.getD L 0 - 1) by omega]
      exact this
    · intro hcon
      have hle := firstIndex_next_le (computeHuffmanTable source).size L h1 h16
      by_cases hq : firstIndex (computeHuffmanTable source).size L +
          (computeHuffmanTable source).size.getD L 0 <
            symCount (computeHuffmanTable source).size 1 16
      · have := huffsize_of_symbol _ _ L hq hcon
        omega
      · have he : firstIndex (computeHuffmanTable source).size L +
            (computeHuffmanTable source).size.getD L 0 =
              symCount (computeHuffmanTable source).size 1 16 := by omega
        unfold hostHuffsize at hcon
        rw [he, huffsize_end] at hcon
        omega
    · rw [hmax, getD_set_ne_nat _ _ _ _ (by omega), (hL L h1 h16).1, if_pos hz,
        maxcode_word _ L h1 h16]
  · intro L h1 h16 hz
    rw [hmax, getD_set_ne_nat _ _ _ _ (by omega), (hL L h1 h16).1, if_neg (by omega)]
  · rw [hmax, getD_set_self_nat _ _ _ (by rw [hl1]; decide)]

/-- Witness of `maxcode_table` on the table with the 2-bit codes `00` and `01`:
`maxcode[2] = 0x7FFFFFFF`. -/
theorem maxcode_table_witness :
    (computeHuffmanTable dcDemoTable).maxcode.getD 2 0 =
      ((hostHuffcode dcDemoTable).getD (firstIndex (computeHuffmanTable dcDemoTable).size 2 +
          (computeHuffmanTable dcDemoTable).size.getD 2 0 - 1) 0 * 2 ^ (32 - 2) +
        (2 ^ (32 - 2) - 1)) % 4294967296 ∧
    (computeHuffmanTable dcDemoTable).maxcode.getD 2 0 = 0x7FFFFFFF :=
  ⟨((maxcode_table dcDemoTable).1 2 (by decide) (by decide) (by decide)).2.2,
   by decide⟩

/-- C17.  For a source table with at most 256 symbols and every length `L` in `1..16`
with `size[L] > 0`: `valueOffset[L]` is the index in `value[]` of the first symbol of
length `L` minus the first code of length `L`, modulo `2^32`, and for every symbol
index `k` of length `L`, `(huffcode[k] + valueOffset[L]) mod 2^32 = k`. -/
theorem valueOffset_table (source : HuffmanTable)
    (hsym : symCount (computeHuffmanTable source).size 1 16 ≤ 256)
    (L : Nat) (h1 : 1 ≤ L) (h16 : L ≤ 16)
    (hz : (computeHuffmanTable source).size.getD L 0 ≠ 0) :
    (hostHuffsize source).getD (firstIndex (computeHuffmanTable source).size L) 0 = L ∧
    (∀ q, q < firstIndex (computeHuffmanTable source).size L →
      (hostHuffsize source).getD q 0 ≠ L) ∧
    (computeHuffmanTable source).valueOffset.getD L 0 =
      subU (firstIndex (computeHuffmanTable source).size L)
        ((hostHuffcode source).getD (firstIndex (computeHuffmanTable source).size L) 0) ∧
    ∀ k, k < symCount (computeHuffmanTable source).size 1 16 →
      (hostHuffsize source).getD k 0 = L →
      ((hostHuffcode source).getD k 0 + (computeHuffmanTable source).valueOffset.getD L 0) %
        4294967296 = k := by
  obtain ⟨_, _, hl2, hL⟩ := foldl_f15Step (computeHuffmanTable source).size
    (hostHuffcode source) 16 (le_refl 16)
  have hvo : (computeHuffmanTable source).valueOffset =
      ((List.range' 1 16).foldl (f15Step (computeHuffmanTable source).size (hostHuffcode source))
        (0, List.replicate 18 0, List.replicate 19 0)).2.2.set 18 0 := rfl
  have hval : (computeHuffmanTable source).valueOffset.getD L 0 =
      subU (firstIndex (computeHuffmanTable source).size L)
        ((hostHuffcode source).getD (firstIndex (computeHuffmanTable source).size L) 0) := by
    rw [hvo, getD_set_ne_nat _ _ _ _ (by omega), (hL L h1 h16).2 hz]
  have hle := firstIndex_next_le (computeHuffmanTable source).size L h1 h16
  refine ⟨?_, ?_, hval, ?_⟩
  · have := huffsize_getD (computeHuffmanTable source).size L 0 h1 h16 (by omega)
    rw [Nat.add_zero] at this
    exact this
  · intro q hq hcon
    have := huffsize_of_symbol (computeHuffmanTable source).size q L (by omega) hcon
    omega
  · intro k hk hkL
    obtain ⟨_, _, hlo, hhi⟩ := huffsize_of_symbol (computeHuffmanTable source).size k L hk hkL
    have hck := huffcode_getD (computeHuffmanTable source).size L
      (k - firstIndex (computeHuffmanTable source).size L) h1 h16 (by omega)
    have hc0 := huffcode_getD (computeHuffmanTable source).size L 0 h1 h16 (by omega)
    rw [show firstIndex (computeHuffmanTable source).size L +
      (k - firstIndex (computeHuffmanTable source).size L) = k by omega] at hck
    rw [Nat.add_zero, Nat.add_zero] at hc0
    rw [hval]
    unfold hostHuffcode hostHuffsize
    rw [hck, hc0]
    unfold subU
    omega

/-- Witness of `valueOffset_table` on the table with the codes `00, 010, 011,
10000`: the symbol with index 2 has a 3-bit code, and adding `valueOffset[3]` to its
code gives 2. -/
theorem valueOffset_table_witness :
    ((hostHuffcode { size := [0, 0, 1, 2, 0, 1], value := [7, 8, 9, 10] }).getD 2 0 +
      (computeHuffmanTable { size := [0, 0, 1, 2, 0, 1], value := [7, 8, 9, 10] }).valueOffset.getD
        3 0) % 4294967296 = 2 :=
  (valueOffset_table { size := [0, 0, 1, 2, 0, 1], value := [7, 8, 9, 10] } (by decide) 3
    (by decide) (by decide) (by decide)).2.2.2 2 (by decide) (by decide)


/-! ## Colour conversion -/

theorem idct_getD_range (data qt : List Int) (k : Nat) :
    -16384 ≤ (idct data qt).getD k 0 ∧ (idct data qt).getD k 0 ≤ 16383 := by
  rw [List.getD_eq_getElem?_getD]
  cases h : (idct data qt)[k]? with
  | none => simp
  | some v =>
    have hm : v ∈ idct data qt := by
      obtain ⟨hk, hv⟩ := List.getElem?_eq_some.1 h
      rw [← hv]
      exact List.getElem_mem hk
    simpa using idct_mem_range data qt v hm

theorem resolveColor_eq_specColor (Y Cb Cr : List Int) (k : Nat)
    (hb : -16384 ≤ Cb.getD k 0 ∧ Cb.getD k 0 ≤ 16383)
    (hr : -16384 ≤ Cr.getD k 0 ∧ Cr.getD k 0 ≤ 16383) :
    resolveColor [Y, Cb, Cr] k = specColor (Y.getD k 0) (Cb.getD k 0) (Cr.getD k 0) := by
  have h1 : wrapI (Cb.getD k 0 - 128) = Cb.getD k 0 - 128 :=
    wrapI_of_range _ (by omega) (by omega)
  have h2 : wrapI (Cr.getD k 0 - 128) = Cr.getD k 0 - 128 :=
    wrapI_of_range _ (by omega) (by omega)
  unfold resolveColor chroma_to_rgb specColor
  simp only [List.getD_cons_zero, List.getD_cons_succ, h1, h2]
  push_cast
  congr 1 <;> ring

theorem resolveStores_map_color (laneY mcu_x : Nat) (result : List (List Int)) :
    (resolveStores laneY mcu_x result).map (fun s => s.color) =
      (List.range 64).map (resolveColor result) := by
  unfold resolveStores
  rw [range8]
  rfl

/-- C21.  Colour conversion in exact rational arithmetic.  For the samples
`Y = idct d0 q0`, `Cb = idct d1 q1`, `Cr = idct d2 q2` of an MCU, the 64 colours stored
by the resolve loops are, in the order `k = y * 8 + x`, the colours
`(y + 1.400 cr, y - 0.343 cb - 0.711 cr, y + 1.765 cb, 1)` with `y = Y[k]/255`,
`cb = (Cb[k] - 128)/255`, `cr = (Cr[k] - 128)/255`; the alpha of every store is 1; and
where `Cb[k] = Cr[k] = 128` the colour is `(Y[k]/255, Y[k]/255, Y[k]/255, 1)`. -/
theorem color_conversion (laneY mcu_x : Nat) (d0 d1 d2 q0 q1 q2 : List Int) :
    (resolveStores laneY mcu_x [idct d0 q0, idct d1 q1, idct d2 q2]).map (fun s => s.color) =
        (List.range 64).map (fun k =>
          specColor ((idct d0 q0).getD k 0) ((idct d1 q1).getD k 0) ((idct d2 q2).getD k 0)) ∧
    (resolveStores laneY mcu_x [idct d0 q0, idct d1 q1, idct d2 q2]).map (fun s => s.color.a) =
        List.replicate 64 1 ∧
    ∀ k, (idct d1 q1).getD k 0 = 128 → (idct d2 q2).getD k 0 = 128 →
      resolveColor [idct d0 q0, idct d1 q1, idct d2 q2] k =
        { r := ((idct d0 q0).getD k 0 : ℚ) / 255, g := ((idct d0 q0).getD k 0 : ℚ) / 255,
          b := ((idct d0 q0).getD k 0 : ℚ) / 255, a := 1 } := by
  have hmap := resolveStores_map_color laneY mcu_x [idct d0 q0, idct d1 q1, idct d2 q2]
  have hc : ∀ k, resolveColor [idct d0 q0, idct d1 q1, idct d2 q2] k =
      specColor ((idct d0 q0).getD k 0) ((idct d1 q1).getD k 0) ((idct d2 q2).getD k 0) :=
    fun k => resolveColor_eq_specColor _ _ _ k (idct_getD_range d1 q1 k) (idct_getD_range d2 q2 k)
  refine ⟨?_, ?_, ?_⟩
  · rw [hmap]
    exact List.map_congr_left (fun k _ => hc k)
  · have : (resolveStores laneY mcu_x [idct d0 q0, idct d1 q1, idct d2 q2]).map
        (fun s => s.color.a) =
        ((resolveStores laneY mcu_x [idct d0 q0, idct d1 q1, idct d2 q2]).map
          (fun s => s.color)).map (fun c => c.a) := by
      rw [List.map_map]; rfl
    rw [this, hmap, List.map_map]
    have h1 : ∀ k ∈ List.range 64,
        ((fun c : Vec4 => c.a) ∘ resolveColor [idct d0 q0, idct d1 q1, idct d2 q2]) k =
          (fun _ => (1 : ℚ)) k := by
      intro k _
      show (resolveColor [idct d0 q0, idct d1 q1, idct d2 q2] k).a = 1
      rw [hc k]; rfl
    rw [List.map_congr_left h1]
    simp
  · intro k hb hr
    rw [hc k, hb, hr]
    unfold specColor
    norm_num

/-- Witness of `color_conversion`: with DC-only chroma blocks of DC value 0 (samples
128) and a luma block of DC value 512 (samples 192), pixel 0 is stored as
`(192/255, 192/255, 192/255, 1)`. -/
theorem color_conversion_witness :
    resolveColor [idct (dcBlock 512) (List.replicate 64 1), idct (dcBlock 0) (List.replicate 64 1),
        idct (dcBlock 0) (List.replicate 64 1)] 0 =
      { r := ((idct (dcBlock 512) (List.replicate 64 1)).getD 0 0 : ℚ) / 255,
        g := ((idct (dcBlock 512) (List.replicate 64 1)).getD 0 0 : ℚ) / 255,
        b := ((idct (dcBlock 512) (List.replicate 64 1)).getD 0 0 : ℚ) / 255, a := 1 } :=
  (color_conversion 0 0 (dcBlock 512) (dcBlock 0) (dcBlock 0) (List.replicate 64 1)
    (List.replicate 64 1) (List.replicate 64 1)).2.2 0 (by decide) (by decide)

/-! ## End of block, zero runs and the positions of the AC loop -/

theorem acStates_invariant (table : ComputeHuffmanTable) (inp : List Nat) :
    ∀ (fuel i0 : Nat) (temp0 : List Int) (bb0 : BitBuffer) (n i : Nat) (temp : List Int)
      (bb : BitBuffer),
      65 ≤ fuel + i0 →
      (∀ j, i0 ≤ j → j < 64 → temp0.getD (zigzagTable.getD j 64) 0 = 0) →
      (acStates table inp fuel i0 temp0 bb0).get? n = some (i, temp, bb) →
      i0 ≤ i ∧
      (∀ j, i ≤ j → j < 64 → temp.getD (zigzagTable.getD j 64) 0 = 0) ∧
      (i < 64 → ∀ bb', decode table inp bb = some (0x00, bb') →
        acLoop table inp fuel i0 temp0 bb0 = some (temp, bb') ∧
        (acStates table inp fuel i0 temp0 bb0).get? (n + 1) = none) ∧
      (i < 64 → ∀ bb', decode table inp bb = some (0xF0, bb') →
        (acStates table inp fuel i0 temp0 bb0).get? (n + 1) = some (i + 16, temp, bb')) ∧
      (i < 64 → ∀ r, decode table inp bb = some r → r.1 &&& 15 ≠ 0 →
        64 ≤ i + (r.1 >>> 4) → acLoop table inp fuel i0 temp0 bb0 = none) := by
  intro fuel
  induction fuel with
  | zero => intro i0 temp0 bb0 n i temp bb _ _ h; simp [acStates] at h
  | succ fuel ih =>
    intro i0 temp0 bb0 n i temp bb hfuel hinv h
    cases n with
    | zero =>
      unfold acStates at h
      rw [List.get?_cons_zero] at h
      simp only [Option.some.injEq, Prod.mk.injEq] at h
      obtain ⟨rfl, rfl, rfl⟩ := h
      refine ⟨le_refl _, hinv, ?_, ?_, ?_⟩
      · intro hi bb' hd
        unfold acLoop acStates
        rw [if_pos hi, if_pos hi, hd, List.get?_cons_succ]
        simp
      · intro hi bb' hd
        unfold acStates
        rw [if_pos hi, hd, List.get?_cons_succ]
        simp only
        rw [if_neg (by decide), if_neg (by decide)]
        obtain ⟨f, rfl⟩ : ∃ f, fuel = f + 1 := ⟨fuel - 1, by omega⟩
        unfold acStates
        rw [List.get?_cons_zero]
      · intro hi r hd hx h64
        unfold acLoop
        rw [if_pos hi, hd]
        simp only
        rw [if_pos hx, zigzag_get?_none _ h64]
    | succ n =>
      unfold acStates at h
      rw [List.get?_cons_succ] at h
      have hstep : (acStates table inp (fuel + 1) i0 temp0 bb0).get? (n + 1 + 1) =
          (if i0 < 64 then
            match decode table inp bb0 with
            | none => []
            | some r =>
              if r.1 &&& 15 ≠ 0 then
                match zigzagTable.get? (i0 + (r.1 >>> 4)) with
                | none => []
                | some z =>
                  acStates table inp fuel (i0 + (r.1 >>> 4) + 1)
                    (temp0.set z (toInt32 (receive inp r.2 (r.1 &&& 15)).1))
                    (receive inp r.2 (r.1 &&& 15)).2
              else if r.1 < 16 then []
              else acStates table inp fuel (i0 + 16) temp0 r.2
          else []).get? (n + 1) := by
        conv => lhs; unfold acStates
        rw [List.get?_cons_succ]
      rw [hstep]
      unfold acLoop
      by_cases hi0 : i0 < 64
      · rw [if_pos hi0] at h ⊢
        rw [if_pos hi0]
        cases hd0 : decode table inp bb0 with
        | none => rw [hd0] at h; simp at h
        | some r =>
          rw [hd0] at h
          simp only at h ⊢
          by_cases hx : r.1 &&& 15 ≠ 0
          · rw [if_pos hx] at h ⊢
            rw [if_pos hx]
            by_cases h63 : i0 + (r.1 >>> 4) < 64
            · rw [zigzag_get? (i0 + (r.1 >>> 4)) h63] at h ⊢
              simp only at h ⊢
              have hinv2 : ∀ j, i0 + (r.1 >>> 4) + 1 ≤ j → j < 64 →
                  (temp0.set (zigzagTable.getD (i0 + (r.1 >>> 4)) 64)
                    (toInt32 (receive inp r.2 (r.1 &&& 15)).1)).getD
                      (zigzagTable.getD j 64) 0 = 0 := by
                intro j hj1 hj2
                rw [getD_set_ne _ _ _ _ (fun hc => by
                  have := zigzag_inj _ _ h63 hj2 hc
                  omega)]
                exact hinv j (by omega) hj2
              obtain ⟨g1, g2, g3, g4, g5⟩ := ih _ _ _ n i temp bb (by omega) hinv2 h
              exact ⟨by omega, g2, g3, g4, g5⟩
            · rw [zigzag_get?_none (i0 + (r.1 >>> 4)) (by omega)] at h
              simp at h
          · rw [if_neg hx] at h ⊢
            rw [if_neg hx]
            by_cases hs : r.1 < 16
            · rw [if_pos hs] at h; simp at h
            · rw [if_neg hs] at h ⊢
              rw [if_neg hs]
              obtain ⟨g1, g2, g3, g4, g5⟩ := ih _ _ _ n i temp bb (by omega)
                (fun j hj1 hj2 => hinv j (by omega) hj2) h
              exact ⟨by omega, g2, g3, g4, g5⟩
      · rw [if_neg hi0] at h; simp at h

theorem dcBlock_ac_zero (dc : Int) :
    ∀ j, 1 ≤ j → j < 64 → (dcBlock dc).getD (zigzagTable.getD j 64) 0 = 0 := by
  intro j h1 h64
  unfold dcBlock
  rw [getD_set_ne _ _ _ _ (fun hc => zigzag_ne_zero j h64 h1 hc.symm),
    List.getD_eq_getElem?_getD, List.getElem?_replicate, if_pos (zigzag_lt j h64)]
  rfl

theorem decode_mem_value (table : ComputeHuffmanTable) (inp : List Nat) (bb : BitBuffer)
    (r : Nat × BitBuffer) (h : decode table inp bb = some r) : r.1 ∈ table.value := by
  unfold decode at h
  cases hd : decodeIndex table inp bb with
  | none => rw [hd] at h; simp at h
  | some q =>
    rw [hd] at h
    simp only at h
    cases hv : table.value.get? q.2.1 with
    | none => rw [hv] at h; simp at h
    | some symbol =>
      rw [hv] at h
      simp only [Option.some.injEq] at h
      rw [← h]
      exact List.get?_mem hv

/-- C22.  End of block and ZRL.  Let `(i, temp, bb)` be a state of the AC loop of a
block (started at position 1 on the block with only the DC coefficient set) with
`i < 64`.  If `decode` returns the symbol `0x00` there, the loop ends at once: its
result is `temp` with the bit buffer exactly as `decode` left it, there is no further
loop state, and every coefficient at the zigzag positions `>= i` is 0.  If `decode`
returns `0xF0`, the next loop state is `(i + 16, temp, bb')`: the position advances by
exactly 16, no coefficient is stored, and the bit buffer is the one `decode` left (no
magnitude bits are read). -/
theorem eob_and_zrl (table : ComputeHuffmanTable) (input_data : List Nat) (dc : Int)
    (bb0 : BitBuffer) (n i : Nat) (temp : List Int) (bb bb' : BitBuffer)
    (hstate : (acStates table input_data 64 1 (dcBlock dc) bb0).get? n = some (i, temp, bb))
    (hi : i < 64) :
    (decode table input_data bb = some (0x00, bb') →
      acLoop table input_data 64 1 (dcBlock dc) bb0 = some (temp, bb') ∧
      (acStates table input_data 64 1 (dcBlock dc) bb0).get? (n + 1) = none ∧
      ∀ j, i ≤ j → j < 64 → temp.getD (zigzagTable.getD j 64) 0 = 0) ∧
    (decode table input_data bb = some (0xF0, bb') →
      (acStates table input_data 64 1 (dcBlock dc) bb0).get? (n + 1) =
        some (i + 16, temp, bb')) := by
  obtain ⟨_, g2, g3, g4, _⟩ := acStates_invariant table input_data 64 1 (dcBlock dc) bb0 n i
    temp bb (by omega) (dcBlock_ac_zero dc) hstate
  exact ⟨fun hd => ⟨(g3 hi bb' hd).1, (g3 hi bb' hd).2, g2⟩, fun hd => g4 hi bb' hd⟩

/-- Witness of `eob_and_zrl`: on the bits `10 00` the first loop state, at position
1, decodes `0xF0` and is followed by the state at position 17 with the same block;
that state decodes `0x00`, and the loop returns the block unchanged. -/
theorem eob_and_zrl_witness :
    (acStates (computeHuffmanTable acDemoTable) [0x80, 0] 64 1 (dcBlock 5) (laneInit 0)).get? 1 =
      some (1 + 16, dcBlock 5, { offset := 0, used := 16, data := 0x8000, remain := 14 }) ∧
    acLoop (computeHuffmanTable acDemoTable) [0x80, 0] 64 1 (dcBlock 5) (laneInit 0) =
      some (dcBlock 5, { offset := 0, used := 24, data := 0x800000, remain := 20 }) :=
  ⟨(eob_and_zrl (computeHuffmanTable acDemoTable) [0x80, 0] 5 (laneInit 0) 0 1 (dcBlock 5)
      (laneInit 0) { offset := 0, used := 16, data := 0x8000, remain := 14 }
      (by decide) (by decide)).2 (by decide),
   ((eob_and_zrl (computeHuffmanTable acDemoTable) [0x80, 0] 5 (laneInit 0) 1 17 (dcBlock 5)
      { offset := 0, used := 16, data := 0x8000, remain := 14 }
      { offset := 0, used := 24, data := 0x800000, remain := 20 }
      (by decide) (by decide)).1 (by decide)).1⟩

/-- C24 (counterexample).  On the bits `10 10 10` (three skips of 16) followed by
eight times `01 11` (run 1, size 2), the loop state number 10 is at position 63 and
decodes a symbol with run 1: the zigzag map is indexed at position 64. -/
theorem ac_index_past_63 :
    ¬ (∀ (table : ComputeHuffmanTable) (input_data : List Nat) (dc : Int) (bb0 : BitBuffer)
        (n : Nat) (st : Nat × List Int × BitBuffer) (r : Nat × BitBuffer),
        (acStates table input_data 64 1 (dcBlock dc) bb0).get? n = some st → st.1 < 64 →
        decode table input_data st.2.2 = some r → r.1 &&& 15 ≠ 0 →
        1 ≤ st.1 + (r.1 >>> 4) ∧ st.1 + (r.1 >>> 4) ≤ 63) := by
  intro h
  have h1 := h (computeHuffmanTable acDemoTable) overrunScan 0 (laneInit 0) 10 overrunState
    overrunSymbol (eq_some_getD _ (0, [], laneInit 0) (by decide)) (by decide)
    (eq_some_getD _ (0, laneInit 0) (by decide)) (by decide)
  revert h1
  decide

theorem computeHuffmanTable_bytes (source : HuffmanTable)
    (h : ∀ v ∈ source.value, v < 256) : ∀ v ∈ (computeHuffmanTable source).value, v < 256 := by
  intro v hv
  have hval : (computeHuffmanTable source).value =
      (List.range 256).map (fun j => source.value.getD j 0) := rfl
  rw [hval, List.mem_map] at hv
  obtain ⟨j, _, rfl⟩ := hv
  rw [List.getD_eq_getElem?_getD]
  cases hj : source.value[j]? with
  | none => simp
  | some w =>
    obtain ⟨hk, hw⟩ := List.getElem?_eq_some.1 hj
    have := h w (by rw [← hw]; exact List.getElem_mem hk)
    simpa using this

theorem acDemoTable_bytes : ∀ v ∈ acDemoTable.value, v < 256 := by
  intro v hv
  have hval : acDemoTable.value = [0x00, 0x12, 0xF0] ++ List.replicate 253 0 := rfl
  rw [hval, List.mem_append] at hv
  rcases hv with hv | hv
  · simp only [List.mem_cons, List.mem_singleton, List.not_mem_nil, or_false] at hv
    omega
  · rw [List.eq_of_mem_replicate hv]
    decide

/-- C24 (amended).  For a table whose symbols are bytes and every state `(i, temp,
bb)` of the AC loop of a block with `i < 64` in which `decode` returns a symbol with
a size other than 0, the position `i + run` at which the zigzag map is indexed is at
least 1 and at most 78; when it is 64 or more, the index is outside the map and the
loop has no defined result. -/
theorem ac_index_bounds (table : ComputeHuffmanTable) (input_data : List Nat) (dc : Int)
    (bb0 : BitBuffer) (n : Nat) (st : Nat × List Int × BitBuffer) (r : Nat × BitBuffer)
    (hbytes : ∀ v ∈ table.value, v < 256)
    (hstate : (acStates table input_data 64 1 (dcBlock dc) bb0).get? n = some st)
    (hi : st.1 < 64) (hd : decode table input_data st.2.2 = some r) (hx : r.1 &&& 15 ≠ 0) :
    1 ≤ st.1 + (r.1 >>> 4) ∧ st.1 + (r.1 >>> 4) ≤ 78 ∧
    (64 ≤ st.1 + (r.1 >>> 4) →
      zigzagTable.get? (st.1 + (r.1 >>> 4)) = none ∧
      acLoop table input_data 64 1 (dcBlock dc) bb0 = none) := by
  obtain ⟨g1, _, _, _, g5⟩ := acStates_invariant table input_data 64 1 (dcBlock dc) bb0 n st.1
    st.2.1 st.2.2 (by omega) (dcBlock_ac_zero dc) hstate
  have hr := hbytes r.1 (decode_mem_value table input_data st.2.2 r hd)
  have hrun : r.1 >>> 4 ≤ 15 := by
    rw [Nat.shiftRight_eq_div_pow]
    omega
  exact ⟨by omega, by omega, fun h64 => ⟨zigzag_get?_none _ h64, g5 hi r hd hx h64⟩⟩

/-- Witness of `ac_index_bounds`: the state number 10 of `overrunScan` is at position
63 and decodes the symbol `0x12`, so that the zigzag map is indexed at position 64. -/
theorem ac_index_bounds_witness :
    (1 ≤ overrunState.1 + (overrunSymbol.1 >>> 4) ∧
      overrunState.1 + (overrunSymbol.1 >>> 4) ≤ 78 ∧
      (64 ≤ overrunState.1 + (overrunSymbol.1 >>> 4) →
        zigzagTable.get? (overrunState.1 + (overrunSymbol.1 >>> 4)) = none ∧
        acLoop (computeHuffmanTable acDemoTable) overrunScan 64 1 (dcBlock 0) (laneInit 0) =
          none)) ∧
    overrunState.1 = 63 ∧ overrunSymbol.1 = 0x12 :=
  ⟨ac_index_bounds (computeHuffmanTable acDemoTable) overrunScan 0 (laneInit 0) 10 overrunState
    overrunSymbol
    (computeHuffmanTable_bytes acDemoTable acDemoTable_bytes)
    (eq_some_getD _ (0, [], laneInit 0) (by decide)) (by decide)
    (eq_some_getD _ (0, laneInit 0) (by decide)) (by decide), by decide, by decide⟩

/-! ## The byte after `0xFF` -/

theorem ensureBody_skip (inp : List Nat) (o j x : Nat) (bb : BitBuffer)
    (hsize : inp.length < 4294967296) (hR : ReaderAt o j bb)
    (hx : (laneBytes inp o)[j]? = some x) :
    (ensureBody inp bb).1 = x ∧
      ReaderAt o (j + (if x = 0xff then 2 else 1)) (ensureBody inp bb).2 := by
  have hR1 : ReaderAt o j { bb with remain := wrapU (bb.remain + 8) } := hR
  obtain ⟨h1, h2⟩ := getByte_at inp o j x _ (by omega) hR1 hx
  have hpos : 4 * o + (j + 1) < 4 * 4294967296 := by
    rw [laneBytes_getElem?] at hx
    cases hw : inp[o + j / 4]? with
    | none => rw [hw] at hx; simp at hx
    | some w =>
      have hlt : o + j / 4 < inp.length := by
        by_contra hcon
        rw [List.getElem?_eq_none (by omega)] at hw
        exact absurd hw (by simp)
      omega
  unfold ensureBody
  simp only [h1]
  refine ⟨trivial, ?_⟩
  split_ifs with hff
  · exact getByte_reader inp o (j + 1) _ h2 hpos
  · exact h2

theorem skipStuffed_cons_of_ne (x : Nat) (rest : List Nat) (hx : x ≠ 0xff) :
    skipStuffed (x :: rest) = x :: skipStuffed rest := by
  cases rest with
  | nil => simp [skipStuffed]
  | cons y r => simp [skipStuffed, hx]

theorem skipStuffed_cons_ff (rest : List Nat) :
    skipStuffed (0xff :: rest) = 0xff :: skipStuffed (rest.drop 1) := by
  cases rest with
  | nil => simp [skipStuffed]
  | cons y r => simp [skipStuffed]

theorem skipStuffed_drop (S : List Nat) (j x : Nat) (hx : S[j]? = some x) :
    skipStuffed (S.drop j) = x :: skipStuffed (S.drop (j + (if x = 0xff then 2 else 1))) := by
  have hj : j < S.length := by
    by_contra hcon
    rw [List.getElem?_eq_none (by omega)] at hx
    exact absurd hx (by simp)
  have hd : S.drop j = x :: S.drop (j + 1) := by
    rw [List.drop_eq_getElem_cons hj]
    congr 1
    rw [List.getElem?_eq_getElem hj] at hx
    exact Option.some.inj hx
  by_cases hff : x = 0xff
  · rw [hd, if_pos hff, hff, skipStuffed_cons_ff, List.drop_drop]
  · rw [hd, if_neg hff, skipStuffed_cons_of_ne x _ hff]

theorem skipStuffed_drop_nonempty (S : List Nat) (j : Nat)
    (h : 0 < (skipStuffed (S.drop j)).length) : ∃ x, S[j]? = some x := by
  by_cases hj : j < S.length
  · exact ⟨S[j], List.getElem?_eq_getElem hj⟩
  · rw [List.drop_eq_nil_of_le (by omega)] at h
    simp [skipStuffed] at h

theorem ensureLoop_skip (inp : List Nat) (o : Nat) (hsize : inp.length < 4294967296) :
    ∀ (fuel : Nat) (bb : BitBuffer) (j : Nat), ReaderAt o j bb →
      (ensureLoop inp fuel bb).1.length ≤ (skipStuffed ((laneBytes inp o).drop j)).length →
      ∃ j', (ensureLoop inp fuel bb).1 ++ skipStuffed ((laneBytes inp o).drop j') =
          skipStuffed ((laneBytes inp o).drop j) ∧ ReaderAt o j' (ensureLoop inp fuel bb).2 := by
  intro fuel
  induction fuel with
  | zero => intro bb j hR _; exact ⟨j, by simp [ensureLoop], hR⟩
  | succ fuel ih =>
    intro bb j hR hlen
    unfold ensureLoop at hlen ⊢
    by_cases hrem : bb.remain < 16
    · simp only [hrem, if_true, List.length_cons] at hlen ⊢
      obtain ⟨x, hx⟩ := skipStuffed_drop_nonempty (laneBytes inp o) j (by omega)
      obtain ⟨hb, hR2⟩ := ensureBody_skip inp o j x bb hsize hR hx
      have hd := skipStuffed_drop _ j x hx
      rw [hd, List.length_cons] at hlen
      obtain ⟨j', hj', hR'⟩ := ih _ _ hR2 (by omega)
      refine ⟨j', ?_, hR'⟩
      rw [hd, hb, List.cons_append, hj']
    · simp only [hrem, if_false]
      exact ⟨j, by simp, hR⟩

theorem shiftedBytes_skip (inp : List Nat) (o : Nat) (hsize : inp.length < 4294967296) :
    ∀ (cs : List Nat) (bb : BitBuffer) (j : Nat), ReaderAt o j bb →
      (shiftedBytes inp cs bb).length ≤ (skipStuffed ((laneBytes inp o).drop j)).length →
      ∃ j', shiftedBytes inp cs bb ++ skipStuffed ((laneBytes inp o).drop j') =
          skipStuffed ((laneBytes inp o).drop j) := by
  intro cs
  induction cs with
  | nil => intro bb j _ _; exact ⟨j, by simp [shiftedBytes]⟩
  | cons c cs ih =>
    intro bb j hR hlen
    unfold shiftedBytes at hlen ⊢
    dsimp only at hlen ⊢
    simp only [List.length_append] at hlen
    obtain ⟨j1, hj1, hR1⟩ := ensureLoop_skip inp o hsize 2 bb j hR
      (by unfold ensureBytes at hlen; omega)
    have hR2 : ReaderAt o j1
        { ensure inp bb with remain := subU (ensure inp bb).remain c } := hR1
    have hl := congrArg List.length hj1
    rw [List.length_append] at hl
    obtain ⟨j', hj'⟩ := ih _ j1 hR2 (by unfold ensureBytes at hlen; dsimp only; omega)
    dsimp only at hj'
    refine ⟨j', ?_⟩
    simp only [ensureBytes]
    rw [List.append_assoc, hj', hj1]

/-- C23 (counterexample).  On the stream `FF 12 34 56`, where `0xFF` is followed by
the byte `0x12`, two calls of `ensure` shift in `FF 34 56 00`: the byte `0x12` is
not shifted in, and the bytes are not the stream with only the pairs `0xFF, 0x00`
collapsed. -/
theorem byte_after_ff_dropped :
    ¬ (∀ (input_data : List Nat) (o : Nat) (consumed : List Nat),
        input_data.length ≤ 4294967296 →
        (shiftedBytes input_data consumed (laneInit o)).length ≤
          (destuff (laneBytes input_data o)).length →
        List.IsPrefix (shiftedBytes input_data consumed (laneInit o))
          (destuff (laneBytes input_data o))) := by
  intro h
  have h1 := h [0x563412ff, 0] 0 [16, 16] (by decide) (by decide)
  have h2 : shiftedBytes [0x563412ff, 0] [16, 16] (laneInit 0) = [0xff, 0x34, 0x56, 0x00] := by
    decide
  have h3 : destuff (laneBytes [0x563412ff, 0] 0) = [0xff, 0x12, 0x34, 0x56, 0, 0, 0, 0] := by
    decide
  rw [h2, h3] at h1
  revert h1
  decide

/-- C23 (amended).  For every byte stream of a lane, the bytes that the calls of
`ensure` shift into the bit buffer (for any consumption between the calls), as far as
they come from the stream, are the stream with the byte after each shifted-in `0xFF`
dropped, whatever its value, and every other byte kept unchanged and in order. -/
theorem ensure_skips_after_ff (input_data : List Nat) (o : Nat) (consumed : List Nat)
    (hsize : input_data.length < 4294967296)
    (hin : (shiftedBytes input_data consumed (laneInit o)).length ≤
      (skipStuffed (laneBytes input_data o)).length) :
    List.IsPrefix (shiftedBytes input_data consumed (laneInit o))
      (skipStuffed (laneBytes input_data o)) := by
  have hR : ReaderAt o 0 (laneInit o) := by
    unfold ReaderAt laneInit; simp
  obtain ⟨j', hj'⟩ := shiftedBytes_skip input_data o hsize consumed
    (laneInit o) 0 hR (by simpa using hin)
  exact ⟨_, by simpa using hj'⟩

/-- Witness of `ensure_skips_after_ff`: the stream `FF 12 34 56 00 ..` is shifted in
as `FF 34 56 00`. -/
theorem ensure_skips_after_ff_witness :
    List.IsPrefix (shiftedBytes [0x563412ff, 0] [16, 16] (laneInit 0))
      (skipStuffed (laneBytes [0x563412ff, 0] 0)) ∧
    shiftedBytes [0x563412ff, 0] [16, 16] (laneInit 0) = [0xff, 0x34, 0x56, 0x00] ∧
    skipStuffed (laneBytes [0x563412ff, 0] 0) = [0xff, 0x34, 0x56, 0, 0, 0, 0] :=
  ⟨ensure_skips_after_ff [0x563412ff, 0] 0 [16, 16] (by decide) (by decide), by decide,
    by decide⟩

/-! ## The length scan of `decode` and its sentinel -/

theorem decodeSize_bounded (mc : List Nat) (x : Nat) (hlen : 18 ≤ mc.length)
    (hx : x ≤ mc.getD 17 0) :
    ∀ (fuel s : Nat), s ≤ 17 → 18 ≤ fuel + s →
      ∃ L, decodeSize mc x fuel s = some L ∧ s ≤ L ∧ L ≤ 17 ∧ x ≤ mc.getD L 0 ∧
        ∀ l, s ≤ l → l < L → mc.getD l 0 < x := by
  intro fuel
  induction fuel with
  | zero => intro s hs hf; omega
  | succ fuel ih =>
    intro s hs hf
    unfold decodeSize
    have hget : mc.get? s = some (mc.getD s 0) := by
      rw [List.get?_eq_getElem?, List.getD_eq_getElem?_getD,
        List.getElem?_eq_getElem (by omega)]
      rfl
    rw [hget]
    simp only
    by_cases hgt : x > mc.getD s 0
    · rw [if_pos hgt]
      have hs17 : s ≠ 17 := by
        intro h17
        rw [h17] at hgt
        omega
      obtain ⟨L, h1, h2, h3, h4, h5⟩ := ih (s + 1) (by omega) (by omega)
      refine ⟨L, h1, by omega, h3, h4, ?_⟩
      intro l hl1 hl2
      by_cases hls : l = s
      · rw [hls]; exact hgt
      · exact h5 l (by omega) hl2
    · rw [if_neg hgt]
      exact ⟨s, rfl, le_refl _, hs, by omega, fun l hl1 hl2 => by omega⟩

theorem maxcode_length (source : HuffmanTable) :
    (computeHuffmanTable source).maxcode.length = 18 := by
  obtain ⟨_, hl1, _, _⟩ := foldl_f15Step (computeHuffmanTable source).size
    (hostHuffcode source) 16 (le_refl 16)
  have hmax : (computeHuffmanTable source).maxcode =
      ((List.range' 1 16).foldl (f15Step (computeHuffmanTable source).size (hostHuffcode source))
        (0, List.replicate 18 0, List.replicate 19 0)).2.1.set 17 0xffffffff := rfl
  rw [hmax, List.length_set, hl1]

theorem maxcode_sentinel (source : HuffmanTable) :
    (computeHuffmanTable source).maxcode.getD 17 0 = 0xffffffff := by
  obtain ⟨_, hl1, _, _⟩ := foldl_f15Step (computeHuffmanTable source).size
    (hostHuffcode source) 16 (le_refl 16)
  have hmax : (computeHuffmanTable source).maxcode =
      ((List.range' 1 16).foldl (f15Step (computeHuffmanTable source).size (hostHuffcode source))
        (0, List.replicate 18 0, List.replicate 19 0)).2.1.set 17 0xffffffff := rfl
  rw [hmax, getD_set_self_nat _ _ _ (by rw [hl1]; decide)]

theorem shl32_lt (a n : Nat) : shl32 a n < 4294967296 := by
  unfold shl32
  split_ifs
  · exact Nat.mod_lt _ (by decide)
  · decide

theorem value_length (source : HuffmanTable) :
    (computeHuffmanTable source).value.length = 256 := by
  have hval : (computeHuffmanTable source).value =
      (List.range 256).map (fun j => source.value.getD j 0) := rfl
  rw [hval, List.length_map, List.length_range]

/-- C25.  Malformed code has no error path.  For the table built from the length
counts with two 2-bit codes (Kraft sum 1/2) and the window `0xFFFF0000` that `ensure`
forms from the bytes `FF FF FF FF`, the window is greater than `maxcode[L]` for every
`L` in `2..16`, the length scan stops at 17 without any failure, the index computed is
`(window >> 15) + valueOffset[17] = 131070`, which is 256 or more, and the read of
`value[]` at that index is outside the 256 entries. -/
theorem malformed_code_no_error_path :
    ∃ (source : HuffmanTable) (input_data : List Nat) (bb : BitBuffer),
      kraftSum source.size ≤ 65536 ∧
      (∀ L, 2 ≤ L → L ≤ 16 →
        shl32 (ensure input_data bb).data (subU 32 (ensure input_data bb).remain) >
          (computeHuffmanTable source).maxcode.getD L 0) ∧
      decodeSize (computeHuffmanTable source).maxcode
        (shl32 (ensure input_data bb).data (subU 32 (ensure input_data bb).remain)) 17 2 =
          some 17 ∧
      decodeIndex (computeHuffmanTable source) input_data bb =
        some (17,
          (shl32 (ensure input_data bb).data (subU 32 (ensure input_data bb).remain) >>> 15) +
            (computeHuffmanTable source).valueOffset.getD 17 0,
          { ensure input_data bb with remain := subU (ensure input_data bb).remain 17 }) ∧
      256 ≤ (shl32 (ensure input_data bb).data (subU 32 (ensure input_data bb).remain) >>> 15) +
        (computeHuffmanTable source).valueOffset.getD 17 0 ∧
      (computeHuffmanTable source).value.length = 256 ∧
      decode (computeHuffmanTable source) input_data bb = none := by
  refine ⟨dcDemoTable, [0xFFFFFFFF], laneInit 0, by decide, ?_, by decide, by decide, by decide,
    value_length dcDemoTable, by decide⟩
  intro L h2 h16
  interval_cases L <;> decide

/-- C26.  The length scan stops at the sentinel.  For every table built by the host
from any source table and every 32-bit window, the loop `while (x > maxcode[size])
++size` started at 2 stops with a length `L` in `2..17`, the first one with
`window <= maxcode[L]`; in particular the first half of `decode` has a result with
such a length on every input and bit buffer. -/
theorem decode_scan_terminates (source : HuffmanTable) :
    (∀ x, x < 4294967296 →
      ∃ L, decodeSize (computeHuffmanTable source).maxcode x 17 2 = some L ∧ 2 ≤ L ∧ L ≤ 17 ∧
        x ≤ (computeHuffmanTable source).maxcode.getD L 0 ∧
        ∀ l, 2 ≤ l → l < L → (computeHuffmanTable source).maxcode.getD l 0 < x) ∧
    ∀ (input_data : List Nat) (bb : BitBuffer),
      ∃ r, decodeIndex (computeHuffmanTable source) input_data bb = some r ∧
        2 ≤ r.1 ∧ r.1 ≤ 17 := by
  have hscan : ∀ x, x < 4294967296 →
      ∃ L, decodeSize (computeHuffmanTable source).maxcode x 17 2 = some L ∧ 2 ≤ L ∧ L ≤ 17 ∧
        x ≤ (computeHuffmanTable source).maxcode.getD L 0 ∧
        ∀ l, 2 ≤ l → l < L → (computeHuffmanTable source).maxcode.getD l 0 < x := by
    intro x hx
    exact decodeSize_bounded _ x (by rw [maxcode_length]) (by rw [maxcode_sentinel]; omega)
      17 2 (by omega) (by omega)
  refine ⟨hscan, ?_⟩
  intro input_data bb
  obtain ⟨L, h1, h2, h3, _⟩ := hscan _ (shl32_lt (ensure input_data bb).data
    (subU 32 (ensure input_data bb).remain))
  unfold decodeIndex
  simp only [h1]
  exact ⟨_, rfl, h2, h3⟩

/-- Witness of `decode_scan_terminates`: on the table with the 2-bit codes `00` and
`01`, the window `0xC0000000` (bits `11`) is above every `maxcode[2..16]` and the scan
stops at 17. -/
theorem decode_scan_terminates_witness :
    (∃ L, decodeSize (computeHuffmanTable dcDemoTable).maxcode 0xC0000000 17 2 = some L ∧
      2 ≤ L ∧ L ≤ 17 ∧ 0xC0000000 ≤ (computeHuffmanTable dcDemoTable).maxcode.getD L 0 ∧
      ∀ l, 2 ≤ l → l < L → (computeHuffmanTable dcDemoTable).maxcode.getD l 0 < 0xC0000000) ∧
    decodeSize (computeHuffmanTable dcDemoTable).maxcode 0xC0000000 17 2 = some 17 :=
  ⟨(decode_scan_terminates dcDemoTable).1 0xC0000000 (by decide), by decide⟩

/-! ## The number of buffered bits -/

theorem receive_consume (inp : List Nat) (bb : BitBuffer) (n : Nat) :
    (receive inp bb n).2 = consume inp bb n := rfl

theorem decodeIndex_consume (table : ComputeHuffmanTable) (inp : List Nat) (bb : BitBuffer)
    (r : Nat × Nat × BitBuffer) (h : decodeIndex table inp bb = some r) :
    r.2.2 = consume inp bb r.1 := by
  unfold decodeIndex at h
  cases hs : decodeSize table.maxcode
      (shl32 (ensure inp bb).data (subU 32 (ensure inp bb).remain)) 17 2 with
  | none => simp only [hs] at h; exact absurd h (by simp)
  | some size =>
    simp only [hs, Option.some.injEq] at h
    rw [← h]
    rfl

theorem decode_consume (table : ComputeHuffmanTable) (inp : List Nat) (bb : BitBuffer)
    (r : Nat × BitBuffer) (h : decode table inp bb = some r) :
    ∃ size, 2 ≤ size ∧ r.2 = consume inp bb size := by
  unfold decode at h
  cases hd : decodeIndex table inp bb with
  | none => rw [hd] at h; simp at h
  | some q =>
    rw [hd] at h
    simp only at h
    cases hv : table.value.get? q.2.1 with
    | none => rw [hv] at h; simp at h
    | some symbol =>
      rw [hv] at h
      simp only [Option.some.injEq] at h
      rw [← h]
      refine ⟨q.1, ?_, decodeIndex_consume table inp bb q hd⟩
      unfold decodeIndex at hd
      cases hs : decodeSize table.maxcode
          (shl32 (ensure inp bb).data (subU 32 (ensure inp bb).remain)) 17 2 with
      | none => simp only [hs] at hd; exact absurd hd (by simp)
      | some size =>
        simp only [hs, Option.some.injEq] at hd
        rw [← hd]
        show 2 ≤ size
        have hge : ∀ (fuel s L : Nat) (mc : List Nat) (x : Nat),
            decodeSize mc x fuel s = some L → s ≤ L := by
          intro fuel
          induction fuel with
          | zero => intro s L mc x h0; simp [decodeSize] at h0
          | succ fuel ih =>
            intro s L mc x h0
            unfold decodeSize at h0
            cases hm : mc.get? s with
            | none => rw [hm] at h0; simp at h0
            | some m =>
              rw [hm] at h0
              simp only at h0
              split_ifs at h0 with hgt
              · have := ih _ _ _ _ h0
                omega
              · simp only [Option.some.injEq] at h0
                omega
        exact hge _ _ _ _ _ hs

theorem ensureLoop_remain_le (inp : List Nat) :
    ∀ (fuel : Nat) (bb : BitBuffer), bb.remain ≤ 23 → (ensureLoop inp fuel bb).2.remain ≤ 23 := by
  intro fuel
  induction fuel with
  | zero => intro bb h; exact h
  | succ fuel ih =>
    intro bb h
    unfold ensureLoop
    by_cases hr : bb.remain < 16
    · rw [if_pos hr]
      exact ih _ (by rw [ensureBody_remain]; unfold wrapU; omega)
    · rw [if_neg hr]
      exact h

theorem consume_remain (inp : List Nat) (bb : BitBuffer) (c : Nat) (hc : c ≤ 16)
    (h : bb.remain ≤ 23) :
    (consume inp bb c).remain + c = (ensure inp bb).remain ∧ (consume inp bb c).remain ≤ 23 := by
  have h1 := ensure_remain_ge inp bb
  have h2 : (ensure inp bb).remain ≤ 23 := ensureLoop_remain_le inp 2 bb h
  have h3 : (consume inp bb c).remain = subU (ensure inp bb).remain c := rfl
  rw [h3]
  unfold subU
  omega

theorem foldl_consume_remain (inp : List Nat) :
    ∀ (cs : List Nat) (bb : BitBuffer), (∀ c ∈ cs, c ≤ 16) → bb.remain ≤ 23 →
      (cs.foldl (consume inp) bb).remain ≤ 23 := by
  intro cs
  induction cs with
  | nil => intro bb _ h; exact h
  | cons c cs ih =>
    intro bb hcs h
    rw [List.foldl_cons]
    exact ih _ (fun c' hc' => hcs c' (List.mem_cons_of_mem _ hc'))
      (consume_remain inp bb c (hcs c (List.mem_cons_self _ _)) h).2

/-- C27.  Buffered-bit bound.  Let `bb` be the bit buffer of a lane after any
sequence of calls of `decode` and `receive` that consume at most 16 bits each (both
act on the bit buffer as `consume`).  Then `remain <= 23` in `bb` and in every state
of the loop of the next `ensure`; after that `ensure`, `16 <= remain <= 23`, and the
`remain` unread bits of `bb` are in `data` just above the bits shifted in; a
consumption of `c <= 16` bits leaves `remain - c`; and every execution of the loop
body (which runs only when `remain < 16`) adds 8 to `remain` and keeps all `remain`
unread bits in `data << 8`. -/
theorem remain_bounds (input_data : List Nat) (o : Nat) (cs : List Nat)
    (hcs : ∀ c ∈ cs, c ≤ 16) :
    (consumeAll input_data o cs).remain ≤ 23 ∧
    (∀ k, (ensureLoop input_data k (consumeAll input_data o cs)).2.remain ≤ 23) ∧
    16 ≤ (ensure input_data (consumeAll input_data o cs)).remain ∧
    (ensure input_data (consumeAll input_data o cs)).remain ≤ 23 ∧
    (ensure input_data (consumeAll input_data o cs)).data /
        2 ^ ((ensure input_data (consumeAll input_data o cs)).remain -
          (consumeAll input_data o cs).remain) % 2 ^ (consumeAll input_data o cs).remain =
      (consumeAll input_data o cs).data % 2 ^ (consumeAll input_data o cs).remain ∧
    (∀ c, c ≤ 16 →
      (consume input_data (consumeAll input_data o cs) c).remain + c =
        (ensure input_data (consumeAll input_data o cs)).remain) ∧
    (∀ b : BitBuffer, b.remain < 16 →
      (ensureBody input_data b).2.remain = b.remain + 8 ∧
      (ensureBody input_data b).2.data / 2 ^ 8 % 2 ^ b.remain = b.data % 2 ^ b.remain) ∧
    (∀ (b : BitBuffer) (n : Nat), (receive input_data b n).2 = consume input_data b n) ∧
    (∀ (table : ComputeHuffmanTable) (b : BitBuffer) (r : Nat × BitBuffer),
      decode table input_data b = some r → ∃ size, 2 ≤ size ∧ r.2 = consume input_data b size) := by
  have h0 : (consumeAll input_data o cs).remain ≤ 23 :=
    foldl_consume_remain input_data cs (laneInit o) hcs (Nat.zero_le 23)
  refine ⟨h0, fun k => ensureLoop_remain_le input_data k _ h0, ensure_remain_ge _ _,
    ensureLoop_remain_le input_data 2 _ h0, ?_,
    fun c hc => (consume_remain input_data _ c hc h0).1, ?_,
    fun b n => receive_consume input_data b n,
    fun table b r h => decode_consume table input_data b r h⟩
  · have := ensure_top input_data (consumeAll input_data o cs)
      (consumeAll input_data o cs).remain (le_refl _)
    rw [Nat.sub_self, pow_zero, Nat.div_one] at this
    exact this
  · intro b hb
    have hr : (ensureBody input_data b).2.remain = b.remain + 8 := by
      rw [ensureBody_remain]; unfold wrapU; omega
    refine ⟨hr, ?_⟩
    have := ensureBody_top input_data b b.remain (le_refl _) (by omega)
    rw [hr, Nat.sub_self, pow_zero, Nat.div_one, Nat.add_sub_cancel_left] at this
    exact this

/-- Witness of `remain_bounds`: after calls consuming 2, 10 and 16 bits on the stream
`60 00 03 ..`, 4 bits are buffered, and the next `ensure` brings the count to 20. -/
theorem remain_bounds_witness :
    (consumeAll [0x00030060, 0] 0 [2, 10, 16]).remain ≤ 23 ∧
    (consumeAll [0x00030060, 0] 0 [2, 10, 16]).remain = 4 ∧
    (ensure [0x00030060, 0] (consumeAll [0x00030060, 0] 0 [2, 10, 16])).remain = 20 :=
  ⟨(remain_bounds [0x00030060, 0] 0 [2, 10, 16] (by decide)).1, by decide, by decide⟩

/-! ## The Kraft sum and prefix-freeness of the generated code -/

theorem codeBase_kraft (size : List Nat) : codeBase size 1 16 = 2 * kraftSum size := by
  unfold kraftSum
  have hr : List.range' 1 16 = [1, 2, 3, 4, 5, 6, 7, 8, 9, 10, 11, 12, 13, 14, 15, 16] := by
    decide
  rw [hr]
  simp only [codeBase, List.map_cons, List.map_nil, List.sum_cons, List.sum_nil]
  norm_num
  ring

theorem codeBase_succ (size : List Nat) (s d : Nat) :
    codeBase size s (d + 1) = (codeBase size s d + size.getD (s + d) 0) * 2 := by
  rw [codeBase_add size d s 1]
  simp only [codeBase]
  ring

theorem firstCode_end_mul (size : List Nat) (L e : Nat) (h1 : 1 ≤ L) :
    (firstCode size L + size.getD L 0) * 2 ^ (e + 1) ≤ firstCode size (L + 1 + e) := by
  unfold firstCode
  rw [show L + 1 + e - 1 = (L - 1 + 1) + e by omega, codeBase_add, codeBase_succ,
    show 1 + (L - 1) = L by omega, pow_succ]
  have : (codeBase size 1 (L - 1) + size.getD L 0) * (2 ^ e * 2) =
      (codeBase size 1 (L - 1) + size.getD L 0) * 2 * 2 ^ e := by ring
  omega

theorem firstCode_end_le (size : List Nat) (L : Nat) (h1 : 1 ≤ L) (h16 : L ≤ 16)
    (hk : kraftSum size ≤ 65536) : firstCode size L + size.getD L 0 ≤ 2 ^ L := by
  have h := codeBase_add size (L - 1 + 1) 1 (16 - L)
  rw [show L - 1 + 1 + (16 - L) = 16 by omega, codeBase_kraft, codeBase_succ,
    show 1 + (L - 1) = L by omega] at h
  have h2 : (codeBase size 1 (L - 1) + size.getD L 0) * 2 * 2 ^ (16 - L) ≤ 2 * 65536 := by
    omega
  have h3 : (codeBase size 1 (L - 1) + size.getD L 0) * 2 ^ (16 - L) ≤ 2 ^ L * 2 ^ (16 - L) := by
    rw [← pow_add, show L + (16 - L) = 16 by omega]
    have : (codeBase size 1 (L - 1) + size.getD L 0) * 2 * 2 ^ (16 - L) =
        2 * ((codeBase size 1 (L - 1) + size.getD L 0) * 2 ^ (16 - L)) := by ring
    have e16 : (2 : Nat) ^ 16 = 65536 := by norm_num
    rw [e16]
    omega
  exact Nat.le_of_mul_le_mul_right h3 (by positivity)

theorem code_of_symbol (size : List Nat) (p : Nat) (hp : p < symCount size 1 16) :
    ∃ L t, 1 ≤ L ∧ L ≤ 16 ∧ t < size.getD L 0 ∧ p = firstIndex size L + t ∧
      (makeHuffsize size).getD p 0 = L ∧
      (makeHuffcode (makeHuffsize size)).getD p 0 = firstCode size L + t := by
  obtain ⟨L, t, h1, h16, ht, hpe⟩ := symbol_length size p hp
  refine ⟨L, t, h1, h16, ht, hpe, ?_, ?_⟩
  · rw [hpe]; exact huffsize_getD size L t h1 h16 ht
  · rw [hpe]; exact huffcode_getD size L t h1 h16 ht

/-- C30.  The generated code is prefix-free.  For every array of length counts with
Kraft sum at most 1, every code `huffcode[p]` is below `2^huffsize[p]`, and for two
different symbols `p`, `q` with `huffsize[p] <= huffsize[q]`, `huffcode[p]` is not the
leading `huffsize[p]` bits of `huffcode[q]`. -/
theorem huffcode_leading_bits_differ (size : List Nat) (hk : kraftSum size ≤ 65536) :
    (∀ p, p < symCount size 1 16 →
      (makeHuffcode (makeHuffsize size)).getD p 0 < 2 ^ (makeHuffsize size).getD p 0) ∧
    (∀ p q, p < symCount size 1 16 → q < symCount size 1 16 → p ≠ q →
      (makeHuffsize size).getD p 0 ≤ (makeHuffsize size).getD q 0 →
      (makeHuffcode (makeHuffsize size)).getD p 0 ≠
        (makeHuffcode (makeHuffsize size)).getD q 0 /
          2 ^ ((makeHuffsize size).getD q 0 - (makeHuffsize size).getD p 0)) := by
  constructor
  · intro p hp
    obtain ⟨L, t, h1, h16, ht, _, hs, hc⟩ := code_of_symbol size p hp
    have := firstCode_end_le size L h1 h16 hk
    rw [hs, hc]
    omega
  · intro p q hp hq hpq hle
    obtain ⟨L1, t1, h1, h16, ht1, hpe, hs1, hc1⟩ := code_of_symbol size p hp
    obtain ⟨L2, t2, h1', h16', ht2, hqe, hs2, hc2⟩ := code_of_symbol size q hq
    rw [hs1, hs2] at hle ⊢
    rw [hc1, hc2]
    by_cases hL : L1 = L2
    · subst hL
      rw [Nat.sub_self, pow_zero, Nat.div_one]
      omega
    · have hstep := firstCode_end_mul size L1 (L2 - L1 - 1) h1
      rw [show L1 + 1 + (L2 - L1 - 1) = L2 by omega, show L2 - L1 - 1 + 1 = L2 - L1 by omega]
        at hstep
      have hge : firstCode size L1 + size.getD L1 0 ≤
          (firstCode size L2 + t2) / 2 ^ (L2 - L1) := by
        rw [Nat.le_div_iff_mul_le (by positivity)]
        omega
      omega

/-- Witness of `huffcode_leading_bits_differ` on the codes `00, 010, 011, 10000`: the code
`00` is not the leading two bits of `011`. -/
theorem huffcode_leading_bits_differ_witness :
    (makeHuffcode (makeHuffsize [0, 0, 1, 2, 0, 1])).getD 0 0 ≠
      (makeHuffcode (makeHuffsize [0, 0, 1, 2, 0, 1])).getD 2 0 /
        2 ^ ((makeHuffsize [0, 0, 1, 2, 0, 1]).getD 2 0 -
          (makeHuffsize [0, 0, 1, 2, 0, 1]).getD 0 0) ∧
    (makeHuffcode (makeHuffsize [0, 0, 1, 2, 0, 1])).getD 2 0 = 3 ∧
    (makeHuffsize [0, 0, 1, 2, 0, 1]).getD 2 0 = 3 :=
  ⟨(huffcode_leading_bits_differ [0, 0, 1, 2, 0, 1] (by decide)).2 0 2 (by decide) (by decide)
    (by decide) (by decide), by decide, by decide⟩

/-! ## Round trip of `decode` on the host tables -/

theorem maxcode_getD (source : HuffmanTable) (L : Nat) (h1 : 1 ≤ L) (h16 : L ≤ 16) :
    (computeHuffmanTable source).maxcode.getD L 0 =
      if (computeHuffmanTable source).size.getD L 0 ≠ 0 then
        ((firstCode (computeHuffmanTable source).size L +
            (computeHuffmanTable source).size.getD L 0 - 1) * 2 ^ (32 - L) +
          (2 ^ (32 - L) - 1)) % 4294967296
      else 0 := by
  obtain ⟨_, _, _, hL⟩ := foldl_f15Step (computeHuffmanTable source).size
    (hostHuffcode source) 16 (le_refl 16)
  have hmax : (computeHuffmanTable source).maxcode =
      ((List.range' 1 16).foldl (f15Step (computeHuffmanTable source).size (hostHuffcode source))
        (0, List.replicate 18 0, List.replicate 19 0)).2.1.set 17 0xffffffff := rfl
  rw [hmax, getD_set_ne_nat _ _ _ _ (by omega), (hL L h1 h16).1]
  by_cases hz : (computeHuffmanTable source).size.getD L 0 ≠ 0
  · rw [if_pos hz, if_pos hz, maxcode_word _ L h1 h16]
    have hc := huffcode_getD (computeHuffmanTable source).size L
      ((computeHuffmanTable source).size.getD L 0 - 1) h1 h16 (by omega)
    rw [show firstIndex (computeHuffmanTable source).size L +
      ((computeHuffmanTable source).size.getD L 0 - 1) =
        firstIndex (computeHuffmanTable source).size L +
          (computeHuffmanTable source).size.getD L 0 - 1 by omega] at hc
    unfold hostHuffcode hostHuffsize
    rw [hc, show firstCode (computeHuffmanTable source).size L +
      ((computeHuffmanTable source).size.getD L 0 - 1) =
        firstCode (computeHuffmanTable source).size L +
          (computeHuffmanTable source).size.getD L 0 - 1 by omega]
  · rw [if_neg hz, if_neg hz]

theorem valueOffset_getD (source : HuffmanTable) (L : Nat) (h1 : 1 ≤ L) (h16 : L ≤ 16)
    (hz : (computeHuffmanTable source).size.getD L 0 ≠ 0) :
    (computeHuffmanTable source).valueOffset.getD L 0 =
      subU (firstIndex (computeHuffmanTable source).size L)
        (firstCode (computeHuffmanTable source).size L) := by
  obtain ⟨_, _, _, hL⟩ := foldl_f15Step (computeHuffmanTable source).size
    (hostHuffcode source) 16 (le_refl 16)
  have hvo : (computeHuffmanTable source).valueOffset =
      ((List.range' 1 16).foldl (f15Step (computeHuffmanTable source).size (hostHuffcode source))
        (0, List.replicate 18 0, List.replicate 19 0)).2.2.set 18 0 := rfl
  have hc0 := huffcode_getD (computeHuffmanTable source).size L 0 h1 h16 (by omega)
  rw [Nat.add_zero, Nat.add_zero] at hc0
  rw [hvo, getD_set_ne_nat _ _ _ _ (by omega), (hL L h1 h16).2 hz]
  unfold hostHuffcode hostHuffsize
  rw [hc0]

theorem window_eq (d r : Nat) (hr : r ≤ 32) :
    shl32 d (subU 32 r) = d % 2 ^ r * 2 ^ (32 - r) := by
  unfold shl32 subU
  interval_cases r <;> simp [Nat.shiftLeft_eq] <;> omega

theorem window_top (d r L : Nat) (hL : L ≤ r) (hr : r ≤ 32) :
    shl32 d (subU 32 r) / 2 ^ (32 - L) = d / 2 ^ (r - L) % 2 ^ L := by
  rw [window_eq d r hr, top_bits_eq d r L hL,
    show 2 ^ (32 - L) = 2 ^ (r - L) * 2 ^ (32 - r) by rw [← pow_add]; congr 1; omega,
    Nat.mul_div_mul_right _ _ (by positivity)]

theorem decodeSize_eq (mc : List Nat) (x L : Nat) (hlen : 18 ≤ mc.length)
    (hx : x ≤ mc.getD 17 0) (h2 : 2 ≤ L)
    (hlow : ∀ l, 2 ≤ l → l < L → mc.getD l 0 < x) (hle : x ≤ mc.getD L 0) :
    decodeSize mc x 17 2 = some L := by
  obtain ⟨L', h1, h3, h4, h5, h6⟩ := decodeSize_bounded mc x hlen hx 17 2 (by omega) (by omega)
  rw [h1]
  congr 1
  by_contra hne
  by_cases hlt : L' < L
  · have := hlow L' h3 hlt
    omega
  · have := h6 L h2 (by omega)
    omega

theorem scan_low (x c A L l : Nat) (hl : l < L) (hL : L ≤ 32)
    (hx : c * 2 ^ (32 - L) ≤ x) (hc : A * 2 ^ (L - l) ≤ c) (hA : 1 ≤ A) :
    ((A - 1) * 2 ^ (32 - l) + (2 ^ (32 - l) - 1)) % 4294967296 < x := by
  have hP : 2 ^ (32 - l) = 2 ^ (L - l) * 2 ^ (32 - L) := by
    rw [← pow_add]; congr 1; omega
  have h1 : A * 2 ^ (L - l) * 2 ^ (32 - L) ≤ c * 2 ^ (32 - L) := Nat.mul_le_mul_right _ hc
  have h2 : (A - 1) * 2 ^ (32 - l) + 2 ^ (32 - l) = A * 2 ^ (32 - l) := by
    obtain ⟨a, rfl⟩ : ∃ a, A = a + 1 := ⟨A - 1, by omega⟩
    rw [Nat.add_sub_cancel, Nat.succ_mul]
  have h3 : A * 2 ^ (32 - l) = A * 2 ^ (L - l) * 2 ^ (32 - L) := by
    rw [hP, Nat.mul_assoc]
  have hpos : 0 < 2 ^ (32 - l) := by positivity
  have h4 := Nat.mod_le ((A - 1) * 2 ^ (32 - l) + (2 ^ (32 - l) - 1)) 4294967296
  omega

theorem scan_high (x c B L : Nat) (hL : L ≤ 32)
    (hx : x < (c + 1) * 2 ^ (32 - L)) (hB : c + 1 ≤ B) (hk : B ≤ 2 ^ L) :
    x ≤ ((B - 1) * 2 ^ (32 - L) + (2 ^ (32 - L) - 1)) % 4294967296 := by
  have h1 : (c + 1) * 2 ^ (32 - L) ≤ B * 2 ^ (32 - L) := Nat.mul_le_mul_right _ hB
  have h2 : B * 2 ^ (32 - L) ≤ 2 ^ L * 2 ^ (32 - L) := Nat.mul_le_mul_right _ hk
  have h3 : 2 ^ L * 2 ^ (32 - L) = 4294967296 := by
    rw [← pow_add, show L + (32 - L) = 32 by omega]
    norm_num
  have h4 : (B - 1) * 2 ^ (32 - L) + 2 ^ (32 - L) = B * 2 ^ (32 - L) := by
    obtain ⟨b, rfl⟩ : ∃ b, B = b + 1 := ⟨B - 1, by omega⟩
    rw [Nat.add_sub_cancel, Nat.succ_mul]
  have hpos : 0 < 2 ^ (32 - L) := by positivity
  rw [Nat.mod_eq_of_lt (by omega)]
  omega

theorem value_get? (source : HuffmanTable) (k : Nat) (hk : k < 256) :
    (computeHuffmanTable source).value.get? k =
      some ((computeHuffmanTable source).value.getD k 0) := by
  rw [List.get?_eq_getElem?, List.getD_eq_getElem?_getD,
    List.getElem?_eq_getElem (by rw [value_length]; exact hk)]
  rfl

/-- C29.  Round trip for tables of the standard shape.  For a table built by the
host from length counts with Kraft sum at most 1, at most 256 symbols, no 1-bit code
and at least one 2-bit code, and a symbol index `k` with code `c = huffcode[k]` of
length `L = huffsize[k]`: whenever the top `L` of the unread bits that `ensure` leaves
buffered are `c` (whatever the bits after them), `decode` returns `value[k]` and
reduces `remain` by exactly `L`. -/
theorem decode_round_trip (source : HuffmanTable) (input_data : List Nat) (bb : BitBuffer)
    (k : Nat)
    (hkraft : kraftSum (computeHuffmanTable source).size ≤ 65536)
    (hsym : symCount (computeHuffmanTable source).size 1 16 ≤ 256)
    (hone : (computeHuffmanTable source).size.getD 1 0 = 0)
    (htwo : 1 ≤ (computeHuffmanTable source).size.getD 2 0)
    (hk : k < symCount (computeHuffmanTable source).size 1 16)
    (hrem : bb.remain ≤ 23)
    (hbits : (ensure input_data bb).data /
        2 ^ ((ensure input_data bb).remain - (hostHuffsize source).getD k 0) %
          2 ^ (hostHuffsize source).getD k 0 = (hostHuffcode source).getD k 0) :
    decode (computeHuffmanTable source) input_data bb =
      some ((computeHuffmanTable source).value.getD k 0,
        { ensure input_data bb with
          remain := (ensure input_data bb).remain - (hostHuffsize source).getD k 0 }) := by
  obtain ⟨L, t, h1, h16, ht, hpe, hs, hc⟩ := code_of_symbol _ k hk
  have hs' : (hostHuffsize source).getD k 0 = L := hs
  have hc' : (hostHuffcode source).getD k 0 =
      firstCode (computeHuffmanTable source).size L + t := hc
  rw [hs'] at hbits ⊢
  rw [hc'] at hbits
  have hr16 := ensure_remain_ge input_data bb
  have hr23 : (ensure input_data bb).remain ≤ 23 := ensureLoop_remain_le input_data 2 bb hrem
  have hL2 : 2 ≤ L := by
    by_contra hcon
    have : L = 1 := by omega
    rw [this, hone] at ht
    omega
  -- the window and its top `L` bits
  have hxlt := shl32_lt (ensure input_data bb).data (subU 32 (ensure input_data bb).remain)
  have htop := window_top (ensure input_data bb).data (ensure input_data bb).remain L
    (by omega) (by omega)
  rw [hbits] at htop
  generalize hxdef : shl32 (ensure input_data bb).data (subU 32 (ensure input_data bb).remain) = x
    at hxlt htop
  have hpos : 0 < 2 ^ (32 - L) := by positivity
  have hxlo : (firstCode (computeHuffmanTable source).size L + t) * 2 ^ (32 - L) ≤ x := by
    rw [← htop]; exact Nat.div_mul_le_self x _
  have hxhi : x < (firstCode (computeHuffmanTable source).size L + t + 1) * 2 ^ (32 - L) := by
    rw [← htop, Nat.mul_comm]; exact Nat.lt_mul_div_succ x hpos
  -- the length scan stops at `L`
  have hend := firstCode_end_le (computeHuffmanTable source).size L h1 h16 hkraft
  have hscan : decodeSize (computeHuffmanTable source).maxcode x 17 2 = some L := by
    refine decodeSize_eq _ x L (by rw [maxcode_length]) (by rw [maxcode_sentinel]; omega) hL2
      ?_ ?_
    · intro l hl2 hlL
      rw [maxcode_getD source l (by omega) (by omega)]
      by_cases hz : (computeHuffmanTable source).size.getD l 0 ≠ 0
      · rw [if_pos hz]
        have hstep := firstCode_end_mul (computeHuffmanTable source).size l (L - l - 1)
          (by omega)
        rw [show l + 1 + (L - l - 1) = L by omega, show L - l - 1 + 1 = L - l by omega]
          at hstep
        rw [show firstCode (computeHuffmanTable source).size l +
          (computeHuffmanTable source).size.getD l 0 - 1 =
            (firstCode (computeHuffmanTable source).size l +
              (computeHuffmanTable source).size.getD l 0) - 1 by omega]
        exact scan_low x (firstCode (computeHuffmanTable source).size L + t) _ L l hlL
          (by omega) hxlo (by omega) (by omega)
      · rw [if_neg hz]
        have hstep := firstCode_end_mul (computeHuffmanTable source).size 2 (L - 2 - 1)
          (by omega)
        rw [show 2 + 1 + (L - 2 - 1) = L by omega] at hstep
        have hp2 : 0 < 2 ^ (L - 2 - 1 + 1) := by positivity
        have hge : 1 * 2 ^ (L - 2 - 1 + 1) ≤
            (firstCode (computeHuffmanTable source).size 2 +
              (computeHuffmanTable source).size.getD 2 0) * 2 ^ (L - 2 - 1 + 1) :=
          Nat.mul_le_mul_right _ (by omega)
        have hc1 : 1 ≤ firstCode (computeHuffmanTable source).size L + t := by omega
        have := Nat.mul_le_mul_right (2 ^ (32 - L)) hc1
        omega
    · rw [maxcode_getD source L h1 h16, if_pos (by omega)]
      rw [show firstCode (computeHuffmanTable source).size L +
        (computeHuffmanTable source).size.getD L 0 - 1 =
          (firstCode (computeHuffmanTable source).size L +
            (computeHuffmanTable source).size.getD L 0) - 1 by omega]
      exact scan_high x (firstCode (computeHuffmanTable source).size L + t) _ L (by omega)
        hxhi (by omega) hend
  -- the index into `value[]`
  have hoff : wrapU ((x >>> (subU 32 L)) + (computeHuffmanTable source).valueOffset.getD L 0) =
      k := by
    rw [valueOffset_getD source L h1 h16 (by omega), Nat.shiftRight_eq_div_pow,
      show subU 32 L = 32 - L by unfold subU; omega, htop, hpe]
    have hfc : firstCode (computeHuffmanTable source).size L < 4294967296 := by
      have : (2 : Nat) ^ L ≤ 2 ^ 16 := Nat.pow_le_pow_right (by decide) h16
      norm_num at this
      omega
    unfold wrapU subU
    omega
  have hsub : subU (ensure input_data bb).remain L = (ensure input_data bb).remain - L := by
    unfold subU; omega
  unfold decode decodeIndex
  simp only [hxdef, hscan, hoff, hsub]
  rw [value_get? source k (by omega)]

/-- Witness of `decode_round_trip`: on the table with the codes `00`, `01`, `10` and
the bits `01 11 ..`, `decode` returns `value[1] = 0x12` and leaves 14 of the 16
buffered bits. -/
theorem decode_round_trip_witness :
    decode (computeHuffmanTable acDemoTable) [0x79] (laneInit 0) =
      some ((computeHuffmanTable acDemoTable).value.getD 1 0,
        { ensure [0x79] (laneInit 0) with
          remain := (ensure [0x79] (laneInit 0)).remain - (hostHuffsize acDemoTable).getD 1 0 }) ∧
    (computeHuffmanTable acDemoTable).value.getD 1 0 = 0x12 ∧
    (ensure [0x79] (laneInit 0)).remain - (hostHuffsize acDemoTable).getD 1 0 = 14 :=
  ⟨decode_round_trip acDemoTable [0x79] (laneInit 0) 1 (by decide) (by decide) (by decide)
    (by decide) (by decide) (by decide) (by decide), by decide, by decide⟩

/-! ## The content of the bit buffer -/

theorem ensureBody_data_eq (inp : List Nat) (bb : BitBuffer) :
    (ensureBody inp bb).1 < 256 ∧
    (ensureBody inp bb).2.data = (bb.data % 16777216) * 256 + (ensureBody inp bb).1 := by
  have hx : ∀ w s : Nat, (w >>> s) &&& 0xff < 256 := by
    intro w s
    have := Nat.and_pow_two_sub_one_eq_mod (w >>> s) 8
    simp only [Nat.reducePow, Nat.reduceSub] at this
    rw [this]
    exact Nat.mod_lt _ (by decide)
  have key : ∀ (d x : Nat), x < 256 → shl32 d 8 ||| x = (d % 16777216) * 256 + x := by
    intro d x hx
    have h1 : shl32 d 8 = 2 ^ 8 * (d % 16777216) := by
      unfold shl32
      rw [if_pos (by decide), Nat.shiftLeft_eq]
      omega
    rw [h1, ← Nat.mul_add_lt_is_or (by simpa using hx)]
    omega
  unfold ensureBody getByte
  dsimp only
  split_ifs <;> exact ⟨hx _ _, key _ _ (hx _ _)⟩

theorem shift_byte_mod (a x m : Nat) (hx : x < 256) (hm : 0 < m) :
    (a * 256 + x) % (m * 256) = a % m * 256 + x := by
  have h1 : a * 256 + x = (a % m * 256 + x) + m * 256 * (a / m) := by
    have := Nat.mod_add_div a m
    calc a * 256 + x = (a % m + m * (a / m)) * 256 + x := by rw [this]
      _ = (a % m * 256 + x) + m * 256 * (a / m) := by ring
  have h2 : a % m * 256 + x < m * 256 := by
    have := Nat.mod_lt a hm
    omega
  rw [h1, Nat.add_mul_mod_self_left, Nat.mod_eq_of_lt h2]

theorem streamValue_concat (l : List Nat) (x : Nat) :
    streamValue (l ++ [x]) = streamValue l * 256 + x := by
  unfold streamValue
  rw [List.foldl_append]
  rfl

theorem streamValue_append (l1 : List Nat) : ∀ l2 : List Nat,
    streamValue (l1 ++ l2) = streamValue l1 * 2 ^ (8 * l2.length) + streamValue l2 := by
  intro l2
  induction l2 using List.reverseRecOn with
  | nil => simp [streamValue]
  | append_singleton l x ih =>
    rw [← List.append_assoc, streamValue_concat, ih, streamValue_concat, List.length_append,
      List.length_singleton, Nat.mul_add, pow_add]
    ring

theorem streamValue_lt : ∀ l : List Nat, (∀ b ∈ l, b < 256) →
    streamValue l < 2 ^ (8 * l.length) := by
  intro l
  induction l using List.reverseRecOn with
  | nil => intro _; simp [streamValue]
  | append_singleton l x ih =>
    intro h
    have h1 := ih (fun b hb => h b (List.mem_append_left _ hb))
    have h2 := h x (by simp)
    rw [streamValue_concat, List.length_append, List.length_singleton, Nat.mul_add, pow_add]
    norm_num
    omega

theorem streamValue_take (S : List Nat) (n : Nat) (hb : ∀ b ∈ S, b < 256) :
    streamValue (S.take n) = streamValue S / 2 ^ (8 * (S.length - n)) := by
  have h1 := streamValue_append (S.take n) (S.drop n)
  rw [List.take_append_drop, List.length_drop] at h1
  have h2 := streamValue_lt (S.drop n) (fun b hb' => hb b (List.mem_of_mem_drop hb'))
  rw [List.length_drop] at h2
  rw [h1, Nat.add_comm, Nat.add_mul_div_right _ _ (by positivity), Nat.div_eq_of_lt h2,
    Nat.zero_add]

theorem skipStuffed_mem : ∀ (n : Nat) (l : List Nat), l.length ≤ n →
    ∀ b ∈ skipStuffed l, b ∈ l := by
  intro n
  induction n with
  | zero =>
    intro l hl b hb
    have : l = [] := List.length_eq_zero.1 (by omega)
    rw [this] at hb
    simp [skipStuffed] at hb
  | succ n ih =>
    intro l hl b hb
    cases l with
    | nil => simp [skipStuffed] at hb
    | cons x rest =>
      by_cases hff : x = 0xff
      · rw [hff, skipStuffed_cons_ff, List.mem_cons] at hb
        rcases hb with hb | hb
        · rw [hb, hff]; exact List.mem_cons_self _ _
        · have := ih (rest.drop 1) (by rw [List.length_drop]; simp at hl; omega) b hb
          exact List.mem_cons_of_mem _ (List.mem_of_mem_drop this)
      · rw [skipStuffed_cons_of_ne x rest hff, List.mem_cons] at hb
        rcases hb with hb | hb
        · rw [hb]; exact List.mem_cons_self _ _
        · exact List.mem_cons_of_mem _ (ih rest (by simp at hl; omega) b hb)

theorem laneBytes_lt (inp : List Nat) (o : Nat) : ∀ b ∈ laneBytes inp o, b < 256 := by
  intro b hb
  unfold laneBytes at hb
  rw [List.mem_flatMap] at hb
  obtain ⟨w, _, hw⟩ := hb
  have hx : ∀ v : Nat, v &&& 0xff < 256 := by
    intro v
    have := Nat.and_pow_two_sub_one_eq_mod v 8
    simp only [Nat.reducePow, Nat.reduceSub] at this
    rw [this]
    exact Nat.mod_lt _ (by decide)
  unfold wordBytes at hw
  simp only [List.mem_cons, List.mem_singleton, List.not_mem_nil, or_false] at hw
  rcases hw with h | h | h | h <;> rw [h] <;> exact hx _

theorem ensureBody_content (inp : List Nat) (o : Nat) (hsize : inp.length < 4294967296)
    (bb : BitBuffer) (P n j : Nat) (hR : ReaderAt o j bb)
    (hS : skipStuffed ((laneBytes inp o).drop j) = (skipStuffed (laneBytes inp o)).drop n)
    (hcount : bb.remain + P = 8 * n) (hr : bb.remain < 16)
    (hn : n < (skipStuffed (laneBytes inp o)).length)
    (hdata : bb.data % 2 ^ bb.remain =
      streamValue ((skipStuffed (laneBytes inp o)).take n) % 2 ^ bb.remain) :
    ∃ j', ReaderAt o j' (ensureBody inp bb).2 ∧
      skipStuffed ((laneBytes inp o).drop j') = (skipStuffed (laneBytes inp o)).drop (n + 1) ∧
      (ensureBody inp bb).2.remain + P = 8 * (n + 1) ∧
      (ensureBody inp bb).2.data % 2 ^ (ensureBody inp bb).2.remain =
        streamValue ((skipStuffed (laneBytes inp o)).take (n + 1)) %
          2 ^ (ensureBody inp bb).2.remain := by
  obtain ⟨x, hx⟩ := skipStuffed_drop_nonempty (laneBytes inp o) j
    (by rw [hS, List.length_drop]; omega)
  obtain ⟨hb, hR2⟩ := ensureBody_skip inp o j x bb hsize hR hx
  have hd := skipStuffed_drop (laneBytes inp o) j x hx
  rw [hS] at hd
  have hSn : (skipStuffed (laneBytes inp o))[n]? = some x := by
    have := congrArg (fun l => l[0]?) hd
    simpa using this
  have hdrop : (skipStuffed (laneBytes inp o)).drop (n + 1) =
      skipStuffed ((laneBytes inp o).drop (j + (if x = 0xff then 2 else 1))) := by
    rw [← List.tail_drop, hd, List.tail_cons]
  have htake : (skipStuffed (laneBytes inp o)).take (n + 1) =
      (skipStuffed (laneBytes inp o)).take n ++ [x] := by
    rw [List.take_succ, hSn]
    rfl
  have hrem : (ensureBody inp bb).2.remain = bb.remain + 8 := by
    rw [ensureBody_remain]; unfold wrapU; omega
  obtain ⟨hx256, hdat⟩ := ensureBody_data_eq inp bb
  rw [hb] at hx256 hdat
  refine ⟨_, hR2, hdrop.symm, by omega, ?_⟩
  have hpos : 0 < 2 ^ bb.remain := by positivity
  have hdvd : 2 ^ bb.remain ∣ 16777216 := by
    have : (16777216 : Nat) = 2 ^ 24 := by norm_num
    rw [this]
    exact Nat.pow_dvd_pow 2 (by omega)
  rw [hrem, hdat, htake, streamValue_concat, pow_add,
    show (2 : Nat) ^ 8 = 256 by norm_num, shift_byte_mod _ x _ hx256 hpos,
    shift_byte_mod _ x _ hx256 hpos, Nat.mod_mod_of_dvd _ hdvd, hdata]

theorem ensure_content (inp : List Nat) (o : Nat) (hsize : inp.length < 4294967296)
    (bb : BitBuffer) (P n j : Nat) (hR : ReaderAt o j bb)
    (hS : skipStuffed ((laneBytes inp o).drop j) = (skipStuffed (laneBytes inp o)).drop n)
    (hcount : bb.remain + P = 8 * n)
    (hin : (ensure inp bb).remain + P ≤ 8 * (skipStuffed (laneBytes inp o)).length)
    (hdata : bb.data % 2 ^ bb.remain =
      streamValue ((skipStuffed (laneBytes inp o)).take n) % 2 ^ bb.remain) :
    ∃ n' j', ReaderAt o j' (ensure inp bb) ∧
      skipStuffed ((laneBytes inp o).drop j') = (skipStuffed (laneBytes inp o)).drop n' ∧
      (ensure inp bb).remain + P = 8 * n' ∧
      (ensure inp bb).data % 2 ^ (ensure inp bb).remain =
        streamValue ((skipStuffed (laneBytes inp o)).take n') % 2 ^ (ensure inp bb).remain := by
  by_cases h16 : 16 ≤ bb.remain
  · rw [ensure_of_le inp bb h16]
    exact ⟨n, j, hR, hS, hcount, hdata⟩
  · have hr1 : (ensureBody inp bb).2.remain = bb.remain + 8 := by
      rw [ensureBody_remain]; unfold wrapU; omega
    have he : ensure inp bb =
        if (ensureBody inp bb).2.remain < 16 then (ensureBody inp (ensureBody inp bb).2).2
        else (ensureBody inp bb).2 := by
      unfold ensure ensureLoop ensureLoop ensureLoop
      dsimp only
      rw [if_pos (by omega)]
      split_ifs <;> rfl
    by_cases h2 : (ensureBody inp bb).2.remain < 16
    · rw [if_pos h2] at he
      have hr2 : (ensureBody inp (ensureBody inp bb).2).2.remain =
          (ensureBody inp bb).2.remain + 8 := by
        rw [ensureBody_remain]; unfold wrapU; omega
      rw [he] at hin ⊢
      obtain ⟨j1, a1, a2, a3, a4⟩ := ensureBody_content inp o hsize bb P n j hR hS hcount
        (by omega) (by omega) hdata
      obtain ⟨j2, b1, b2, b3, b4⟩ := ensureBody_content inp o hsize _ P (n + 1) j1 a1 a2 a3
        h2 (by omega) a4
      exact ⟨n + 1 + 1, j2, b1, b2, b3, b4⟩
    · rw [if_neg h2] at he
      rw [he] at hin ⊢
      obtain ⟨j1, a1, a2, a3, a4⟩ := ensureBody_content inp o hsize bb P n j hR hS hcount
        (by omega) (by omega) hdata
      exact ⟨n + 1, j1, a1, a2, a3, a4⟩

theorem ensure_remain_mono (inp : List Nat) (bb : BitBuffer) :
    bb.remain ≤ (ensure inp bb).remain := by
  by_cases h16 : 16 ≤ bb.remain
  · rw [ensure_of_le inp bb h16]
  · have := ensure_remain_ge inp bb
    omega

theorem consumeAll_concat (inp : List Nat) (o : Nat) (cs : List Nat) (c : Nat) :
    consumeAll inp o (cs ++ [c]) =
      { ensure inp (consumeAll inp o cs) with
        remain := subU (ensure inp (consumeAll inp o cs)).remain c } := by
  unfold consumeAll
  rw [List.foldl_append]
  rfl

theorem mod_pow_of_mod_pow (a b r s : Nat) (hs : s ≤ r) (h : a % 2 ^ r = b % 2 ^ r) :
    a % 2 ^ s = b % 2 ^ s := by
  have hdvd : 2 ^ s ∣ 2 ^ r := Nat.pow_dvd_pow 2 hs
  rw [← Nat.mod_mod_of_dvd a hdvd, ← Nat.mod_mod_of_dvd b hdvd, h]

theorem consumeAll_content (inp : List Nat) (o : Nat) (hsize : inp.length < 4294967296) :
    ∀ cs : List Nat, (∀ c ∈ cs, c ≤ 16) →
      cs.sum + (ensure inp (consumeAll inp o cs)).remain ≤
        8 * (skipStuffed (laneBytes inp o)).length →
      ∃ n j, ReaderAt o j (ensure inp (consumeAll inp o cs)) ∧
        skipStuffed ((laneBytes inp o).drop j) = (skipStuffed (laneBytes inp o)).drop n ∧
        (ensure inp (consumeAll inp o cs)).remain + cs.sum = 8 * n ∧
        (ensure inp (consumeAll inp o cs)).data % 2 ^ (ensure inp (consumeAll inp o cs)).remain =
          streamValue ((skipStuffed (laneBytes inp o)).take n) %
            2 ^ (ensure inp (consumeAll inp o cs)).remain := by
  intro cs
  induction cs using List.reverseRecOn with
  | nil =>
    intro _ hin
    have hR : ReaderAt o 0 (laneInit o) := by
      unfold ReaderAt laneInit; simp
    have h0 : consumeAll inp o [] = laneInit o := rfl
    rw [h0] at hin ⊢
    exact ensure_content inp o hsize (laneInit o) 0 0 0 hR rfl rfl
      (by simpa [Nat.add_comm] using hin) (by simp [laneInit, streamValue])
  | append_singleton cs c ih =>
    intro hcs hin
    have hc : c ≤ 16 := hcs c (by simp)
    have hcs' : ∀ c' ∈ cs, c' ≤ 16 := fun c' hc' => hcs c' (List.mem_append_left _ hc')
    have h16 := ensure_remain_ge inp (consumeAll inp o cs)
    have hsub : subU (ensure inp (consumeAll inp o cs)).remain c =
        (ensure inp (consumeAll inp o cs)).remain - c := by
      have := ensureLoop_remain_le inp 2 (consumeAll inp o cs)
        (foldl_consume_remain inp cs (laneInit o) hcs' (Nat.zero_le 23))
      have hE : (ensureLoop inp 2 (consumeAll inp o cs)).2 = ensure inp (consumeAll inp o cs) :=
        rfl
      rw [hE] at this
      unfold subU
      omega
    rw [consumeAll_concat, hsub] at hin ⊢
    rw [List.sum_append, List.sum_singleton] at hin ⊢
    have hmono := ensure_remain_mono inp
      { ensure inp (consumeAll inp o cs) with
        remain := (ensure inp (consumeAll inp o cs)).remain - c }
    have hmono' : (ensure inp (consumeAll inp o cs)).remain - c ≤
        (ensure inp { ensure inp (consumeAll inp o cs) with
          remain := (ensure inp (consumeAll inp o cs)).remain - c }).remain := hmono
    obtain ⟨n, j, a1, a2, a3, a4⟩ := ih hcs' (by omega)
    have hR : ReaderAt o j { ensure inp (consumeAll inp o cs) with
        remain := (ensure inp (consumeAll inp o cs)).remain - c } := a1
    obtain ⟨n', j', b1, b2, b3, b4⟩ := ensure_content inp o hsize
      { ensure inp (consumeAll inp o cs) with
        remain := (ensure inp (consumeAll inp o cs)).remain - c }
      (cs.sum + c) n j hR a2
      (by show (ensure inp (consumeAll inp o cs)).remain - c + (cs.sum + c) = 8 * n; omega)
      (by omega)
      (mod_pow_of_mod_pow _ _ _ _ (Nat.sub_le _ _) a4)
    exact ⟨n', j', b1, b2, b3, b4⟩

/-- C28.  Bit-buffer content invariant.  Let the calls of `decode` and `receive` made
on a lane since its initialisation have consumed `cs[0], cs[1], ...` bits, at most 16
each, and let `S` be the byte stream of the lane (the packed words from the lane's
word offset on, least significant byte first: byte `k` is the bits `8 (k mod 4) ..
8 (k mod 4) + 7` of the word `offset + k / 4`) with the byte after each shifted-in
`0xFF` dropped.  After the next `ensure`, as long as the bytes shifted in come from
the stream, the low `remain` bits of `data` are the bits of `S` from position
`sum cs` on, most significant first; the top `c` of them, for every `c <= remain`,
are the bits `sum cs .. sum cs + c - 1` of `S`, and these are the bits that the window
of `decode` starts with and the raw value that `receive(c)` reads.  The call number
`m` therefore reads the bits from position `cs[0] + .. + cs[m-1]` on, and leaves the
position `cs[0] + .. + cs[m]` to the next call. -/
theorem bit_buffer_content (input_data : List Nat) (o : Nat) (cs : List Nat)
    (hsize : input_data.length < 4294967296) (hcs : ∀ c ∈ cs, c ≤ 16)
    (hin : cs.sum + (ensure input_data (consumeAll input_data o cs)).remain ≤
      8 * (skipStuffed (laneBytes input_data o)).length) :
    (ensure input_data (consumeAll input_data o cs)).data %
        2 ^ (ensure input_data (consumeAll input_data o cs)).remain =
      streamBits (skipStuffed (laneBytes input_data o)) cs.sum
        (ensure input_data (consumeAll input_data o cs)).remain ∧
    (∀ c, c ≤ (ensure input_data (consumeAll input_data o cs)).remain →
      (ensure input_data (consumeAll input_data o cs)).data /
          2 ^ ((ensure input_data (consumeAll input_data o cs)).remain - c) % 2 ^ c =
        streamBits (skipStuffed (laneBytes input_data o)) cs.sum c) ∧
    (∀ c, c ≤ 16 →
      shl32 (ensure input_data (consumeAll input_data o cs)).data
          (subU 32 (ensure input_data (consumeAll input_data o cs)).remain) / 2 ^ (32 - c) =
        streamBits (skipStuffed (laneBytes input_data o)) cs.sum c) ∧
    (∀ c, c ≤ 16 →
      (receive input_data (consumeAll input_data o cs) c).1 =
        receiveValue c (streamBits (skipStuffed (laneBytes input_data o)) cs.sum c)) ∧
    (∀ c, c ≤ 16 →
      consumeAll input_data o (cs ++ [c]) = consume input_data (consumeAll input_data o cs) c ∧
      (cs ++ [c]).sum = cs.sum + c) ∧
    (∀ k, (laneBytes input_data o)[k]? =
      (input_data[o + k / 4]?).map (fun w => (w >>> (8 * (k % 4))) &&& 0xff)) := by
  obtain ⟨n, j, _, _, hcount, hdata⟩ := consumeAll_content input_data o hsize cs hcs hin
  have h16 := ensure_remain_ge input_data (consumeAll input_data o cs)
  have h23 : (ensure input_data (consumeAll input_data o cs)).remain ≤ 23 :=
    ensureLoop_remain_le input_data 2 _
      (foldl_consume_remain input_data cs (laneInit o) hcs (Nat.zero_le 23))
  have hbytes : ∀ b ∈ skipStuffed (laneBytes input_data o), b < 256 := fun b hb =>
    laneBytes_lt input_data o b (skipStuffed_mem _ _ (le_refl _) b hb)
  have hgen : ∀ c, c ≤ (ensure input_data (consumeAll input_data o cs)).remain →
      (ensure input_data (consumeAll input_data o cs)).data /
          2 ^ ((ensure input_data (consumeAll input_data o cs)).remain - c) % 2 ^ c =
        streamBits (skipStuffed (laneBytes input_data o)) cs.sum c := by
    intro c hc
    unfold streamBits
    rw [top_bits_eq _ _ _ hc, hdata, ← top_bits_eq _ _ _ hc, streamValue_take _ n hbytes,
      Nat.div_div_eq_div_mul, ← pow_add]
    congr 3
    omega
  refine ⟨?_, hgen, ?_, ?_, ?_, fun k => laneBytes_getElem? input_data o k⟩
  · have := hgen _ (le_refl _)
    rw [Nat.sub_self, pow_zero, Nat.div_one] at this
    exact this
  · intro c hc
    rw [window_top _ _ c (by omega) (by omega)]
    exact hgen c (by omega)
  · intro c hc
    have hsub : subU (ensure input_data (consumeAll input_data o cs)).remain c =
        (ensure input_data (consumeAll input_data o cs)).remain - c := by
      unfold subU; omega
    have hval : (receive input_data (consumeAll input_data o cs) c).1 =
        receiveValue c (((ensure input_data (consumeAll input_data o cs)).data >>>
          (subU (ensure input_data (consumeAll input_data o cs)).remain c)) &&&
            (subU (shl32 1 c) 1)) := rfl
    rw [hval, hsub, mask_eq c hc, Nat.and_pow_two_sub_one_eq_mod, Nat.shiftRight_eq_div_pow,
      hgen c (by omega)]
  · intro c _
    refine ⟨?_, by rw [List.sum_append, List.sum_singleton]⟩
    unfold consumeAll
    rw [List.foldl_append]
    rfl

/-- Witness of `bit_buffer_content`: on the stream `60 00 03 00 ..`, after calls
consuming 2 and 10 bits, `ensure` leaves 20 bits buffered, the bits 12..31 of the
stream, and the next 4 bits are `0000`. -/
theorem bit_buffer_content_witness :
    (ensure [0x00030060, 0] (consumeAll [0x00030060, 0] 0 [2, 10])).data %
        2 ^ (ensure [0x00030060, 0] (consumeAll [0x00030060, 0] 0 [2, 10])).remain =
      streamBits (skipStuffed (laneBytes [0x00030060, 0] 0)) [2, 10].sum
        (ensure [0x00030060, 0] (consumeAll [0x00030060, 0] 0 [2, 10])).remain ∧
    (ensure [0x00030060, 0] (consumeAll [0x00030060, 0] 0 [2, 10])).remain = 20 ∧
    streamBits (skipStuffed (laneBytes [0x00030060, 0] 0)) [2, 10].sum 20 = 0x300 :=
  ⟨(bit_buffer_content [0x00030060, 0] 0 [2, 10] (by decide) (by decide) (by decide)).1,
    by decide, by decide⟩

/-! ## The zigzag map is a permutation -/

/-- C31.  `zigzagTable` is a permutation of `0..63`: it has 64 entries, pairwise
distinct, each in `0..63`, every value of `0..63` occurs, and entry 0 is 0.  Hence
two different zigzag positions address different coefficients, a store at one
position leaves the coefficient of every other position unchanged, no position
`>= 1` addresses the DC coefficient, and the AC loop returns the block with the DC
coefficient it was given. -/
theorem zigzag_permutation :
    zigzagTable.length = 64 ∧ zigzagTable.Nodup ∧
    (∀ a, a < 64 → zigzagTable.getD a 64 < 64) ∧
    (∀ v, v < 64 → v ∈ zigzagTable) ∧
    zigzagTable.get? 0 = some 0 ∧
    (∀ a b, a < 64 → b < 64 → a ≠ b → zigzagTable.getD a 64 ≠ zigzagTable.getD b 64) ∧
    (∀ a, 1 ≤ a → a < 64 → zigzagTable.getD a 64 ≠ 0) ∧
    (∀ (temp : List Int) (a b : Nat) (v : Int), a < 64 → b < 64 → a ≠ b →
      (temp.set (zigzagTable.getD a 64) v).getD (zigzagTable.getD b 64) 0 =
        temp.getD (zigzagTable.getD b 64) 0) ∧
    (∀ (table : ComputeHuffmanTable) (input_data : List Nat) (temp blk : List Int)
      (bb bb' : BitBuffer),
      acLoop table input_data 64 1 temp bb = some (blk, bb') → blk.getD 0 0 = temp.getD 0 0) := by
  refine ⟨zigzag_length, zigzag_nodup, zigzag_lt, by decide, rfl, ?_, ?_, ?_, ?_⟩
  · intro a b ha hb hab h
    exact hab (zigzag_inj a b ha hb h)
  · intro a h1 h64
    exact zigzag_ne_zero a h64 h1
  · intro temp a b v ha hb hab
    exact getD_set_ne temp _ _ v (fun h => hab (zigzag_inj a b ha hb h))
  · intro table input_data temp blk bb bb' h
    exact acLoop_index_zero table input_data 64 1 temp bb blk bb' (le_refl 1) h

/-- Witness of `zigzag_permutation`: the positions 1 and 2 address the coefficients
1 and 8, and a store at position 1 leaves coefficient 8 alone. -/
theorem zigzag_permutation_witness :
    zigzagTable.getD 1 64 ≠ zigzagTable.getD 2 64 ∧ zigzagTable.getD 1 64 ≠ 0 ∧
    ((dcBlock 7).set (zigzagTable.getD 1 64) 5).getD (zigzagTable.getD 2 64) 0 =
      (dcBlock 7).getD (zigzagTable.getD 2 64) 0 ∧
    zigzagTable.getD 1 64 = 1 ∧ zigzagTable.getD 2 64 = 8 :=
  ⟨zigzag_permutation.2.2.2.2.2.1 1 2 (by decide) (by decide) (by decide),
   zigzag_permutation.2.2.2.2.2.2.1 1 (by decide) (by decide),
   zigzag_permutation.2.2.2.2.2.2.2.1 (dcBlock 7) 1 2 5 (by decide) (by decide) (by decide),
   by decide, by decide⟩

/-! ## Exact output of a DC-only block -/

/-- C32.  Exact DC-only output.  For every coefficient block with all 63 AC
coefficients zero, DC coefficient `D` and quantisation entry `q0` with
`|D * q0| <= 2^16`, all 64 samples written by `idct` are `128 + floor((D * q0 + 4) / 8)`;
in particular the all-zero block gives 128 everywhere, whatever the quantisation
table. -/
theorem idct_dc_exact (data qt : List Int) :
    ((∀ k, 1 ≤ k → k < 64 → data.getD k 0 = 0) →
      -65536 ≤ data.getD 0 0 * qt.getD 0 0 → data.getD 0 0 * qt.getD 0 0 ≤ 65536 →
      idct data qt = List.replicate 64 (128 + (data.getD 0 0 * qt.getD 0 0 + 4) / 8)) ∧
    idct (List.replicate 64 0) qt = List.replicate 64 128 := by
  refine ⟨fun hac h1 h2 => idct_dc_only data qt hac h1 h2, ?_⟩
  have hz : ∀ k, (List.replicate 64 (0 : Int)).getD k 0 = 0 := by
    intro k
    rw [List.getD_eq_getElem?_getD, List.getElem?_replicate]
    split_ifs <;> rfl
  have h := idct_dc_only (List.replicate 64 0) qt (fun k _ _ => hz k)
    (by rw [hz 0]; simp) (by rw [hz 0]; simp)
  rw [hz 0] at h
  simpa using h

/-- Witness of `idct_dc_exact`: DC coefficient 100 with quantisation entry 5 gives
64 samples equal to 128 + 63 = 191. -/
theorem idct_dc_exact_witness :
    idct (dcBlock 100) (List.replicate 64 5) =
      List.replicate 64 (128 + ((dcBlock 100).getD 0 0 * (List.replicate 64 (5 : Int)).getD 0 0 + 4) / 8) ∧
    128 + ((dcBlock 100).getD 0 0 * (List.replicate 64 (5 : Int)).getD 0 0 + 4) / 8 = 191 :=
  ⟨(idct_dc_exact (dcBlock 100) (List.replicate 64 5)).1 (by decide) (by decide) (by decide),
   by decide⟩

/-! ## Size-0 symbols other than end of block -/

theorem acStates_drop (table : ComputeHuffmanTable) (inp : List Nat) :
    ∀ (fuel i0 : Nat) (temp0 : List Int) (bb0 : BitBuffer) (n i : Nat) (temp : List Int)
      (bb : BitBuffer),
      65 ≤ fuel + i0 →
      (acStates table inp fuel i0 temp0 bb0).get? n = some (i, temp, bb) →
      ∃ fuel', 65 ≤ fuel' + i ∧
        (acStates table inp fuel i0 temp0 bb0).drop n = acStates table inp fuel' i temp bb := by
  intro fuel
  induction fuel with
  | zero => intro i0 temp0 bb0 n i temp bb _ h; simp [acStates] at h
  | succ fuel ih =>
    intro i0 temp0 bb0 n i temp bb hfuel h
    cases n with
    | zero =>
      unfold acStates at h
      rw [List.get?_cons_zero] at h
      simp only [Option.some.injEq, Prod.mk.injEq] at h
      obtain ⟨rfl, rfl, rfl⟩ := h
      exact ⟨fuel + 1, hfuel, rfl⟩
    | succ n =>
      unfold acStates at h
      rw [List.get?_cons_succ] at h
      conv => enter [1, fuel', 2, 1]; unfold acStates
      simp only [List.drop_succ_cons]
      by_cases hi0 : i0 < 64
      · rw [if_pos hi0] at h ⊢
        cases hd0 : decode table inp bb0 with
        | none => rw [hd0] at h; simp at h
        | some r =>
          rw [hd0] at h
          simp only at h ⊢
          by_cases hx : r.1 &&& 15 ≠ 0
          · rw [if_pos hx] at h ⊢
            by_cases h63 : i0 + (r.1 >>> 4) < 64
            · rw [zigzag_get? (i0 + (r.1 >>> 4)) h63] at h ⊢
              simp only at h ⊢
              exact ih _ _ _ n i temp bb (by omega) h
            · rw [zigzag_get?_none (i0 + (r.1 >>> 4)) (by omega)] at h
              simp at h
          · rw [if_neg hx] at h ⊢
            by_cases hs : r.1 < 16
            · rw [if_pos hs] at h; simp at h
            · rw [if_neg hs] at h ⊢
              exact ih _ _ _ n i temp bb (by omega) h
      · rw [if_neg hi0] at h; simp at h

/-- C34.  Size-0 AC symbols other than end of block all act as a skip of 16.  In
every state `(i, temp, bb)` of the AC loop of a block with `i < 64`, if `decode`
returns a symbol `rs` with `rs & 15 = 0` and run `rs >> 4` in `1..14`, the next loop
state is `(i + 16, temp, bb')` with the bit buffer `bb'` that `decode` left: the
position advances by exactly 16, no coefficient is stored and no magnitude bits are
read, as for `0xF0`. -/
theorem size_zero_symbols_skip (table : ComputeHuffmanTable) (input_data : List Nat) (dc : Int)
    (bb0 : BitBuffer) (n i : Nat) (temp : List Int) (bb bb' : BitBuffer) (rs : Nat)
    (hstate : (acStates table input_data 64 1 (dcBlock dc) bb0).get? n = some (i, temp, bb))
    (hi : i < 64) (hsize : rs &&& 15 = 0) (hrun1 : 1 ≤ rs >>> 4) (hrun14 : rs >>> 4 ≤ 14)
    (hd : decode table input_data bb = some (rs, bb')) :
    (acStates table input_data 64 1 (dcBlock dc) bb0).get? (n + 1) =
      some (i + 16, temp, bb') := by
  obtain ⟨fuel', hf, hdrop⟩ := acStates_drop table input_data 64 1 (dcBlock dc) bb0 n i temp bb
    (by omega) hstate
  have h16 : ¬ rs < 16 := by
    rw [Nat.shiftRight_eq_div_pow] at hrun1
    omega
  have hget : (acStates table input_data 64 1 (dcBlock dc) bb0).get? (n + 1) =
      ((acStates table input_data 64 1 (dcBlock dc) bb0).drop n).get? 1 := by
    rw [List.get?_eq_getElem?, List.get?_eq_getElem?, List.getElem?_drop]
  rw [hget, hdrop]
  obtain ⟨f, rfl⟩ : ∃ f, fuel' = f + 1 + 1 := ⟨fuel' - 2, by omega⟩
  unfold acStates
  rw [List.get?_cons_succ, if_pos hi, hd]
  simp only
  rw [if_neg (by rw [hsize]; simp), if_neg h16]
  unfold acStates
  rw [List.get?_cons_zero]

/-- Witness of `size_zero_symbols_skip`: on the bits `01 00`, the first loop state, at
position 1, decodes `0x30` and is followed by the state at position 17 with the same
block and the bit buffer as `decode` left it. -/
theorem size_zero_symbols_skip_witness :
    (acStates (computeHuffmanTable skipTable) [0x40, 0] 64 1 (dcBlock 5) (laneInit 0)).get? (0 + 1) =
      some (1 + 16, dcBlock 5, { offset := 0, used := 16, data := 0x4000, remain := 14 }) :=
  size_zero_symbols_skip (computeHuffmanTable skipTable) [0x40, 0] 5 (laneInit 0) 0 1 (dcBlock 5)
    (laneInit 0) { offset := 0, used := 16, data := 0x4000, remain := 14 } 0x30
    (by decide) (by decide) (by decide) (by decide) (by decide) (by decide)

/-! ## Orientation of the inverse DCT -/

theorem wrapI_idem (z : Int) : wrapI (wrapI z) = wrapI z := by
  unfold wrapI; omega

theorem idctOutputs_single (s bias divisor : Int) :
    idctOutputs (idct_compute s 0 0 0 0 0 0 0) bias divisor =
      List.replicate 8 (wrapI (wrapI (s * 4096) + bias) / divisor) := by
  have hw0 : wrapI 0 = 0 := by decide
  unfold idctOutputs idct_compute
  simp only [add_zero, zero_add, sub_zero, zero_mul, hw0, wrapI_idem]
  rfl

theorem flatMap_range_length (f : Nat → List Int) (hf : ∀ i, (f i).length = 8) :
    ∀ n, ((List.range n).flatMap f).length = 8 * n := by
  intro n
  induction n with
  | zero => rfl
  | succ n ih =>
    rw [List.range_succ, List.flatMap_append, List.length_append, ih]
    simp only [List.flatMap_cons, List.flatMap_nil, List.append_nil, hf]
    omega

theorem flatMap_getD_block (f : Nat → List Int) (hf : ∀ i, (f i).length = 8) :
    ∀ n a b, a < n → b < 8 →
      ((List.range n).flatMap f).getD (8 * a + b) 0 = (f a).getD b 0 := by
  intro n
  induction n with
  | zero => intro a b ha _; omega
  | succ n ih =>
    intro a b ha hb
    have hlen := flatMap_range_length f hf n
    rw [List.range_succ, List.flatMap_append]
    simp only [List.flatMap_cons, List.flatMap_nil, List.append_nil]
    by_cases han : a < n
    · rw [List.getD_append _ _ _ _ (by rw [hlen]; omega)]
      exact ih a b han hb
    · have hae : a = n := by omega
      rw [List.getD_append_right _ _ _ _ (by rw [hlen]; omega), hlen, hae,
        Nat.add_sub_cancel_left]

theorem idctFirst_length (data qt : List Int) (i : Nat) : (idctFirst data qt i).length = 8 := rfl

theorem idctSecond_length (temp : List Int) (i : Nat) : (idctSecond temp i).length = 8 := rfl

theorem getD_replicate8 (c : Int) (b : Nat) (hb : b < 8) : (List.replicate 8 c).getD b 0 = c := by
  rw [List.getD_eq_getElem?_getD, List.getElem?_replicate, if_pos hb]
  rfl

theorem idct_getD_block (data qt : List Int) (x y : Nat) (hx : x < 8) (hy : y < 8) :
    (idct data qt).getD (8 * y + x) 0 =
      (idctSecond ((List.range 8).flatMap (idctFirst data qt)) y).getD x 0 := by
  unfold idct
  exact flatMap_getD_block _ (idctSecond_length _) 8 y x hy hx

theorem temp_getD_block (data qt : List Int) (i k : Nat) (hi : i < 8) (hk : k < 8) :
    ((List.range 8).flatMap (idctFirst data qt)).getD (i + 8 * k) 0 =
      (idctFirst data qt k).getD i 0 := by
  rw [Nat.add_comm]
  exact flatMap_getD_block _ (idctFirst_length data qt) 8 k i hk hi

theorem idctFirst_row0 (data qt : List Int) (a : Nat) (ha : a < 8)
    (hrow : ∀ k, 8 ≤ k → k < 64 → data.getD k 0 = 0) :
    idctFirst data qt a =
      List.replicate 8
        (wrapI (wrapI (wrapI (data.getD a 0 * qt.getD a 0) * 4096) + 0x200) / 1024) := by
  have hw0 : wrapI 0 = 0 := by decide
  unfold idctFirst
  simp only [hrow (a + 8 * 1) (by omega) (by omega),
    hrow (a + 8 * 2) (by omega) (by omega), hrow (a + 8 * 3) (by omega) (by omega),
    hrow (a + 8 * 4) (by omega) (by omega), hrow (a + 8 * 5) (by omega) (by omega),
    hrow (a + 8 * 6) (by omega) (by omega), hrow (a + 8 * 7) (by omega) (by omega), zero_mul,
    hw0, Nat.mul_zero, Nat.add_zero]
  exact idctOutputs_single _ _ _

theorem idctFirst_col0 (data qt : List Int) (a : Nat) (ha1 : 1 ≤ a) (ha : a < 8)
    (hcol : ∀ k, k < 64 → k % 8 ≠ 0 → data.getD k 0 = 0) :
    idctFirst data qt a = List.replicate 8 0 := by
  unfold idctFirst
  simp only [hcol (a + 8 * 0) (by omega) (by omega), hcol (a + 8 * 1) (by omega) (by omega),
    hcol (a + 8 * 2) (by omega) (by omega), hcol (a + 8 * 3) (by omega) (by omega),
    hcol (a + 8 * 4) (by omega) (by omega), hcol (a + 8 * 5) (by omega) (by omega),
    hcol (a + 8 * 6) (by omega) (by omega), hcol (a + 8 * 7) (by omega) (by omega), zero_mul]
  decide

/-- C33.  Orientation of the inverse DCT.  For every quantisation table: when all
non-zero coefficients of a block lie in row 0 of the natural order (indices `0..7`),
the 8 rows of the output are identical, `dest[8 y + x] = dest[x]`; when they all lie
in column 0 (indices `0, 8, .., 56`), every row of the output is constant,
`dest[8 y + x] = dest[8 y]`. -/
theorem idct_separable (data qt : List Int) :
    ((∀ k, 8 ≤ k → k < 64 → data.getD k 0 = 0) →
      ∀ x y, x < 8 → y < 8 →
        (idct data qt).getD (8 * y + x) 0 = (idct data qt).getD x 0) ∧
    ((∀ k, k < 64 → k % 8 ≠ 0 → data.getD k 0 = 0) →
      ∀ x y, x < 8 → y < 8 →
        (idct data qt).getD (8 * y + x) 0 = (idct data qt).getD (8 * y) 0) := by
  constructor
  · intro hrow x y hx hy
    have htemp : ∀ i k, i < 8 → k < 8 →
        ((List.range 8).flatMap (idctFirst data qt)).getD (i + 8 * k) 0 =
          wrapI (wrapI (wrapI (data.getD k 0 * qt.getD k 0) * 4096) + 0x200) / 1024 := by
      intro i k hi hk
      rw [temp_getD_block data qt i k hi hk, idctFirst_row0 data qt k hk hrow,
        getD_replicate8 _ i hi]
    have hsecond : ∀ i, i < 8 →
        idctSecond ((List.range 8).flatMap (idctFirst data qt)) i =
          idctSecond ((List.range 8).flatMap (idctFirst data qt)) 0 := by
      intro i hi
      unfold idctSecond
      simp only [htemp i 0 hi (by decide), htemp i 1 hi (by decide), htemp i 2 hi (by decide),
        htemp i 3 hi (by decide), htemp i 4 hi (by decide), htemp i 5 hi (by decide),
        htemp i 6 hi (by decide), htemp i 7 hi (by decide),
        htemp 0 0 (by decide) (by decide), htemp 0 1 (by decide) (by decide),
        htemp 0 2 (by decide) (by decide), htemp 0 3 (by decide) (by decide),
        htemp 0 4 (by decide) (by decide), htemp 0 5 (by decide) (by decide),
        htemp 0 6 (by decide) (by decide), htemp 0 7 (by decide) (by decide)]
    have h0 := idct_getD_block data qt x 0 hx (by decide)
    rw [Nat.mul_zero, Nat.zero_add] at h0
    rw [idct_getD_block data qt x y hx hy, hsecond y hy, h0]
  · intro hcol x y hx hy
    have htemp : ∀ i k, i < 8 → 1 ≤ k → k < 8 →
        ((List.range 8).flatMap (idctFirst data qt)).getD (i + 8 * k) 0 = 0 := by
      intro i k hi hk1 hk
      rw [temp_getD_block data qt i k hi hk, idctFirst_col0 data qt k hk1 hk hcol,
        getD_replicate8 _ i hi]
    have hsecond : ∀ i, i < 8 →
        idctSecond ((List.range 8).flatMap (idctFirst data qt)) i =
          List.replicate 8
            (wrapI (wrapI (((List.range 8).flatMap (idctFirst data qt)).getD (i + 8 * 0) 0 *
              4096) + (0x10000 + 128 * 131072)) / 131072) := by
      intro i hi
      unfold idctSecond
      simp only [htemp i 1 hi (by decide) (by decide), htemp i 2 hi (by decide) (by decide),
        htemp i 3 hi (by decide) (by decide), htemp i 4 hi (by decide) (by decide),
        htemp i 5 hi (by decide) (by decide), htemp i 6 hi (by decide) (by decide),
        htemp i 7 hi (by decide) (by decide)]
      exact idctOutputs_single _ _ _
    have h0 := idct_getD_block data qt 0 y (by decide) hy
    rw [Nat.add_zero] at h0
    rw [idct_getD_block data qt x y hx hy, h0, hsecond y hy, getD_replicate8 _ x hx,
      getD_replicate8 _ 0 (by decide)]

/-- Witness of `idct_separable`: a block with the coefficients 80 and 40 at the
indices 0 and 1 has equal output rows, and a block with 80 and 40 at the indices 0
and 8 has constant output rows. -/
theorem idct_separable_witness :
    (idct ([80, 40] ++ List.replicate 62 0) (List.replicate 64 1)).getD (8 * 3 + 5) 0 =
      (idct ([80, 40] ++ List.replicate 62 0) (List.replicate 64 1)).getD 5 0 ∧
    (idct ([80, 0, 0, 0, 0, 0, 0, 0, 40] ++ List.replicate 55 0) (List.replicate 64 1)).getD
        (8 * 3 + 5) 0 =
      (idct ([80, 0, 0, 0, 0, 0, 0, 0, 40] ++ List.replicate 55 0) (List.replicate 64 1)).getD
        (8 * 3) 0 ∧
    (idct ([80, 40] ++ List.replicate 62 0) (List.replicate 64 1)).getD 0 0 ≠
      (idct ([80, 40] ++ List.replicate 62 0) (List.replicate 64 1)).getD 7 0 :=
  ⟨(idct_separable ([80, 40] ++ List.replicate 62 0) (List.replicate 64 1)).1 (by decide) 5 3
      (by decide) (by decide),
   (idct_separable ([80, 0, 0, 0, 0, 0, 0, 0, 40] ++ List.replicate 55 0)
      (List.replicate 64 1)).2 (by decide) 5 3 (by decide) (by decide),
   by decide⟩

end JpegCompute

namespace Mango

/-! ## Atari colours -/

theorem and_low12 (c m : Nat) (hm : 4095 &&& m = m) : (c % 4096) &&& m = c &&& m := by
  have h := Nat.and_pow_two_sub_one_eq_mod c 12
  simp only [Nat.reducePow, Nat.reduceSub] at h
  rw [← h, Nat.and_assoc, hm]

theorem convert_atari_color_low12 (c : Nat) :
    convert_atari_color (c % 4096) = convert_atari_color c := by
  unfold convert_atari_color
  rw [and_low12 c 0x7 (by decide), and_low12 c 0x8 (by decide), and_low12 c 0x70 (by decide),
    and_low12 c 0x80 (by decide), and_low12 c 0x700 (by decide), and_low12 c 0x800 (by decide)]

set_option maxRecDepth 10000 in
theorem convert_atari_color_block (h : Nat) (hh : h < 16) :
    ∀ l, l < 256 → convert_atari_color (256 * h + l) =
      { b := expandNibble ((256 * h + l) &&& 15),
        g := expandNibble (((256 * h + l) >>> 4) &&& 15),
        r := expandNibble (((256 * h + l) >>> 8) &&& 15), a := 255 } := by
  interval_cases h <;> decide

theorem convert_atari_color_4096 (c : Nat) (hc : c < 4096) :
    convert_atari_color c =
      { b := expandNibble (c &&& 15), g := expandNibble ((c >>> 4) &&& 15),
        r := expandNibble ((c >>> 8) &&& 15), a := 255 } := by
  have := convert_atari_color_block (c / 256) (by omega) (c % 256) (Nat.mod_lt _ (by decide))
  rw [Nat.div_add_mod] at this
  exact this

theorem nibble_low12 (c s : Nat) (hs : s ≤ 8) :
    ((c % 4096) >>> s) &&& 15 = (c >>> s) &&& 15 := by
  have h15 : ∀ x : Nat, x &&& 15 = x % 16 := by
    intro x
    have := Nat.and_pow_two_sub_one_eq_mod x 4
    simpa using this
  rw [h15, h15, Nat.shiftRight_eq_div_pow, Nat.shiftRight_eq_div_pow]
  interval_cases s <;> omega

theorem expandNibble_le (n : Nat) (hn : n < 16) : expandNibble n ≤ 255 := by
  interval_cases n <;> decide

theorem nibble_lt (x : Nat) : x &&& 15 < 16 := by
  have := Nat.and_pow_two_sub_one_eq_mod x 4
  simp only [Nat.reducePow, Nat.reduceSub] at this
  rw [this]
  exact Nat.mod_lt _ (by decide)

/-- C39.  `convert_atari_color` expands each 4-bit STE channel to 8 bits.  For every
colour word `c`: alpha is 255; `r`, `g`, `b` are `17 * (((n & 7) << 1) | (n >> 3))`
for the nibble `n` in the bits 8..11, 4..7 and 0..3 of `c`; every channel is in
`0..255`; the bits from 12 up do not affect the result; `0x000` gives black and
`0xFFF` gives white. -/
theorem atari_color_expansion (c : Nat) :
    convert_atari_color c =
      { b := expandNibble (c &&& 15), g := expandNibble ((c >>> 4) &&& 15),
        r := expandNibble ((c >>> 8) &&& 15), a := 255 } ∧
    ((convert_atari_color c).r ≤ 255 ∧ (convert_atari_color c).g ≤ 255 ∧
      (convert_atari_color c).b ≤ 255) ∧
    convert_atari_color (c &&& 0xFFF) = convert_atari_color c ∧
    convert_atari_color 0x000 = { b := 0, g := 0, r := 0, a := 255 } ∧
    convert_atari_color 0xFFF = { b := 255, g := 255, r := 255, a := 255 } := by
  have hmain : convert_atari_color c =
      { b := expandNibble (c &&& 15), g := expandNibble ((c >>> 4) &&& 15),
        r := expandNibble ((c >>> 8) &&& 15), a := 255 } := by
    rw [← convert_atari_color_low12 c,
      convert_atari_color_4096 (c % 4096) (Nat.mod_lt _ (by decide))]
    have h0 := nibble_low12 c 0 (by decide)
    rw [Nat.shiftRight_zero, Nat.shiftRight_zero] at h0
    rw [h0, nibble_low12 c 4 (by decide), nibble_low12 c 8 (by decide)]
  refine ⟨hmain, ?_, ?_, by decide, by decide⟩
  · rw [hmain]
    exact ⟨expandNibble_le _ (nibble_lt _), expandNibble_le _ (nibble_lt _),
      expandNibble_le _ (nibble_lt _)⟩
  · have h := Nat.and_pow_two_sub_one_eq_mod c 12
    simp only [Nat.reducePow, Nat.reduceSub] at h
    rw [h]
    exact convert_atari_color_low12 c

/-! ## Degas decompression -/

set_option maxRecDepth 20000 in
/-- C35 (failing inputs).  With `scansize = 32000` and the single input byte `0x81`,
`degas_decompress` reads the byte at `input_end`; with `scansize = 32000` and 249 runs
of 128 bytes, one run of 127 bytes and one more run of 128 bytes, it writes the 128
bytes from position 31999 on, 127 of them past the end of the buffer; with
`scansize = 1` and the input `01 AA BB`, it copies two bytes into the one-byte
buffer. -/
theorem degas_decompress_overrun :
    degas_decompress [0x81] 1 32000 32000 0 0 =
      [Access.read 0 1, Access.read 1 1, Access.write 0 128] ∧
    ¬ Access.inside 1 32000 (Access.read 1 1) ∧
    Access.write 31999 128 ∈
      degas_decompress degasOverrunInput degasOverrunInput.length 32000 32000 0 0 ∧
    ¬ Access.inside degasOverrunInput.length 32000 (Access.write 31999 128) ∧
    degas_decompress [0x01, 0xAA, 0xBB] 3 1 1 0 0 =
      [Access.read 0 1, Access.read 1 2, Access.write 0 2] ∧
    ¬ Access.inside 3 1 (Access.write 0 2) := by
  refine ⟨by decide, by decide, by decide, by decide, by decide, by decide⟩

/-! ## Mesh round trip -/

/-- C36 (failing input).  For the mesh with the single triangle `(1, 2, 3)` of
material 5, `convertMesh(const Mesh&)` produces one primitive with material 0 (the
running primitive starts with material 0 and takes the material of a triangle only
when it already counts indices), and converting back gives the triangle `(1, 2, 3)`
with material 0: the vertices, the number and the order of the triangles come back,
the material does not.  With material 0 in the first triangle the mesh comes back
unchanged. -/
theorem convertMesh_material_lost :
    Mesh.convertMesh { triangles := [{ vertex0 := 1, vertex1 := 2, vertex2 := 3, material := 5 }] } =
      ({ vertices := [1, 2, 3], indices := [0, 1, 2],
         primitives := [{ mode := Mode.TRIANGLE_LIST, start := 0, count := 3, material := 0 }] } :
        IndexedMesh Nat) ∧
    IndexedMesh.convertMesh (Mesh.convertMesh
        { triangles := [{ vertex0 := 1, vertex1 := 2, vertex2 := 3, material := 5 }] }) =
      some ({ triangles := [{ vertex0 := 1, vertex1 := 2, vertex2 := 3, material := 0 }] } :
        Mesh Nat) ∧
    IndexedMesh.convertMesh (Mesh.convertMesh
        { triangles := [{ vertex0 := 1, vertex1 := 2, vertex2 := 3, material := 5 },
                        { vertex0 := 3, vertex1 := 2, vertex2 := 4, material := 5 }] }) =
      some ({ triangles := [{ vertex0 := 1, vertex1 := 2, vertex2 := 3, material := 0 },
                            { vertex0 := 3, vertex1 := 2, vertex2 := 4, material := 5 }] } :
        Mesh Nat) ∧
    IndexedMesh.convertMesh (Mesh.convertMesh
        { triangles := [{ vertex0 := 1, vertex1 := 2, vertex2 := 3, material := 0 },
                        { vertex0 := 3, vertex1 := 2, vertex2 := 4, material := 5 }] }) =
      some ({ triangles := [{ vertex0 := 1, vertex1 := 2, vertex2 := 3, material := 0 },
                            { vertex0 := 3, vertex1 := 2, vertex2 := 4, material := 5 }] } :
        Mesh Nat) := by
  refine ⟨by decide, by decide, by decide, by decide⟩

/-! ## The capacity invariant of `Buffer` -/

theorem copyBytes_length (dest : List (Option Nat)) (offset : Nat) (source : List (Option Nat))
    (h : offset + source.length ≤ dest.length) :
    (copyBytes dest offset source).length = dest.length := by
  unfold copyBytes
  simp only [List.length_append, List.length_take, List.length_drop]
  omega

theorem copyBytes_take (dest : List (Option Nat)) (offset : Nat) (source : List (Option Nat))
    (h : offset ≤ dest.length) :
    (copyBytes dest offset source).take offset = dest.take offset := by
  unfold copyBytes
  rw [List.append_assoc, List.take_append_of_le_length (by rw [List.length_take]; omega),
    List.take_take, Nat.min_self]

theorem copyBytes_mid (dest : List (Option Nat)) (offset : Nat) (source : List (Option Nat))
    (h : offset ≤ dest.length) :
    ((copyBytes dest offset source).drop offset).take source.length = source := by
  unfold copyBytes
  have hl : (dest.take offset).length = offset := by rw [List.length_take]; omega
  rw [List.append_assoc, List.drop_append_of_le_length (by omega), List.drop_of_length_le (by omega),
    List.nil_append, List.take_append_of_le_length (le_refl _), List.take_length]

theorem sourceBytes_length_le (source : Option (List Nat)) (bytes : Nat) :
    (sourceBytes source bytes).length ≤ bytes := by
  unfold sourceBytes
  cases source with
  | none => simp
  | some l => simp only [List.length_map, List.length_take]; omega

theorem inv_alloc_write (bytes : Nat) (data : List (Option Nat)) (h : data.length ≤ bytes) :
    Buffer.Inv
      { address := writeAt (Buffer.allocate bytes) 0 data, size := bytes, capacity := bytes } := by
  unfold Buffer.Inv writeAt Buffer.allocate
  refine ⟨le_refl _, ?_⟩
  simp only [Option.map_some']
  rw [copyBytes_length _ _ _ (by rw [List.length_replicate]; omega), List.length_replicate]

theorem inv_alloc (bytes : Nat) :
    Buffer.Inv { address := Buffer.allocate bytes, size := bytes, capacity := bytes } := by
  unfold Buffer.Inv Buffer.allocate
  exact ⟨le_refl _, List.length_replicate _ _⟩

theorem inv_null : Buffer.Inv { address := none, size := 0, capacity := 0 } :=
  ⟨le_refl _, rfl⟩

theorem reserve_size (b : Buffer) (n : Nat) : (b.reserve n).size = b.size := by
  unfold Buffer.reserve
  split_ifs <;> rfl

theorem reserve_capacity (b : Buffer) (n : Nat) :
    (b.reserve n).capacity = if n > b.capacity then n else b.capacity := by
  unfold Buffer.reserve
  split_ifs <;> rfl

theorem reserve_inv (b : Buffer) (n : Nat) (h : b.Inv) : (b.reserve n).Inv := by
  unfold Buffer.reserve
  by_cases hn : n > b.capacity
  · rw [if_pos hn]
    obtain ⟨hs, hb⟩ := h
    refine ⟨by show b.size ≤ n; omega, ?_⟩
    cases ha : b.address with
    | none =>
      simp only [Buffer.allocate]
      exact List.length_replicate _ _
    | some block =>
      rw [ha] at hb
      simp only [Buffer.allocate, writeAt, Option.map_some']
      rw [copyBytes_length _ _ _ (by
        rw [List.length_replicate, List.length_take]
        have : block.length = b.capacity := hb
        omega), List.length_replicate]
  · rw [if_neg hn]
    exact h

theorem reserve_bytes (b : Buffer) (n : Nat) (h : b.Inv) : (b.reserve n).bytes = b.bytes := by
  unfold Buffer.reserve
  by_cases hn : n > b.capacity
  · rw [if_pos hn]
    obtain ⟨hs, hb⟩ := h
    unfold Buffer.bytes
    cases ha : b.address with
    | none =>
      rw [ha] at hb
      have h0 : b.size = 0 := by
        have : b.capacity = 0 := hb
        omega
      simp only [Buffer.allocate, h0, List.take_zero]
    | some block =>
      rw [ha] at hb
      have hbl : block.length = b.capacity := hb
      simp only [Buffer.allocate, writeAt, Option.map_some']
      unfold copyBytes
      rw [List.take_zero, List.nil_append,
        List.take_append_of_le_length (by rw [List.length_take]; omega), List.take_take,
        Nat.min_self]
  · rw [if_neg hn]

theorem write_inv (b : Buffer) (offset : Nat) (data : List (Option Nat)) (h : b.Inv)
    (hle : offset + data.length ≤ b.size) :
    Buffer.Inv { b with address := writeAt b.address offset data } := by
  obtain ⟨hs, hb⟩ := h
  refine ⟨hs, ?_⟩
  cases ha : b.address with
  | none =>
    rw [ha] at hb
    exact hb
  | some block =>
    rw [ha] at hb
    have hbl : block.length = b.capacity := hb
    simp only [writeAt, Option.map_some']
    rw [copyBytes_length _ _ _ (by omega)]
    exact hbl

theorem append_fst_size (b : Buffer) (n : Nat) (hov : (b.size + n) * 7 < 18446744073709551616) :
    (b.append n).1.size = b.size + n ∧ (b.append n).2 = b.size := by
  unfold Buffer.append
  simp only
  split_ifs
  · rw [reserve_size, Nat.mod_eq_of_lt (by omega)]
    exact ⟨rfl, rfl⟩
  · rw [Nat.mod_eq_of_lt (by omega)]
    exact ⟨rfl, rfl⟩

theorem append_fst_capacity (b : Buffer) (n : Nat)
    (hov : (b.size + n) * 7 < 18446744073709551616) :
    b.size + n ≤ (b.append n).1.capacity := by
  unfold Buffer.append
  simp only
  rw [Nat.mod_eq_of_lt (show b.size + n < 18446744073709551616 by omega),
    Nat.mod_eq_of_lt hov]
  by_cases hr : b.size + n > b.capacity
  · rw [if_pos hr]
    show b.size + n ≤ (b.reserve ((b.size + n) * 7 / 5)).capacity
    rw [reserve_capacity]
    split_ifs <;> omega
  · rw [if_neg hr]
    show b.size + n ≤ b.capacity
    omega

theorem append_fst_inv (b : Buffer) (n : Nat) (h : b.Inv)
    (hov : (b.size + n) * 7 < 18446744073709551616) : (b.append n).1.Inv := by
  have hcap := append_fst_capacity b n hov
  have hsz := (append_fst_size b n hov).1
  refine ⟨by omega, ?_⟩
  unfold Buffer.append
  simp only
  split_ifs
  · exact (reserve_inv b _ h).2
  · exact h.2

theorem append_fst_bytes (b : Buffer) (n : Nat) (h : b.Inv)
    (hov : (b.size + n) * 7 < 18446744073709551616) :
    (b.append n).1.bytes.take b.size = b.bytes := by
  have key : ∀ b1 : Buffer, b1.bytes = b.bytes → b1.size = b.size →
      (Buffer.bytes { b1 with size := (b1.size + n) % 18446744073709551616 }).take b.size =
        b.bytes := by
    intro b1 hb1 hs1
    rw [← hb1]
    unfold Buffer.bytes
    cases b1.address with
    | none => simp
    | some block =>
      simp only
      rw [List.take_take, Nat.mod_eq_of_lt (by omega), hs1]
      congr 1
      omega
  unfold Buffer.append
  simp only
  split_ifs
  · exact key _ (reserve_bytes b _ h) (reserve_size b _)
  · exact key b rfl rfl

theorem resize_inv (b : Buffer) (n : Nat) (h : b.Inv) : (b.resize n).Inv := by
  have hr := reserve_inv b n h
  have hc := reserve_capacity b n
  refine ⟨?_, hr.2⟩
  show n ≤ (b.reserve n).capacity
  rw [hc]
  split_ifs <;> omega

theorem appendFill_inv (b : Buffer) (n v : Nat) (h : b.Inv)
    (hov : (b.size + n) * 7 < 18446744073709551616) : (b.appendFill n v).Inv := by
  obtain ⟨hs, ho⟩ := append_fst_size b n hov
  unfold Buffer.appendFill
  exact write_inv _ _ _ (append_fst_inv b n h hov) (by
    rw [List.length_replicate, hs, ho])

theorem appendCopy_inv (b : Buffer) (source : Option (List Nat)) (n : Nat) (h : b.Inv)
    (hov : (b.size + n) * 7 < 18446744073709551616) : (b.appendCopy source n).Inv := by
  obtain ⟨hs, ho⟩ := append_fst_size b n hov
  unfold Buffer.appendCopy
  cases source with
  | none => exact append_fst_inv b n h hov
  | some l =>
    exact write_inv _ _ _ (append_fst_inv b n h hov) (by
      have := sourceBytes_length_le (some l) n
      rw [hs, ho]
      omega)

theorem appendCopy_size (b : Buffer) (source : Option (List Nat)) (n : Nat) :
    (b.appendCopy source n).size = (b.append n).1.size ∧
    (b.appendCopy source n).capacity = (b.append n).1.capacity := by
  unfold Buffer.appendCopy
  cases source <;> exact ⟨rfl, rfl⟩

theorem appendCopy_content (b : Buffer) (src : List Nat) (n : Nat) (h : b.Inv)
    (hn : n ≤ src.length) (hov : (b.size + n) * 7 < 18446744073709551616) :
    (b.appendCopy (some src) n).size = b.size + n ∧
    (b.appendCopy (some src) n).bytes.take b.size = b.bytes ∧
    (b.appendCopy (some src) n).bytes.drop b.size = (src.take n).map some := by
  obtain ⟨hs, ho⟩ := append_fst_size b n hov
  have hinv := append_fst_inv b n h hov
  have hbytes := append_fst_bytes b n h hov
  have hlen : (sourceBytes (some src) n).length = n := by
    simp only [sourceBytes, List.length_map, List.length_take]
    omega
  have hsrc : sourceBytes (some src) n = (src.take n).map some := rfl
  refine ⟨by rw [(appendCopy_size b (some src) n).1, hs], ?_, ?_⟩
  · rw [← hbytes]
    unfold Buffer.appendCopy Buffer.bytes
    simp only
    cases ha : (b.append n).1.address with
    | none => simp [writeAt]
    | some block =>
      have hbl : block.length = (b.append n).1.capacity := by
        have := hinv.2
        rw [ha] at this
        exact this
      have hle := hinv.1
      simp only [writeAt, Option.map_some']
      rw [List.take_take, List.take_take, hs, ho, Nat.min_eq_left (by omega),
        copyBytes_take _ _ _ (by omega)]
  · unfold Buffer.appendCopy Buffer.bytes
    simp only
    cases ha : (b.append n).1.address with
    | none =>
      have hcap : (b.append n).1.capacity = 0 := by
        have := hinv.2
        rw [ha] at this
        exact this
      have hle := hinv.1
      have hn0 : n = 0 := by omega
      simp [writeAt, hn0]
    | some block =>
      have hbl : block.length = (b.append n).1.capacity := by
        have := hinv.2
        rw [ha] at this
        exact this
      have hle := hinv.1
      simp only [writeAt, Option.map_some']
      have hmid := copyBytes_mid block b.size (sourceBytes (some src) n) (by omega)
      rw [hlen] at hmid
      rw [List.drop_take, hs, ho, Nat.add_sub_cancel_left, hmid, hsrc]

/-- C37.  Buffer capacity invariant.  Every constructor of `Buffer` establishes
`size() <= capacity()` (and a storage block of `capacity()` bytes); `reset` (all
overloads), `resize`, `reserve`, `append` (all overloads, for sizes whose sum times 7
fits in `size_t`) and `acquire` preserve `size() <= capacity()`, and also the whole
representation invariant; and `append(source, n)` with a source of at least `n` bytes
increases `size()` by exactly `n`, leaves the first old-size bytes unchanged and makes
the bytes from the old size on equal to the first `n` bytes of the source. -/
theorem buffer_capacity_invariant :
    (Buffer.init.Inv ∧ (∀ n, (Buffer.initBytes n).Inv) ∧ (∀ n v, (Buffer.initFill n v).Inv) ∧
      (∀ source n, (Buffer.initCopy source n).Inv) ∧ (∀ memory, (Buffer.initMemory memory).Inv) ∧
      (∀ content, (Buffer.initStream content).Inv)) ∧
    (∀ b : Buffer, b.size ≤ b.capacity →
      b.reset.size ≤ b.reset.capacity ∧
      (∀ n, (b.resetBytes n).size ≤ (b.resetBytes n).capacity) ∧
      (∀ n v, (b.resetFill n v).size ≤ (b.resetFill n v).capacity) ∧
      (∀ n, (b.resize n).size ≤ (b.resize n).capacity) ∧
      (∀ n, (b.reserve n).size ≤ (b.reserve n).capacity) ∧
      b.acquire.2.size ≤ b.acquire.2.capacity ∧
      (∀ n, (b.size + n) * 7 < 18446744073709551616 →
        (b.append n).1.size ≤ (b.append n).1.capacity ∧
        (∀ v, (b.appendFill n v).size ≤ (b.appendFill n v).capacity) ∧
        (∀ source, (b.appendCopy source n).size ≤ (b.appendCopy source n).capacity)) ∧
      (∀ memory : ConstMemory, (b.size + memory.size) * 7 < 18446744073709551616 →
        (b.appendMemory memory).size ≤ (b.appendMemory memory).capacity)) ∧
    (∀ b : Buffer, b.Inv →
      b.reset.Inv ∧ (∀ n, (b.resetBytes n).Inv) ∧ (∀ n v, (b.resetFill n v).Inv) ∧
      (∀ n, (b.resize n).Inv) ∧ (∀ n, (b.reserve n).Inv) ∧ b.acquire.2.Inv ∧
      (∀ n, (b.size + n) * 7 < 18446744073709551616 →
        (b.append n).1.Inv ∧ (∀ v, (b.appendFill n v).Inv) ∧
        (∀ source, (b.appendCopy source n).Inv)) ∧
      (∀ memory : ConstMemory, (b.size + memory.size) * 7 < 18446744073709551616 →
        (b.appendMemory memory).Inv)) ∧
    (∀ (b : Buffer) (source : List Nat) (n : Nat), b.Inv → n ≤ source.length →
      (b.size + n) * 7 < 18446744073709551616 →
      (b.appendCopy (some source) n).size = b.size + n ∧
      (b.appendCopy (some source) n).bytes.take b.size = b.bytes ∧
      (b.appendCopy (some source) n).bytes.drop b.size = (source.take n).map some) := by
  refine ⟨⟨inv_null, inv_alloc, ?_, ?_, ?_, ?_⟩, ?_, ?_, ?_⟩
  · intro n v
    exact inv_alloc_write n _ (by rw [List.length_replicate])
  · intro source n
    exact inv_alloc_write n _ (sourceBytes_length_le source n)
  · intro memory
    exact inv_alloc_write memory.size _ (sourceBytes_length_le memory.address memory.size)
  · intro content
    exact inv_alloc_write content.length _ (by rw [List.length_map])
  · intro b hb
    refine ⟨le_refl _, fun n => le_refl _, fun n v => le_refl _, ?_, ?_, le_refl _, ?_, ?_⟩
    · intro n
      show n ≤ (b.reserve n).capacity
      rw [reserve_capacity]
      split_ifs <;> omega
    · intro n
      rw [reserve_size, reserve_capacity]
      split_ifs <;> omega
    · intro n hov
      have h1 : (b.append n).1.size ≤ (b.append n).1.capacity := by
        rw [(append_fst_size b n hov).1]
        exact append_fst_capacity b n hov
      refine ⟨h1, fun v => h1, fun source => ?_⟩
      rw [(appendCopy_size b source n).1, (appendCopy_size b source n).2]
      exact h1
    · intro memory hov
      show (b.appendCopy memory.address memory.size).size ≤
        (b.appendCopy memory.address memory.size).capacity
      rw [(appendCopy_size b _ _).1, (appendCopy_size b _ _).2, (append_fst_size b _ hov).1]
      exact append_fst_capacity b _ hov
  · intro b hb
    refine ⟨inv_null, inv_alloc, ?_, fun n => resize_inv b n hb, fun n => reserve_inv b n hb, inv_null, ?_, ?_⟩
    · intro n v
      exact inv_alloc_write n _ (by rw [List.length_replicate])
    · intro n hov
      exact ⟨append_fst_inv b n hb hov, fun v => appendFill_inv b n v hb hov,
        fun source => appendCopy_inv b source n hb hov⟩
    · intro memory hov
      exact appendCopy_inv b memory.address memory.size hb hov
  · intro b source n hb hn hov
    exact appendCopy_content b source n hb hn hov

/-- Witness of `buffer_capacity_invariant`: appending the 3 bytes `7, 8, 9` to the
buffer holding `1, 2` in a block of 2 bytes grows the capacity to 7 and gives the
content `1, 2, 7, 8, 9`. -/
theorem buffer_capacity_invariant_witness :
    ((Buffer.initCopy (some [1, 2]) 2).appendCopy (some [7, 8, 9]) 3).size =
        (Buffer.initCopy (some [1, 2]) 2).size + 3 ∧
    ((Buffer.initCopy (some [1, 2]) 2).appendCopy (some [7, 8, 9]) 3).bytes.take
        (Buffer.initCopy (some [1, 2]) 2).size = (Buffer.initCopy (some [1, 2]) 2).bytes ∧
    ((Buffer.initCopy (some [1, 2]) 2).appendCopy (some [7, 8, 9]) 3).bytes.drop
        (Buffer.initCopy (some [1, 2]) 2).size = ([7, 8, 9].take 3).map some ∧
    ((Buffer.initCopy (some [1, 2]) 2).appendCopy (some [7, 8, 9]) 3).bytes =
      [some 1, some 2, some 7, some 8, some 9] ∧
    ((Buffer.initCopy (some [1, 2]) 2).appendCopy (some [7, 8, 9]) 3).capacity = 7 ∧
    ((Buffer.initCopy (some [1, 2]) 2).append 3).1.size ≤
      ((Buffer.initCopy (some [1, 2]) 2).append 3).1.capacity :=
  ⟨(buffer_capacity_invariant.2.2.2 (Buffer.initCopy (some [1, 2]) 2) [7, 8, 9] 3
      (buffer_capacity_invariant.1.2.2.2.1 (some [1, 2]) 2) (by decide) (by decide)).1,
   (buffer_capacity_invariant.2.2.2 (Buffer.initCopy (some [1, 2]) 2) [7, 8, 9] 3
      (buffer_capacity_invariant.1.2.2.2.1 (some [1, 2]) 2) (by decide) (by decide)).2.1,
   (buffer_capacity_invariant.2.2.2 (Buffer.initCopy (some [1, 2]) 2) [7, 8, 9] 3
      (buffer_capacity_invariant.1.2.2.2.1 (some [1, 2]) 2) (by decide) (by decide)).2.2,
   by decide, by decide,
   ((buffer_capacity_invariant.2.1 (Buffer.initCopy (some [1, 2]) 2) (by decide)).2.2.2.2.2.2.1 3
      (by decide)).1⟩

/-! ## `BufferStream::read` -/

/-- C38.  `BufferStream::read` fails exactly on out-of-range reads.  For every stream
(with a buffer size that is a `size_t`) and every byte count `n`: `read` raises an
exception if and only if `offset > size` or `size - offset < n`; when it raises, the
stream (offset and buffer) is unchanged; otherwise it returns the bytes
`[offset, offset + n)` of the buffer, `n` of them when the buffer satisfies its
invariant, leaves the buffer unchanged and advances the offset by exactly `n`. -/
theorem bufferStream_read (s : BufferStream) (n : Nat)
    (hsize : s.m_buffer.size < 18446744073709551616) :
    ((∃ e, (s.read n).1 = Except.error e) ↔
      (s.m_offset > s.m_buffer.size ∨ s.m_buffer.size - s.m_offset < n)) ∧
    ((s.m_offset > s.m_buffer.size ∨ s.m_buffer.size - s.m_offset < n) → (s.read n).2 = s) ∧
    (¬ (s.m_offset > s.m_buffer.size ∨ s.m_buffer.size - s.m_offset < n) →
      (s.read n).1 = Except.ok ((s.m_buffer.bytes.drop s.m_offset).take n) ∧
      (s.read n).2 = { s with m_offset := s.m_offset + n } ∧
      (s.m_buffer.Inv → s.m_buffer.address ≠ none →
        ((s.m_buffer.bytes.drop s.m_offset).take n).length = n)) := by
  refine ⟨?_, ?_, ?_⟩
  · unfold BufferStream.read
    simp only
    split_ifs with h
    · exact ⟨fun _ => h, fun _ => ⟨_, rfl⟩⟩
    · constructor
      · rintro ⟨e, he⟩
        exact absurd he (by simp)
      · intro h'
        exact absurd h' h
  · intro h
    unfold BufferStream.read
    simp only
    rw [if_pos h]
  · intro h
    have h1 : s.m_offset ≤ s.m_buffer.size := by omega
    have h2 : n ≤ s.m_buffer.size - s.m_offset := by omega
    refine ⟨?_, ?_, ?_⟩
    · unfold BufferStream.read Buffer.bytes
      simp only
      rw [if_neg h]
      cases s.m_buffer.address with
      | none => simp
      | some block =>
        simp only
        rw [List.drop_take, List.take_take, Nat.min_eq_left h2]
    · unfold BufferStream.read
      simp only
      rw [if_neg h, Nat.mod_eq_of_lt (by omega)]
    · intro hinv hne
      unfold Buffer.bytes
      cases ha : s.m_buffer.address with
      | none => exact absurd ha hne
      | some block =>
        have hbl : block.length = s.m_buffer.capacity := by
          have := hinv.2
          rw [ha] at this
          exact this
        have hle := hinv.1
        simp only [List.length_take, List.length_drop]
        omega

/-- Witness of `bufferStream_read`: on the buffer `1, 2, 3, 4, 5` at offset 1, a
read of 3 bytes returns `2, 3, 4` and moves the offset to 4; a read of 5 bytes
raises and leaves the stream as it was. -/
theorem bufferStream_read_witness :
    (BufferStream.read
        { m_buffer := Buffer.initCopy (some [1, 2, 3, 4, 5]) 5, m_offset := 1 } 3).1 =
      Except.ok ((((Buffer.initCopy (some [1, 2, 3, 4, 5]) 5).bytes).drop 1).take 3) ∧
    (((Buffer.initCopy (some [1, 2, 3, 4, 5]) 5).bytes).drop 1).take 3 =
      [some 2, some 3, some 4] ∧
    (BufferStream.read
        { m_buffer := Buffer.initCopy (some [1, 2, 3, 4, 5]) 5, m_offset := 1 } 3).2.m_offset = 4 ∧
    (BufferStream.read
        { m_buffer := Buffer.initCopy (some [1, 2, 3, 4, 5]) 5, m_offset := 1 } 5).2 =
      { m_buffer := Buffer.initCopy (some [1, 2, 3, 4, 5]) 5, m_offset := 1 } :=
  ⟨((bufferStream_read { m_buffer := Buffer.initCopy (some [1, 2, 3, 4, 5]) 5, m_offset := 1 } 3
      (by decide)).2.2 (by decide)).1,
   by decide, by decide,
   (bufferStream_read { m_buffer := Buffer.initCopy (some [1, 2, 3, 4, 5]) 5, m_offset := 1 } 5
      (by decide)).2.1 (by decide)⟩

end Mango
